import Mathlib

/-!
# Verification of the A* maze solver (`maze_solver.py`)

Shallow embedding of the core search engine. Conventions:

* Positions are integer pairs `(row, col)`; direction deltas are integers, so
  coordinates live in `ℤ`.
* Python floats are modeled as rationals; the step-cost literal `1.414`
  becomes the decimal rational `707/500`.
* Python dicts are association lists with the newest binding first
  (assignment prepends, lookup takes the first hit).
* `heapq` is modeled by its documented contract: `heappop` removes and
  returns a minimal element (`Node` ordering compares `f_score` only).
  Ties go to the earliest-pushed element in this model.
* A Python `IndexError` is modeled as `Option.none`; constructor and solver
  return `Option` results accordingly.  The search loop is written with
  explicit fuel; `solveFuel` is large enough that the fuel never runs out
  (proved below), so `none` from `solve` is unreachable on constructed
  solvers.
-/

/-- Grid position `(row, col)`, as in the Python tuples. -/
abbrev Pos := ℤ × ℤ

namespace CellType

/-- `CellType.EMPTY.value` -/
def EMPTY : ℕ := 0

/-- `CellType.WALL.value` -/
def WALL : ℕ := 1

/-- `CellType.START.value` -/
def START : ℕ := 2

/-- `CellType.GOAL.value` -/
def GOAL : ℕ := 3

/-- `CellType.PATH.value` -/
def PATH : ℕ := 4

/-- `CellType.VISITED.value` -/
def VISITED : ℕ := 5

end CellType

/-- The `Node` dataclass.  `order=True` with `compare=False` on every field
except `f_score` means nodes are compared by `f_score` alone.  `parent` is an
optional back-reference used for path reconstruction. -/
inductive Node where
  | mk (f_score : ℚ) (position : Pos) (g_score : ℚ) (h_score : ℚ) (parent : Option Node)

/-- `node.f_score` -/
def Node.f_score : Node → ℚ
  | .mk f _ _ _ _ => f

/-- `node.position` -/
def Node.position : Node → Pos
  | .mk _ p _ _ _ => p

/-- `node.g_score` -/
def Node.g_score : Node → ℚ
  | .mk _ _ g _ _ => g

/-- `node.h_score` -/
def Node.h_score : Node → ℚ
  | .mk _ _ _ h _ => h

/-- `node.parent` -/
def Node.parent : Node → Option Node
  | .mk _ _ _ _ par => par

/-- One entry of `self.search_steps`: the per-expansion snapshot dict. -/
structure SearchStep where
  position : Pos
  f_score : ℚ
  g_score : ℚ
  h_score : ℚ
  open_count : ℕ
  closed_count : ℕ
deriving DecidableEq, Repr

/-- The statistics dict returned by `solve`.  Each field is `none` when the
corresponding key is absent from the Python dict. -/
structure Stats where
  path_found : Option Bool
  path_length : Option ℕ
  path_cost : Option ℚ
  nodes_explored : Option ℕ
  heuristic : Option String
  error : Option String
deriving DecidableEq, Repr

/-- `MazeSolver.DIRECTIONS_4`: Up, Down, Left, Right. -/
def DIRECTIONS_4 : List (ℤ × ℤ) := [(-1, 0), (1, 0), (0, -1), (0, 1)]

/-- `MazeSolver.DIRECTIONS_8`: cardinal directions plus diagonals. -/
def DIRECTIONS_8 : List (ℤ × ℤ) :=
  [(-1, 0), (1, 0), (0, -1), (0, 1), (-1, -1), (-1, 1), (1, -1), (1, 1)]

/-- The `MazeSolver` object state after `__init__`.  The Python
`heuristic_type` dispatch is abstracted as the rational-valued function field
`hfun` (of current position and goal) together with its reported name
`hname`; the `MANHATTAN` and `CHEBYSHEV` branches are exactly representable
(`manhattanFn`, `chebyshevFn` below), while the `EUCLIDEAN` branch computes a
floating-point square root that has no exact rational counterpart. -/
structure MazeSolver where
  maze : List (List ℕ)
  rows : ℕ
  cols : ℕ
  hname : String
  hfun : Pos → Pos → ℚ
  directions : List (ℤ × ℤ)
  start : Option Pos
  goal : Option Pos
  visited_order : List Pos
  search_steps : List SearchStep

/-- `maze[i][j]` where both indexes are known to be in range (total variant,
defaulting out of range; in-range use sites are guarded). -/
def cellAt (maze : List (List ℕ)) (i j : ℕ) : ℕ := (maze.getD i []).getD j 0

/-- `maze[i][j]` with a Python `IndexError` modeled as `none`. -/
def cellAtM (maze : List (List ℕ)) (i j : ℕ) : Option ℕ :=
  (maze.get? i).bind fun row => row.get? j

/-- The index pairs `(i, j)` for `i in range(rows)`, `j in range(cols)` in
row-major order, as iterated by `_find_start_goal`. -/
def rowMajor (rows cols : ℕ) : List (ℕ × ℕ) :=
  (List.range rows).flatMap fun i => (List.range cols).map fun j => (i, j)

/-- One iteration of the `_find_start_goal` scan: read `maze[i][j]` (possibly
an `IndexError`), and remember the position if it is a `START` or `GOAL`
marker (the `elif` makes the two checks exclusive). -/
def scanCell (maze : List (List ℕ)) (acc : Option Pos × Option Pos) (ij : ℕ × ℕ) :
    Option (Option Pos × Option Pos) :=
  match cellAtM maze ij.1 ij.2 with
  | none => none
  | some c =>
    if c = CellType.START then some (some ((ij.1 : ℤ), (ij.2 : ℤ)), acc.2)
    else if c = CellType.GOAL then some (acc.1, some ((ij.1 : ℤ), (ij.2 : ℤ)))
    else some acc

/-- `MazeSolver._find_start_goal`: row-major scan keeping the last `START`
and last `GOAL` cell encountered; `none` models the `IndexError` raised when
a scanned row is shorter than `cols`. -/
def _find_start_goal (maze : List (List ℕ)) (rows cols : ℕ) :
    Option (Option Pos × Option Pos) :=
  (rowMajor rows cols).foldlM (scanCell maze) (none, none)

/-- `MazeSolver.__init__`.  The list copy `[row[:] for row in maze]` is the
identity on immutable values; `rows = len(maze)`, `cols = len(maze[0]) if
maze else 0`; the start/goal scan runs at construction time and its
`IndexError` aborts construction (`none`).  No other validation exists. -/
def mkSolver (maze : List (List ℕ)) (hname : String) (hfun : Pos → Pos → ℚ)
    (allow_diagonal : Bool) : Option MazeSolver :=
  let rows := maze.length
  let cols := if maze.isEmpty then 0 else (maze.headD []).length
  match _find_start_goal maze rows cols with
  | none => none
  | some (s, g) =>
    some { maze := maze, rows := rows, cols := cols, hname := hname, hfun := hfun,
           directions := if allow_diagonal then DIRECTIONS_8 else DIRECTIONS_4,
           start := s, goal := g, visited_order := [], search_steps := [] }

/-- The `MANHATTAN` branch of `MazeSolver.heuristic`: `dr + dc`. -/
def manhattanFn (pos gl : Pos) : ℚ :=
  ((|pos.1 - gl.1| + |pos.2 - gl.2| : ℤ) : ℚ)

/-- The `CHEBYSHEV` branch of `MazeSolver.heuristic`: `max(dr, dc)`. -/
def chebyshevFn (pos gl : Pos) : ℚ :=
  ((max |pos.1 - gl.1| |pos.2 - gl.2| : ℤ) : ℚ)

/-- `MazeSolver.heuristic`: `0` when the goal is absent, otherwise the
selected heuristic of `pos` and the goal. -/
def MazeSolver.heuristic (s : MazeSolver) (pos : Pos) : ℚ :=
  match s.goal with
  | none => 0
  | some gl => s.hfun pos gl

/-- `MazeSolver._is_valid`: in bounds and not a wall. -/
def MazeSolver._is_valid (s : MazeSolver) (row col : ℤ) : Bool :=
  decide (0 ≤ row) && decide (row < (s.rows : ℤ)) && decide (0 ≤ col) &&
    decide (col < (s.cols : ℤ)) && (cellAt s.maze row.toNat col.toNat != CellType.WALL)

/-- `MazeSolver._get_movement_cost`: the float literal `1.414` for a diagonal
step, `1.0` otherwise, as exact decimal rationals. -/
def _get_movement_cost (dr dc : ℤ) : ℚ :=
  if dr ≠ 0 ∧ dc ≠ 0 then 707/500 else 1

/-- The parent-chain positions from `node` back to the root (the `while`
loop of `_reconstruct_path` before the final reversal). -/
def collectPath : Node → List Pos
  | .mk _ pos _ _ none => [pos]
  | .mk _ pos _ _ (some par) => pos :: collectPath par

/-- `MazeSolver._reconstruct_path`: walk the parent chain, then reverse to
start-to-goal order. -/
def _reconstruct_path (node : Node) : List Pos := (collectPath node).reverse

/-- Lookup in the `g_scores` dict (first, i.e. newest, binding wins). -/
def dictGet (d : List (Pos × ℚ)) (k : Pos) : Option ℚ :=
  match d with
  | [] => none
  | (k1, v) :: rest => if k1 = k then some v else dictGet rest k

/-- `heapq.heappush`: the model appends; order is irrelevant to the heap
contract, and `heappop` breaks f-score ties by earliest insertion. -/
def heappush (heap : List Node) (n : Node) : List Node := heap ++ [n]

/-- `heapq.heappop` by its contract: remove and return a node of minimal
`f_score` (`Node.__lt__` compares `f_score` only); `none` on an empty heap.
Ties go to the earliest-pushed node. -/
def heappop : List Node → Option (Node × List Node)
  | [] => none
  | n :: rest =>
    match heappop rest with
    | none => some (n, [])
    | some (m, rest1) =>
      if n.f_score ≤ m.f_score then some (n, rest) else some (m, n :: rest1)

/-- The mutable state of one `solve` invocation: open set, closed set (kept
as a list in insertion order; Python uses a set, and insertion order equals
`visited_order`), best-g dict, the two visualization traces, and the
explored-node counter. -/
structure SState where
  open_set : List Node
  closed_set : List Pos
  g_scores : List (Pos × ℚ)
  visited_order : List Pos
  search_steps : List SearchStep
  nodes_explored : ℕ

/-- The body of the `for dr, dc in self.directions` loop in `solve`:
skip invalid or closed neighbors, skip when a recorded best-g is not
strictly beaten, otherwise record the new best-g and push a fresh node with
`f = g + h` and `parent = current`. -/
def expandDir (s : MazeSolver) (current : Node) (st : SState) (d : ℤ × ℤ) : SState :=
  let new_row := current.position.1 + d.1
  let new_col := current.position.2 + d.2
  let neighbor_pos : Pos := (new_row, new_col)
  if s._is_valid new_row new_col = false then st
  else if neighbor_pos ∈ st.closed_set then st
  else
    let move_cost := _get_movement_cost d.1 d.2
    let tentative_g := current.g_score + move_cost
    let better : Bool :=
      match dictGet st.g_scores neighbor_pos with
      | some g0 => decide (tentative_g < g0)
      | none => true
    if better then
      let h := s.heuristic neighbor_pos
      let neighbor_node := Node.mk (tentative_g + h) neighbor_pos tentative_g h (some current)
      { st with g_scores := (neighbor_pos, tentative_g) :: st.g_scores,
                open_set := heappush st.open_set neighbor_node }
    else st

/-- The neighbor-expansion loop of `solve` over the configured directions. -/
def expandNeighbors (s : MazeSolver) (current : Node) (st : SState) : SState :=
  s.directions.foldl (expandDir s current) st

/-- The `while open_set` loop of `solve`, with explicit fuel (each iteration
consumes one unit; `solveFuel` below always suffices).  Stale pops (position
already closed) are skipped; a fresh pop is closed, recorded in both traces,
counted, then either returns (goal) or expands its neighbors. -/
def solveLoop (s : MazeSolver) (gl : Pos) :
    ℕ → SState → Option (SState × Option (List Pos) × Stats)
  | 0, _ => none
  | fuel + 1, st =>
    match heappop st.open_set with
    | none =>
      some (st, none,
        ⟨some false, none, none, some st.nodes_explored, some s.hname,
         some "Goal is unreachable - no valid path exists"⟩)
    | some (current, rest) =>
      if current.position ∈ st.closed_set then
        solveLoop s gl fuel { st with open_set := rest }
      else
        let st1 : SState :=
          { open_set := rest,
            closed_set := st.closed_set ++ [current.position],
            g_scores := st.g_scores,
            visited_order := st.visited_order ++ [current.position],
            search_steps := st.search_steps ++
              [⟨current.position, current.f_score, current.g_score, current.h_score,
                rest.length, st.closed_set.length + 1⟩],
            nodes_explored := st.nodes_explored + 1 }
        if current.position = gl then
          let path := _reconstruct_path current
          some (st1, some path,
            ⟨some true, some path.length, some current.g_score, some st1.nodes_explored,
             some s.hname, none⟩)
        else
          solveLoop s gl fuel (expandNeighbors s current st1)

/-- Fuel that always suffices for `solveLoop` (proved below): one unit per
iteration, bounded via the potential `open.length + 9 * (free valid cells)`. -/
def solveFuel (s : MazeSolver) : ℕ := 2 + 9 * (s.rows * s.cols)

/-- `MazeSolver.solve`.  Missing endpoints return the error dict before the
tracking lists are reset; otherwise the loop runs from the start node and the
final tracking state is written back to the object. -/
def MazeSolver.solve (s : MazeSolver) : Option (MazeSolver × Option (List Pos) × Stats) :=
  match s.start, s.goal with
  | some st0, some gl =>
    let h := s.heuristic st0
    let start_node := Node.mk h st0 0 h none
    let init : SState := ⟨[start_node], [], [(st0, 0)], [], [], 0⟩
    match solveLoop s gl (solveFuel s) init with
    | none => none
    | some (stF, res, stats) =>
      some ({ s with visited_order := stF.visited_order, search_steps := stF.search_steps },
            res, stats)
  | _, _ =>
    some (s, none, ⟨none, none, none, none, none, some "Start or goal not found in maze"⟩)

/-- `result[p] = v` on the copied grid (in-range use sites only). -/
def setCell (maze : List (List ℕ)) (p : Pos) (v : ℕ) : List (List ℕ) :=
  maze.set p.1.toNat ((maze.getD p.1.toNat []).set p.2.toNat v)

/-- `MazeSolver.get_solution_maze`: annotate a copy of the stored grid, first
marking visited `EMPTY` cells as `VISITED`, then marking path cells that are
not `START`/`GOAL` as `PATH`. -/
def MazeSolver.get_solution_maze (s : MazeSolver) (path : List Pos) : List (List ℕ) :=
  let result := s.maze
  let result := s.visited_order.foldl
    (fun res pos =>
      if cellAt res pos.1.toNat pos.2.toNat = CellType.EMPTY then
        setCell res pos CellType.VISITED
      else res) result
  path.foldl
    (fun res pos =>
      if cellAt res pos.1.toNat pos.2.toNat = CellType.START ∨
         cellAt res pos.1.toNat pos.2.toNat = CellType.GOAL then res
      else setCell res pos CellType.PATH) result

/-! ## Specification-level definitions -/

/-- A position the engine may stand on: in bounds and not a wall. -/
def ValidPos (s : MazeSolver) (p : Pos) : Prop := s._is_valid p.1 p.2 = true

/-- `Walk s p q c`: a legal move sequence from `p` to `q` of total cost `c`
under the solver's configured topology: the source cell is passable, every
step adds one configured direction delta and lands on a passable in-bounds
cell, and each step contributes its movement cost. -/
inductive Walk (s : MazeSolver) : Pos → Pos → ℚ → Prop
  | nil (p : Pos) : ValidPos s p → Walk s p p 0
  | snoc (p q r : Pos) (c : ℚ) (d : ℤ × ℤ) :
      Walk s p q c → d ∈ s.directions → r = (q.1 + d.1, q.2 + d.2) →
      ValidPos s r → Walk s p r (c + _get_movement_cost d.1 d.2)

/-- `q` can be reached from `p` by some legal move sequence. -/
def Reachable (s : MazeSolver) (p q : Pos) : Prop := ∃ c, Walk s p q c

/-- The heuristic is admissible on this grid: it never overestimates the
cost of any legal move sequence to the goal. -/
def Admissible (s : MazeSolver) : Prop :=
  ∀ gl, s.goal = some gl → ∀ p c, Walk s p gl c → s.heuristic p ≤ c

/-- The heuristic is consistent on this grid: it vanishes at the goal and
satisfies the triangle inequality along every legal move. -/
def Consistent (s : MazeSolver) : Prop :=
  (∀ gl, s.goal = some gl → s.heuristic gl = 0) ∧
  (∀ p d, d ∈ s.directions → ValidPos s p → ValidPos s (p.1 + d.1, p.2 + d.2) →
    s.heuristic p ≤ _get_movement_cost d.1 d.2 + s.heuristic (p.1 + d.1, p.2 + d.2))

/-- Consistency restricted to the cells from which the goal can be reached:
this is what the optimality argument actually needs, and (unlike full
consistency) it follows from admissibility of the Manhattan heuristic. -/
def RConsistent (s : MazeSolver) (gl : Pos) : Prop :=
  ∀ p d, d ∈ s.directions → ValidPos s p → ValidPos s (p.1 + d.1, p.2 + d.2) →
    Reachable s (p.1 + d.1, p.2 + d.2) gl →
    s.heuristic p ≤ _get_movement_cost d.1 d.2 + s.heuristic (p.1 + d.1, p.2 + d.2)

/-- The state produced when the expansion of direction `d` from `current`
pushes a new node: best-g updated to the tentative g, a node with
`f = g + h` and predecessor `current` pushed. -/
def pushResult (s : MazeSolver) (current : Node) (st : SState) (d : ℤ × ℤ) : SState :=
  let neighbor_pos : Pos := (current.position.1 + d.1, current.position.2 + d.2)
  let tentative_g := current.g_score + _get_movement_cost d.1 d.2
  let h := s.heuristic neighbor_pos
  { st with g_scores := (neighbor_pos, tentative_g) :: st.g_scores,
            open_set := heappush st.open_set
              (Node.mk (tentative_g + h) neighbor_pos tentative_g h (some current)) }

/-- The push condition of the neighbor-expansion step, as the spec words it:
the neighbor is passable, not closed, and either has no recorded best-g or
is strictly improved. -/
def PushCond (s : MazeSolver) (current : Node) (st : SState) (d : ℤ × ℤ) : Prop :=
  s._is_valid (current.position.1 + d.1) (current.position.2 + d.2) = true ∧
  ((current.position.1 + d.1, current.position.2 + d.2) : Pos) ∉ st.closed_set ∧
  (dictGet st.g_scores (current.position.1 + d.1, current.position.2 + d.2) = none ∨
    ∃ g0, dictGet st.g_scores (current.position.1 + d.1, current.position.2 + d.2) = some g0 ∧
      current.g_score + _get_movement_cost d.1 d.2 < g0)

/-- The number of columns computed by `__init__`:
`len(maze[0]) if maze else 0`. -/
def colCount (maze : List (List ℕ)) : ℕ :=
  if maze.isEmpty then 0 else (maze.headD []).length

/-- The pure content of one `_find_start_goal` iteration, once the index
access is known to succeed. -/
def scanUpd (maze : List (List ℕ)) (acc : Option Pos × Option Pos) (ij : ℕ × ℕ) :
    Option Pos × Option Pos :=
  let c := cellAt maze ij.1 ij.2
  if c = CellType.START then (some ((ij.1 : ℤ), (ij.2 : ℤ)), acc.2)
  else if c = CellType.GOAL then (acc.1, some ((ij.1 : ℤ), (ij.2 : ℤ)))
  else acc

/-- Row-major (lexicographic) order on scan indexes. -/
def lexLE (a b : ℕ × ℕ) : Prop := a.1 < b.1 ∨ (a.1 = b.1 ∧ a.2 ≤ b.2)

/-- Strict row-major order on scan indexes. -/
def lexLT (a b : ℕ × ℕ) : Prop := a.1 < b.1 ∨ (a.1 = b.1 ∧ a.2 < b.2)

instance (a b : ℕ × ℕ) : Decidable (lexLE a b) := by
  unfold lexLE
  infer_instance

instance (a b : ℕ × ℕ) : Decidable (lexLT a b) := by
  unfold lexLT
  infer_instance

/-- Well-formedness of a node's parent chain, as produced by the engine: the
root is the start node (position `st0`, `g = 0`, no parent) and every child
was created from its parent by one configured, passable move, with `g`
accumulating the movement costs. -/
inductive ChainOK (s : MazeSolver) (st0 : Pos) : Node → Prop
  | root (f h0 : ℚ) : ValidPos s st0 → ChainOK s st0 (Node.mk f st0 0 h0 none)
  | step (par : Node) (f g h0 : ℚ) (p : Pos) (d : ℤ × ℤ) :
      ChainOK s st0 par → d ∈ s.directions →
      p = (par.position.1 + d.1, par.position.2 + d.2) → ValidPos s p →
      g = par.g_score + _get_movement_cost d.1 d.2 →
      ChainOK s st0 (Node.mk f p g h0 (some par))

/-- The loop invariant of `solve`'s while loop, relative to the start
position `st0`.  These facts hold for the initial state and are preserved by
both stale pops and fresh expansions, with no assumption on the heuristic. -/
structure LoopInv (s : MazeSolver) (st0 : Pos) (st : SState) : Prop where
  open_nodes : ∀ n ∈ st.open_set, ChainOK s st0 n ∧
    n.f_score = n.g_score + s.heuristic n.position
  closed_valid : ∀ p ∈ st.closed_set, ValidPos s p
  closed_nodup : st.closed_set.Nodup
  closed_g : ∀ p ∈ st.closed_set, ∃ gp, dictGet st.g_scores p = some gp ∧
    Walk s st0 p gp
  closed_exp : ∀ p ∈ st.closed_set, ∀ d ∈ s.directions,
    ValidPos s (p.1 + d.1, p.2 + d.2) → (p.1 + d.1, p.2 + d.2) ∉ st.closed_set →
    ∃ n ∈ st.open_set, n.position = (p.1 + d.1, p.2 + d.2)
  start_mem : st0 ∈ st.closed_set ∨
    ∃ n ∈ st.open_set, n.position = st0 ∧ n.g_score = 0
  gs_open : ∀ p g0, p ∉ st.closed_set → dictGet st.g_scores p = some g0 →
    ∃ n ∈ st.open_set, n.position = p ∧ n.g_score = g0
  gs_le : ∀ n ∈ st.open_set, ∃ g0, dictGet st.g_scores n.position = some g0 ∧
    g0 ≤ n.g_score
  visited_eq : st.visited_order = st.closed_set
  steps_pos : st.search_steps.map SearchStep.position = st.closed_set
  explored_eq : st.nodes_explored = st.closed_set.length

/-- The additional invariant needed for the optimality argument: every
closed position's recorded g is minimal over all legal move sequences, and
every closed position has been fully expanded with the recorded g as the
basis, so the open set covers the frontier with correct costs.  Its
preservation (unlike `LoopInv`) requires a consistent heuristic. -/
structure OptInv (s : MazeSolver) (st0 gl : Pos) (st : SState) : Prop where
  closed_gmin : ∀ p ∈ st.closed_set, Reachable s p gl →
    ∀ gp, dictGet st.g_scores p = some gp →
    ∀ w, Walk s st0 p w → gp ≤ w
  closed_exp_bound : ∀ p ∈ st.closed_set, ∀ d ∈ s.directions,
    ValidPos s (p.1 + d.1, p.2 + d.2) → (p.1 + d.1, p.2 + d.2) ∉ st.closed_set →
    ∃ n ∈ st.open_set, n.position = (p.1 + d.1, p.2 + d.2) ∧
      ∀ gp, dictGet st.g_scores p = some gp →
        n.g_score ≤ gp + _get_movement_cost d.1 d.2

/-- A grid position as a pair of naturals (valid positions have nonnegative
coordinates). -/
def posToNat (p : Pos) : ℕ × ℕ := (p.1.toNat, p.2.toNat)

/-- The passable in-bounds cells of the grid, used to bound how many
positions can ever be closed. -/
def validList (s : MazeSolver) : List (ℕ × ℕ) :=
  (rowMajor s.rows s.cols).filter (fun ij => s._is_valid (ij.1 : ℤ) (ij.2 : ℤ))

/-- The node pushed for direction `d` from `current` when the push condition
holds: `f = g + h`, predecessor `current`. -/
def pushNode (s : MazeSolver) (current : Node) (d : ℤ × ℤ) : Node :=
  let neighbor_pos : Pos := (current.position.1 + d.1, current.position.2 + d.2)
  let tentative_g := current.g_score + _get_movement_cost d.1 d.2
  let h := s.heuristic neighbor_pos
  Node.mk (tentative_g + h) neighbor_pos tentative_g h (some current)

/-- The state update performed by a fresh (non-stale) pop in `solve`'s loop,
before neighbor expansion: remove the node, close and record its position,
bump the counter. -/
def closeState (st : SState) (current : Node) (rest : List Node) : SState :=
  { open_set := rest,
    closed_set := st.closed_set ++ [current.position],
    g_scores := st.g_scores,
    visited_order := st.visited_order ++ [current.position],
    search_steps := st.search_steps ++
      [⟨current.position, current.f_score, current.g_score, current.h_score,
        rest.length, st.closed_set.length + 1⟩],
    nodes_explored := st.nodes_explored + 1 }

/-- The Manhattan offset of `p` from `gl`, as a natural number (equal to the
Manhattan heuristic of `p` when the goal is `gl`). -/
def ofs (gl p : Pos) : ℕ := (gl.1 - p.1).natAbs + (gl.2 - p.2).natAbs

/-- A monotone walk to the goal `gl`: every step is an orthogonal move that
reduces the Manhattan offset by exactly one.  Such a walk realizes the
Manhattan distance exactly, so its existence at `p` makes the Manhattan
heuristic tight at `p`. -/
inductive MonoW (s : MazeSolver) (gl : Pos) : Pos → Prop
  | nil : ValidPos s gl → MonoW s gl gl
  | cons (p : Pos) (d : ℤ × ℤ) : d ∈ s.directions → (d.1 = 0 ∨ d.2 = 0) →
      ValidPos s p → ofs gl (p.1 + d.1, p.2 + d.2) + 1 = ofs gl p →
      MonoW s gl (p.1 + d.1, p.2 + d.2) → MonoW s gl p

/-! ## Theorems -/

/-- C8: on the grid `[[2,0,0,0,3]]` with the Manhattan heuristic and
4-directional movement, `solve` returns the path
`[(0,0),(0,1),(0,2),(0,3),(0,4)]` with `path_cost = 4.0` and
`nodes_explored = 5`. -/
theorem C8_example_run :
    ((mkSolver [[2,0,0,0,3]] "manhattan" manhattanFn false).bind MazeSolver.solve).map
      (fun r => (r.2.1, r.2.2.path_cost, r.2.2.nodes_explored)) =
    some (some [(0,0),(0,1),(0,2),(0,3),(0,4)], some 4, some 5) := by
  with_unfolding_all rfl

/-- C2 counterexample: on the grid `[[0,3]]` (no start marker), `solve`
returns the failure dict whose only key is the error message; in particular
the statistics do not report `nodes_explored = 0` — the key is absent. -/
theorem C2_counterexample :
    ((mkSolver [[0,3]] "manhattan" manhattanFn false).bind MazeSolver.solve).map
      (fun r => (r.2.1, r.2.2)) =
    some (none, ⟨none, none, none, none, none,
      some "Start or goal not found in maze"⟩) := by with_unfolding_all rfl

/-- C3 counterexample: constructing from the empty grid succeeds (no
`InvalidGridError` exists anywhere in the code), and a non-rectangular grid
whose later rows are at least as long as the first is silently accepted and
stored verbatim. -/
theorem C3_counterexample :
    (mkSolver [] "manhattan" manhattanFn false).isSome = true ∧
    (mkSolver [[2],[0,3]] "manhattan" manhattanFn false).map MazeSolver.maze =
      some [[2],[0,3]] := by
  exact ⟨rfl, rfl⟩

/-! ### Lemmas about the construction-time scan -/

theorem scanCell_eq_none_iff (maze : List (List ℕ)) (acc : Option Pos × Option Pos)
    (ij : ℕ × ℕ) : scanCell maze acc ij = none ↔ cellAtM maze ij.1 ij.2 = none := by
  cases h : cellAtM maze ij.1 ij.2 with
  | none => simp [scanCell, h]
  | some c =>
    simp only [scanCell, h]
    split <;> simp
    split <;> simp

theorem cellAtM_cellAt (maze : List (List ℕ)) (i j c : ℕ)
    (h : cellAtM maze i j = some c) : cellAt maze i j = c := by
  unfold cellAtM at h
  cases hg : maze.get? i with
  | none => rw [hg] at h; simp at h
  | some row =>
    rw [hg] at h
    simp only [Option.bind_some, Option.some_bind] at h
    have hrow : maze.getD i [] = row := by
      rw [List.getD_eq_getElem?_getD, ← List.get?_eq_getElem?, hg]; rfl
    unfold cellAt
    rw [hrow, List.getD_eq_getElem?_getD, ← List.get?_eq_getElem?, h]
    rfl

theorem scanCell_some (maze : List (List ℕ)) (acc : Option Pos × Option Pos)
    (ij : ℕ × ℕ) (h : cellAtM maze ij.1 ij.2 ≠ none) :
    scanCell maze acc ij = some (scanUpd maze acc ij) := by
  cases hc : cellAtM maze ij.1 ij.2 with
  | none => exact absurd hc h
  | some c =>
    have hcc := cellAtM_cellAt maze ij.1 ij.2 c hc
    simp only [scanCell, scanUpd, hc, hcc]
    split
    · rfl
    · split <;> rfl

theorem foldlM_scan_none_iff (maze : List (List ℕ)) (l : List (ℕ × ℕ)) :
    ∀ acc, l.foldlM (scanCell maze) acc = none ↔
      ∃ ij ∈ l, cellAtM maze ij.1 ij.2 = none := by
  induction l with
  | nil => intro acc; simp
  | cons x t ih =>
    intro acc
    rw [List.foldlM_cons]
    cases hx : scanCell maze acc x with
    | none =>
      simp only [Option.bind_eq_bind, Option.none_bind]
      constructor
      · intro _
        exact ⟨x, List.mem_cons_self x t, (scanCell_eq_none_iff maze acc x).mp hx⟩
      · intro _; trivial
    | some a =>
      simp only [Option.bind_eq_bind, Option.some_bind]
      rw [ih a]
      constructor
      · rintro ⟨ij, hmem, hnone⟩
        exact ⟨ij, List.mem_cons_of_mem x hmem, hnone⟩
      · rintro ⟨ij, hmem, hnone⟩
        rcases List.mem_cons.mp hmem with heq | hmem2
        · exfalso
          rw [heq] at hnone
          rw [(scanCell_eq_none_iff maze acc x).mpr hnone] at hx
          exact Option.noConfusion hx
        · exact ⟨ij, hmem2, hnone⟩

theorem foldlM_scan_some (maze : List (List ℕ)) (l : List (ℕ × ℕ))
    (h : ∀ ij ∈ l, cellAtM maze ij.1 ij.2 ≠ none) :
    ∀ acc, l.foldlM (scanCell maze) acc = some (l.foldl (scanUpd maze) acc) := by
  induction l with
  | nil => intro acc; rfl
  | cons x t ih =>
    intro acc
    rw [List.foldlM_cons, scanCell_some maze acc x (h x (List.mem_cons_self x t))]
    simp only [Option.some_bind, List.foldl_cons]
    exact ih (fun ij hm => h ij (List.mem_cons_of_mem x hm)) _

theorem foldl_scanUpd_fst (maze : List (List ℕ)) (l : List (ℕ × ℕ)) :
    ∀ acc, (l.foldl (scanUpd maze) acc).1 =
      (match l.reverse.find? (fun ij => cellAt maze ij.1 ij.2 == CellType.START) with
        | some ij => some ((ij.1 : ℤ), (ij.2 : ℤ))
        | none => acc.1) := by
  induction l using List.reverseRecOn with
  | nil => intro acc; rfl
  | append_singleton t x ih =>
    intro acc
    rw [List.foldl_append, List.foldl_cons, List.foldl_nil, List.reverse_append]
    rw [List.reverse_cons, List.reverse_nil, List.nil_append, List.singleton_append]
    by_cases hx : cellAt maze x.1 x.2 = CellType.START
    · rw [List.find?_cons_of_pos _ (by simp [hx])]
      simp [scanUpd, hx]
    · rw [List.find?_cons_of_neg _ (by simp [hx])]
      by_cases hx3 : cellAt maze x.1 x.2 = CellType.GOAL
      · simp only [scanUpd]
        rw [if_neg hx, if_pos hx3]
        exact ih acc
      · simp only [scanUpd]
        rw [if_neg hx, if_neg hx3]
        exact ih acc

theorem foldl_scanUpd_snd (maze : List (List ℕ)) (l : List (ℕ × ℕ)) :
    ∀ acc, (l.foldl (scanUpd maze) acc).2 =
      (match l.reverse.find? (fun ij => cellAt maze ij.1 ij.2 == CellType.GOAL) with
        | some ij => some ((ij.1 : ℤ), (ij.2 : ℤ))
        | none => acc.2) := by
  induction l using List.reverseRecOn with
  | nil => intro acc; rfl
  | append_singleton t x ih =>
    intro acc
    rw [List.foldl_append, List.foldl_cons, List.foldl_nil, List.reverse_append]
    rw [List.reverse_cons, List.reverse_nil, List.nil_append, List.singleton_append]
    by_cases hx3 : cellAt maze x.1 x.2 = CellType.GOAL
    · have hx : cellAt maze x.1 x.2 ≠ CellType.START := by
        rw [hx3]; decide
      rw [List.find?_cons_of_pos _ (by simp [hx3])]
      simp only [scanUpd]
      rw [if_neg hx, if_pos hx3]
    · rw [List.find?_cons_of_neg _ (by simp [hx3])]
      by_cases hx : cellAt maze x.1 x.2 = CellType.START
      · simp only [scanUpd]
        rw [if_pos hx]
        exact ih acc
      · simp only [scanUpd]
        rw [if_neg hx, if_neg hx3]
        exact ih acc

theorem mem_rowMajor (rows cols : ℕ) (ij : ℕ × ℕ) :
    ij ∈ rowMajor rows cols ↔ ij.1 < rows ∧ ij.2 < cols := by
  unfold rowMajor
  simp only [List.mem_flatMap, List.mem_map, List.mem_range]
  constructor
  · rintro ⟨i, hi, j, hj, rfl⟩
    exact ⟨hi, hj⟩
  · rintro ⟨h1, h2⟩
    exact ⟨ij.1, h1, ij.2, h2, rfl⟩

theorem lexLT_asymm (a b : ℕ × ℕ) : lexLT a b → lexLT b a → False := by
  intro h1 h2
  rcases h1 with h | ⟨e, h⟩ <;> rcases h2 with h2 | ⟨e2, h2⟩ <;> omega

theorem lexLE_iff (a b : ℕ × ℕ) : lexLE a b ↔ a = b ∨ lexLT a b := by
  rcases a with ⟨a1, a2⟩
  rcases b with ⟨b1, b2⟩
  simp only [lexLE, lexLT, Prod.mk.injEq]
  omega

theorem pairwise_rowMajor (rows cols : ℕ) : (rowMajor rows cols).Pairwise lexLT := by
  induction rows with
  | zero => simp [rowMajor]
  | succ n ih =>
    have hsplit : rowMajor (n + 1) cols =
        rowMajor n cols ++ (List.range cols).map (fun j => (n, j)) := by
      unfold rowMajor
      rw [List.range_succ, List.flatMap_append, List.flatMap_singleton]
    rw [hsplit, List.pairwise_append]
    refine ⟨ih, ?_, ?_⟩
    · rw [List.pairwise_map]
      apply List.Pairwise.imp ?_ (List.pairwise_lt_range cols)
      intro a b hab
      exact Or.inr ⟨rfl, hab⟩
    · intro a ha b hb
      rw [mem_rowMajor] at ha
      rcases List.mem_map.mp hb with ⟨j, hj, rfl⟩
      exact Or.inl ha.1

theorem find?_last_iff {R : ℕ × ℕ → ℕ × ℕ → Prop} {l : List (ℕ × ℕ)}
    (hpw : l.Pairwise R) (hasym : ∀ a b, R a b → R b a → False)
    (P : ℕ × ℕ → Bool) (x : ℕ × ℕ) :
    l.find? P = some x ↔
      x ∈ l ∧ P x = true ∧ ∀ y ∈ l, P y = true → y = x ∨ R x y := by
  induction l with
  | nil => simp
  | cons a t ih =>
    have hpa := (List.pairwise_cons.mp hpw).1
    have hpt := (List.pairwise_cons.mp hpw).2
    by_cases hP : P a = true
    · rw [List.find?_cons_of_pos _ hP]
      constructor
      · intro h
        have hax : a = x := Option.some.inj h
        subst hax
        refine ⟨List.mem_cons_self a t, hP, ?_⟩
        intro y hy hPy
        rcases List.mem_cons.mp hy with rfl | hyt
        · exact Or.inl rfl
        · exact Or.inr (hpa y hyt)
      · rintro ⟨hx, hPx, hmax⟩
        rcases List.mem_cons.mp hx with rfl | hxt
        · rfl
        · rcases hmax a (List.mem_cons_self a t) hP with rfl | hR
          · rfl
          · exact ((hasym x a hR (hpa x hxt)).elim)
    · rw [List.find?_cons_of_neg _ hP]
      rw [ih hpt]
      constructor
      · rintro ⟨hxt, hPx, hmax⟩
        refine ⟨List.mem_cons_of_mem a hxt, hPx, ?_⟩
        intro y hy hPy
        rcases List.mem_cons.mp hy with rfl | hyt
        · exact absurd hPy hP
        · exact hmax y hyt hPy
      · rintro ⟨hx, hPx, hmax⟩
        rcases List.mem_cons.mp hx with rfl | hxt
        · exact absurd hPx hP
        · exact ⟨hxt, hPx, fun y hy hPy => hmax y (List.mem_cons_of_mem a hy) hPy⟩

theorem mkSolver_scan (maze : List (List ℕ)) (hname : String) (hfun : Pos → Pos → ℚ)
    (ad : Bool) (s : MazeSolver) (hmk : mkSolver maze hname hfun ad = some s) :
    _find_start_goal maze maze.length (colCount maze) = some (s.start, s.goal) := by
  simp only [mkSolver] at hmk
  cases hscan : _find_start_goal maze maze.length (colCount maze) with
  | none =>
    rw [show (if maze.isEmpty then 0 else (maze.headD []).length) = colCount maze from rfl,
      hscan] at hmk
    exact Option.noConfusion hmk
  | some p =>
    obtain ⟨a, b⟩ := p
    rw [show (if maze.isEmpty then 0 else (maze.headD []).length) = colCount maze from rfl,
      hscan] at hmk
    have hrec := Option.some.inj hmk
    rw [← hrec]

theorem mkSolver_fields (maze : List (List ℕ)) (hname : String) (hfun : Pos → Pos → ℚ)
    (ad : Bool) (s : MazeSolver) (hmk : mkSolver maze hname hfun ad = some s) :
    s.maze = maze ∧ s.rows = maze.length ∧ s.cols = colCount maze ∧
      s.hname = hname ∧
      s.directions = (if ad then DIRECTIONS_8 else DIRECTIONS_4) ∧
      s.visited_order = [] ∧ s.search_steps = [] := by
  simp only [mkSolver] at hmk
  cases hscan : _find_start_goal maze maze.length (colCount maze) with
  | none =>
    rw [show (if maze.isEmpty then 0 else (maze.headD []).length) = colCount maze from rfl,
      hscan] at hmk
    exact Option.noConfusion hmk
  | some p =>
    obtain ⟨a, b⟩ := p
    rw [show (if maze.isEmpty then 0 else (maze.headD []).length) = colCount maze from rfl,
      hscan] at hmk
    have hrec := Option.some.inj hmk
    rw [← hrec]
    exact ⟨rfl, rfl, rfl, rfl, rfl, rfl, rfl⟩

theorem mkSolver_no_failure (maze : List (List ℕ)) (hname : String) (hfun : Pos → Pos → ℚ)
    (ad : Bool) (s : MazeSolver) (hmk : mkSolver maze hname hfun ad = some s) :
    ∀ ij ∈ rowMajor maze.length (colCount maze), cellAtM maze ij.1 ij.2 ≠ none := by
  intro ij hij hnone
  have hfail : _find_start_goal maze maze.length (colCount maze) = none := by
    unfold _find_start_goal
    exact (foldlM_scan_none_iff maze _ _).mpr ⟨ij, hij, hnone⟩
  have hscan := mkSolver_scan maze hname hfun ad s hmk
  rw [hfail] at hscan
  exact Option.noConfusion hscan

theorem mkSolver_start_char (maze : List (List ℕ)) (hname : String)
    (hfun : Pos → Pos → ℚ) (ad : Bool) (s : MazeSolver)
    (hmk : mkSolver maze hname hfun ad = some s) :
    s.start =
      (match (rowMajor maze.length (colCount maze)).reverse.find?
          (fun ij => cellAt maze ij.1 ij.2 == CellType.START) with
        | some ij => some ((ij.1 : ℤ), (ij.2 : ℤ))
        | none => none) := by
  have hscan := mkSolver_scan maze hname hfun ad s hmk
  unfold _find_start_goal at hscan
  rw [foldlM_scan_some maze _ (mkSolver_no_failure maze hname hfun ad s hmk)] at hscan
  have heq := Option.some.inj hscan
  have h1 := congrArg Prod.fst heq
  rw [foldl_scanUpd_fst] at h1
  exact h1.symm

theorem mkSolver_goal_char (maze : List (List ℕ)) (hname : String)
    (hfun : Pos → Pos → ℚ) (ad : Bool) (s : MazeSolver)
    (hmk : mkSolver maze hname hfun ad = some s) :
    s.goal =
      (match (rowMajor maze.length (colCount maze)).reverse.find?
          (fun ij => cellAt maze ij.1 ij.2 == CellType.GOAL) with
        | some ij => some ((ij.1 : ℤ), (ij.2 : ℤ))
        | none => none) := by
  have hscan := mkSolver_scan maze hname hfun ad s hmk
  unfold _find_start_goal at hscan
  rw [foldlM_scan_some maze _ (mkSolver_no_failure maze hname hfun ad s hmk)] at hscan
  have heq := Option.some.inj hscan
  have h1 := congrArg Prod.snd heq
  rw [foldl_scanUpd_snd] at h1
  exact h1.symm

theorem get?_getD {α : Type} (l : List α) (i : ℕ) (hi : i < l.length) (d : α) :
    l.get? i = some (l.getD i d) := by
  rw [List.getD_eq_getElem?_getD, ← List.get?_eq_getElem?]
  cases hg : l.get? i with
  | none =>
    rw [List.get?_eq_none] at hg
    omega
  | some a => rfl

theorem mkSolver_none_iff_scan (maze : List (List ℕ)) (hname : String)
    (hfun : Pos → Pos → ℚ) (ad : Bool) :
    mkSolver maze hname hfun ad = none ↔
      _find_start_goal maze maze.length (colCount maze) = none := by
  simp only [mkSolver]
  rw [show (if maze.isEmpty then 0 else (maze.headD []).length) = colCount maze from rfl]
  cases hscan : _find_start_goal maze maze.length (colCount maze) with
  | none => simp
  | some p =>
    obtain ⟨a, b⟩ := p
    simp

theorem scan_none_iff_short (maze : List (List ℕ)) :
    _find_start_goal maze maze.length (colCount maze) = none ↔
      ∃ i, i < maze.length ∧ (maze.getD i []).length < colCount maze := by
  unfold _find_start_goal
  rw [foldlM_scan_none_iff]
  constructor
  · rintro ⟨ij, hij, hnone⟩
    rw [mem_rowMajor] at hij
    refine ⟨ij.1, hij.1, ?_⟩
    unfold cellAtM at hnone
    rw [get?_getD maze ij.1 hij.1 []] at hnone
    simp only [Option.some_bind] at hnone
    rw [List.get?_eq_none] at hnone
    omega
  · rintro ⟨i, hi, hlen⟩
    refine ⟨(i, (maze.getD i []).length), ?_, ?_⟩
    · rw [mem_rowMajor]
      exact ⟨hi, hlen⟩
    · unfold cellAtM
      rw [get?_getD maze i hi []]
      simp only [Option.some_bind]
      rw [List.get?_eq_none]

/-- C3 (amended): construction performs no validation.  The constructor
fails (with an `IndexError` from the scan, not an `InvalidGridError`, which
does not exist in the code) exactly when some row is shorter than the first;
in every other case — including the empty grid and ragged grids whose later
rows are longer — the grid is silently accepted and stored verbatim. -/
theorem C3_construction_behavior (maze : List (List ℕ)) (hname : String)
    (hfun : Pos → Pos → ℚ) (ad : Bool) :
    (mkSolver maze hname hfun ad = none ↔
      ∃ i, i < maze.length ∧ (maze.getD i []).length < colCount maze) ∧
    (∀ s, mkSolver maze hname hfun ad = some s → s.maze = maze) := by
  constructor
  · rw [mkSolver_none_iff_scan maze hname hfun ad]
    exact scan_none_iff_short maze
  · intro s hmk
    exact (mkSolver_fields maze hname hfun ad s hmk).1

/-- C3 amended-claim witness at concrete inputs: the ragged grid
`[[0,0],[0]]` (second row shorter) is rejected, and a successfully
constructed ragged grid is stored verbatim. -/
theorem C3_construction_behavior_witness :
    mkSolver [[0,0],[0]] "manhattan" manhattanFn false = none := by
  refine (C3_construction_behavior [[0,0],[0]] "manhattan" manhattanFn false).1.mpr ?_
  exact ⟨1, by decide, by decide⟩

theorem marker_char (maze : List (List ℕ)) (m : ℕ) (o : Option Pos)
    (ho : o = (match (rowMajor maze.length (colCount maze)).reverse.find?
        (fun ij => cellAt maze ij.1 ij.2 == m) with
      | some ij => some ((ij.1 : ℤ), (ij.2 : ℤ))
      | none => none)) (p : Pos) :
    o = some p ↔ ∃ ij : ℕ × ℕ, ij.1 < maze.length ∧ ij.2 < colCount maze ∧
      p = ((ij.1 : ℤ), (ij.2 : ℤ)) ∧ cellAt maze ij.1 ij.2 = m ∧
      ∀ kl : ℕ × ℕ, kl.1 < maze.length → kl.2 < colCount maze →
        cellAt maze kl.1 kl.2 = m → lexLE kl ij := by
  have hpw : (rowMajor maze.length (colCount maze)).reverse.Pairwise
      (fun a b => lexLT b a) :=
    List.pairwise_reverse.mpr (pairwise_rowMajor _ _)
  have hasym : ∀ a b : ℕ × ℕ, lexLT b a → lexLT a b → False :=
    fun a b h1 h2 => lexLT_asymm b a h1 h2
  subst ho
  cases hf : (rowMajor maze.length (colCount maze)).reverse.find?
      (fun ij => cellAt maze ij.1 ij.2 == m) with
  | none =>
    constructor
    · intro h
      exact Option.noConfusion h
    · rintro ⟨ij, h1, h2, h3, h4, h5⟩
      exfalso
      have hall := List.find?_eq_none.mp hf
      have hmem : ij ∈ (rowMajor maze.length (colCount maze)).reverse :=
        List.mem_reverse.mpr ((mem_rowMajor _ _ _).mpr ⟨h1, h2⟩)
      exact hall ij hmem (by simp [h4])
  | some ij0 =>
    have hchar := (find?_last_iff hpw hasym _ ij0).mp hf
    have hij0i := (mem_rowMajor _ _ _).mp (List.mem_reverse.mp hchar.1)
    constructor
    · intro h
      have hp := Option.some.inj h
      refine ⟨ij0, hij0i.1, hij0i.2, hp.symm, by simpa using hchar.2.1, ?_⟩
      intro kl hk1 hk2 hkcell
      have hklmem : kl ∈ (rowMajor maze.length (colCount maze)).reverse :=
        List.mem_reverse.mpr ((mem_rowMajor _ _ _).mpr ⟨hk1, hk2⟩)
      have hy := hchar.2.2 kl hklmem (by simp [hkcell])
      rcases hy with rfl | hlt
      · exact (lexLE_iff _ _).mpr (Or.inl rfl)
      · exact (lexLE_iff _ _).mpr (Or.inr hlt)
    · rintro ⟨ij, h1, h2, h3, h4, h5⟩
      have hle1 := h5 ij0 hij0i.1 hij0i.2 (by simpa using hchar.2.1)
      have hle2 := hchar.2.2 ij
        (List.mem_reverse.mpr ((mem_rowMajor _ _ _).mpr ⟨h1, h2⟩)) (by simp [h4])
      have hij : ij = ij0 := by
        rcases hle2 with rfl | hlt
        · rfl
        · rcases (lexLE_iff _ _).mp hle1 with heq | hlt2
          · exact heq.symm
          · exact (lexLT_asymm _ _ hlt hlt2).elim
      subst hij
      rw [h3]

/-- C10: duplicate `Start` (resp. `Goal`) markers do not make construction
fail; the start (resp. goal) used by `solve` is the last marker in the
row-major scan, i.e. the one with the largest `(row, col)` pair in
lexicographic order.  (Construction can only fail because of a short row,
never because of markers: see `C3_construction_behavior`.) -/
theorem C10_last_marker_wins (maze : List (List ℕ)) (hname : String)
    (hfun : Pos → Pos → ℚ) (ad : Bool) (s : MazeSolver)
    (hmk : mkSolver maze hname hfun ad = some s) :
    (∀ p : Pos, s.start = some p ↔
      ∃ ij : ℕ × ℕ, ij.1 < maze.length ∧ ij.2 < colCount maze ∧
        p = ((ij.1 : ℤ), (ij.2 : ℤ)) ∧ cellAt maze ij.1 ij.2 = CellType.START ∧
        ∀ kl : ℕ × ℕ, kl.1 < maze.length → kl.2 < colCount maze →
          cellAt maze kl.1 kl.2 = CellType.START → lexLE kl ij) ∧
    (∀ p : Pos, s.goal = some p ↔
      ∃ ij : ℕ × ℕ, ij.1 < maze.length ∧ ij.2 < colCount maze ∧
        p = ((ij.1 : ℤ), (ij.2 : ℤ)) ∧ cellAt maze ij.1 ij.2 = CellType.GOAL ∧
        ∀ kl : ℕ × ℕ, kl.1 < maze.length → kl.2 < colCount maze →
          cellAt maze kl.1 kl.2 = CellType.GOAL → lexLE kl ij) := by
  constructor
  · intro p
    exact marker_char maze CellType.START s.start
      (mkSolver_start_char maze hname hfun ad s hmk) p
  · intro p
    exact marker_char maze CellType.GOAL s.goal
      (mkSolver_goal_char maze hname hfun ad s hmk) p

/-- C10 witness: on `[[2,0,2],[3,0,3]]` (two start and two goal markers)
construction succeeds and the solver uses the lexicographically largest
markers, `(0,2)` for start and `(1,2)` for goal. -/
theorem C10_last_marker_wins_witness :
    ∃ s, mkSolver [[2,0,2],[3,0,3]] "manhattan" manhattanFn false = some s ∧
      s.start = some (0, 2) ∧ s.goal = some (1, 2) := by
  cases hmk : mkSolver [[2,0,2],[3,0,3]] "manhattan" manhattanFn false with
  | none =>
    have hs : (mkSolver [[2,0,2],[3,0,3]] "manhattan" manhattanFn false).isSome = true := rfl
    rw [hmk] at hs
    exact Bool.noConfusion hs
  | some s =>
    refine ⟨s, rfl, ?_, ?_⟩
    · refine ((C10_last_marker_wins [[2,0,2],[3,0,3]] "manhattan" manhattanFn false s
        hmk).1 (0, 2)).mpr ?_
      refine ⟨(0, 2), by decide, by decide, by decide, by decide, ?_⟩
      rintro ⟨k, l⟩ h1 h2 h3
      simp only [List.length_cons, List.length_nil] at h1
      have h2b : l < 3 := by simpa [colCount] using h2
      interval_cases k <;> interval_cases l <;> revert h3 <;> decide
    · refine ((C10_last_marker_wins [[2,0,2],[3,0,3]] "manhattan" manhattanFn false s
        hmk).2 (1, 2)).mpr ?_
      refine ⟨(1, 2), by decide, by decide, by decide, by decide, ?_⟩
      rintro ⟨k, l⟩ h1 h2 h3
      simp only [List.length_cons, List.length_nil] at h1
      have h2b : l < 3 := by simpa [colCount] using h2
      interval_cases k <;> interval_cases l <;> revert h3 <;> decide

/-- C2 (amended): a grid missing a `Start` marker or missing a `Goal`
marker makes `solve` return a failure result (no path, no exception) whose
statistics dict carries only the error message; in particular no
`nodes_explored` key is present (the claim's `nodes_explored = 0` is not
reported — the key is absent). -/
theorem C2_missing_endpoint_behavior (maze : List (List ℕ)) (hname : String)
    (hfun : Pos → Pos → ℚ) (ad : Bool) (s : MazeSolver)
    (hmk : mkSolver maze hname hfun ad = some s)
    (hmiss : (∀ ij : ℕ × ℕ, ij.1 < maze.length → ij.2 < colCount maze →
                cellAt maze ij.1 ij.2 ≠ CellType.START) ∨
             (∀ ij : ℕ × ℕ, ij.1 < maze.length → ij.2 < colCount maze →
                cellAt maze ij.1 ij.2 ≠ CellType.GOAL)) :
    s.solve = some (s, none, ⟨none, none, none, none, none,
      some "Start or goal not found in maze"⟩) := by
  have hnone : s.start = none ∨ s.goal = none := by
    rcases hmiss with hm | hm
    · left
      rw [mkSolver_start_char maze hname hfun ad s hmk]
      have hf : (rowMajor maze.length (colCount maze)).reverse.find?
          (fun ij => cellAt maze ij.1 ij.2 == CellType.START) = none := by
        apply List.find?_eq_none.mpr
        intro x hx
        have hxm := (mem_rowMajor _ _ _).mp (List.mem_reverse.mp hx)
        simpa using hm x hxm.1 hxm.2
      rw [hf]
    · right
      rw [mkSolver_goal_char maze hname hfun ad s hmk]
      have hf : (rowMajor maze.length (colCount maze)).reverse.find?
          (fun ij => cellAt maze ij.1 ij.2 == CellType.GOAL) = none := by
        apply List.find?_eq_none.mpr
        intro x hx
        have hxm := (mem_rowMajor _ _ _).mp (List.mem_reverse.mp hx)
        simpa using hm x hxm.1 hxm.2
      rw [hf]
  rcases hnone with h | h
  · unfold MazeSolver.solve
    rw [h]
  · unfold MazeSolver.solve
    rw [h]
    cases s.start
    all_goals rfl

/-- C2 amended-claim witness: applying the theorem to the concrete grid
`[[0,3]]`, which has a goal but no start marker. -/
theorem C2_missing_endpoint_behavior_witness :
    ∃ s, mkSolver [[0,3]] "manhattan" manhattanFn false = some s ∧
      s.solve = some (s, none, ⟨none, none, none, none, none,
        some "Start or goal not found in maze"⟩) := by
  cases hmk : mkSolver [[0,3]] "manhattan" manhattanFn false with
  | none =>
    have hs : (mkSolver [[0,3]] "manhattan" manhattanFn false).isSome = true := rfl
    rw [hmk] at hs
    exact Bool.noConfusion hs
  | some s =>
    refine ⟨s, rfl, ?_⟩
    apply C2_missing_endpoint_behavior [[0,3]] "manhattan" manhattanFn false s hmk
    left
    rintro ⟨k, l⟩ h1 h2 h3
    simp only [List.length_cons, List.length_nil] at h1
    have h2b : l < 2 := by simpa [colCount] using h2
    interval_cases k
    interval_cases l
    all_goals revert h3
    all_goals decide

/-- C6: during neighbor expansion, a direction `d` from `current` results in
a push (with best-g updated to the tentative g and a node carrying
`f = g + h` and predecessor `current`) exactly when the neighbor is
passable, not closed, and either has no recorded best-g or is strictly
improved; in every other case — including a tentative g equal to the
recorded best-g — the state is left completely unchanged. -/
theorem expandDir_cases (s : MazeSolver) (current : Node) (st : SState)
    (d : ℤ × ℤ) :
    (expandDir s current st d = pushResult s current st d ↔ PushCond s current st d) ∧
    (expandDir s current st d = st ↔ ¬ PushCond s current st d) := by
  have hne : pushResult s current st d ≠ st := by
    intro h
    have hlen := congrArg (fun x => x.open_set.length) h
    simp only [pushResult, heappush, List.length_append, List.length_cons,
      List.length_nil] at hlen
    omega
  by_cases hv : s._is_valid (current.position.1 + d.1) (current.position.2 + d.2) = true
  · by_cases hc : ((current.position.1 + d.1, current.position.2 + d.2) : Pos) ∈ st.closed_set
    · have hx : expandDir s current st d = st := by
        unfold expandDir
        rw [if_neg (by simp [hv]), if_pos hc]
      have hnc : ¬ PushCond s current st d := by
        rintro ⟨h1, h2, h3⟩
        exact h2 hc
      rw [hx]
      exact ⟨⟨fun h => absurd h.symm hne, fun h => absurd h hnc⟩,
        ⟨fun _ => hnc, fun _ => rfl⟩⟩
    · cases hg : dictGet st.g_scores (current.position.1 + d.1, current.position.2 + d.2) with
      | none =>
        have hx : expandDir s current st d = pushResult s current st d := by
          unfold expandDir pushResult
          rw [if_neg (by simp [hv]), if_neg hc, hg]
          rfl
        have hcond : PushCond s current st d := ⟨hv, hc, Or.inl hg⟩
        rw [hx]
        exact ⟨⟨fun _ => hcond, fun _ => rfl⟩,
          ⟨fun h => absurd h hne, fun h => absurd hcond h⟩⟩
      | some g0 =>
        by_cases hlt : current.g_score + _get_movement_cost d.1 d.2 < g0
        · have hx : expandDir s current st d = pushResult s current st d := by
            unfold expandDir pushResult
            rw [if_neg (by simp [hv]), if_neg hc, hg]
            rw [if_pos (by simpa using hlt)]
          have hcond : PushCond s current st d := ⟨hv, hc, Or.inr ⟨g0, hg, hlt⟩⟩
          rw [hx]
          exact ⟨⟨fun _ => hcond, fun _ => rfl⟩,
            ⟨fun h => absurd h hne, fun h => absurd hcond h⟩⟩
        · have hx : expandDir s current st d = st := by
            unfold expandDir
            rw [if_neg (by simp [hv]), if_neg hc, hg]
            rw [if_neg (by simpa using hlt)]
          have hnc : ¬ PushCond s current st d := by
            rintro ⟨h1, h2, h3⟩
            rcases h3 with h3 | ⟨g1, hg1, hlt1⟩
            · rw [h3] at hg
              exact Option.noConfusion hg
            · rw [hg1] at hg
              exact hlt (Option.some.inj hg ▸ hlt1)
          rw [hx]
          exact ⟨⟨fun h => absurd h.symm hne, fun h => absurd h hnc⟩,
            ⟨fun _ => hnc, fun _ => rfl⟩⟩
  · have hx : expandDir s current st d = st := by
      unfold expandDir
      rw [if_pos (by simpa using hv)]
    have hnc : ¬ PushCond s current st d := by
      rintro ⟨h1, h2, h3⟩
      exact hv h1
    rw [hx]
    exact ⟨⟨fun h => absurd h.symm hne, fun h => absurd h hnc⟩,
      ⟨fun _ => hnc, fun _ => rfl⟩⟩

/-! ### Heap lemmas (the `heapq` contract) -/

theorem heappop_none_iff (l : List Node) : heappop l = none ↔ l = [] := by
  cases l with
  | nil => simp [heappop]
  | cons n rest =>
    simp only [heappop]
    cases h : heappop rest with
    | none => simp
    | some p =>
      obtain ⟨m, rest1⟩ := p
      by_cases hle : n.f_score ≤ m.f_score <;> simp [hle]

theorem heappop_perm (l : List Node) (m : Node) (r : List Node)
    (h : heappop l = some (m, r)) : l.Perm (m :: r) := by
  induction l generalizing m r with
  | nil => exact Option.noConfusion h
  | cons n rest ih =>
    cases hr : heappop rest with
    | none =>
      simp only [heappop, hr] at h
      have := (heappop_none_iff rest).mp hr
      subst this
      have h1 := Option.some.inj h
      have hm : n = m := congrArg Prod.fst h1
      have hrr : ([] : List Node) = r := congrArg Prod.snd h1
      subst hm
      rw [← hrr]
    | some p =>
      obtain ⟨m2, rest1⟩ := p
      simp only [heappop, hr] at h
      by_cases hle : n.f_score ≤ m2.f_score
      · rw [if_pos hle] at h
        have h1 := Option.some.inj h
        have hm : n = m := congrArg Prod.fst h1
        have hrr : rest = r := congrArg Prod.snd h1
        subst hm
        subst hrr
        exact List.Perm.refl _
      · rw [if_neg hle] at h
        have h1 := Option.some.inj h
        have hm : m2 = m := congrArg Prod.fst h1
        have hrr : n :: rest1 = r := congrArg Prod.snd h1
        rw [← hrr, ← hm]
        have hperm := ih m2 rest1 hr
        exact List.Perm.trans (List.Perm.cons n hperm) (List.Perm.swap m2 n rest1)

theorem heappop_mem (l : List Node) (m : Node) (r : List Node)
    (h : heappop l = some (m, r)) : m ∈ l :=
  (heappop_perm l m r h).symm.subset (List.mem_cons_self m r)

theorem heappop_sub (l : List Node) (m : Node) (r : List Node)
    (h : heappop l = some (m, r)) : ∀ x ∈ r, x ∈ l :=
  fun _ hx => (heappop_perm l m r h).symm.subset (List.mem_cons_of_mem m hx)

theorem heappop_length (l : List Node) (m : Node) (r : List Node)
    (h : heappop l = some (m, r)) : l.length = r.length + 1 := by
  have := (heappop_perm l m r h).length_eq
  simpa using this

theorem heappop_min (l : List Node) (m : Node) (r : List Node)
    (h : heappop l = some (m, r)) : ∀ x ∈ l, m.f_score ≤ x.f_score := by
  induction l generalizing m r with
  | nil => exact Option.noConfusion h
  | cons n rest ih =>
    cases hr : heappop rest with
    | none =>
      simp only [heappop, hr] at h
      have := (heappop_none_iff rest).mp hr
      subst this
      have hm : n = m := congrArg Prod.fst (Option.some.inj h)
      subst hm
      intro x hx
      rcases List.mem_cons.mp hx with rfl | hx2
      · exact le_refl _
      · exact absurd hx2 (List.not_mem_nil x)
    | some p =>
      obtain ⟨m2, rest1⟩ := p
      simp only [heappop, hr] at h
      by_cases hle : n.f_score ≤ m2.f_score
      · rw [if_pos hle] at h
        have h1 := Option.some.inj h
        have hm : n = m := congrArg Prod.fst h1
        subst hm
        intro x hx
        rcases List.mem_cons.mp hx with rfl | hx2
        · exact le_refl _
        · exact le_trans hle (ih m2 rest1 hr x hx2)
      · rw [if_neg hle] at h
        have h1 := Option.some.inj h
        have hm : m2 = m := congrArg Prod.fst h1
        rw [← hm]
        intro x hx
        rcases List.mem_cons.mp hx with rfl | hx2
        · exact le_of_not_le hle
        · exact ih m2 rest1 hr x hx2

/-! ### Walks and chains -/

theorem movement_cost_pos (dr dc : ℤ) : 0 < _get_movement_cost dr dc := by
  unfold _get_movement_cost
  split <;> norm_num

theorem walk_valid_dst (s : MazeSolver) (p q : Pos) (c : ℚ) (h : Walk s p q c) :
    ValidPos s q := by
  cases h with
  | nil hv => exact hv
  | snoc _ _ _ _ _ _ _ hv => exact hv

theorem walk_valid_src (s : MazeSolver) (p q : Pos) (c : ℚ) (h : Walk s p q c) :
    ValidPos s p := by
  induction h with
  | nil hv => exact hv
  | snoc _ _ _ _ _ _ _ _ ih => exact ih

theorem walk_cost_nonneg (s : MazeSolver) (p q : Pos) (c : ℚ) (h : Walk s p q c) :
    0 ≤ c := by
  induction h with
  | nil _ => exact le_refl 0
  | snoc _ _ _ d _ _ _ _ ih =>
    have := movement_cost_pos d.1 d.2
    linarith

theorem walk_append (s : MazeSolver) (p q r : Pos) (c1 c2 : ℚ)
    (h1 : Walk s p q c1) (h2 : Walk s q r c2) : Walk s p r (c1 + c2) := by
  induction h2 with
  | nil _ =>
    simpa using h1
  | snoc qm rm cm d hw hd hrr hv ih =>
    have hstep := Walk.snoc p qm rm (c1 + cm) d ih hd hrr hv
    have hcast : c1 + cm + _get_movement_cost d.1 d.2 =
        c1 + (cm + _get_movement_cost d.1 d.2) := by ring
    rw [hcast] at hstep
    exact hstep

theorem consistent_along_walk (s : MazeSolver) (hcons : Consistent s)
    (p q : Pos) (c : ℚ) (h : Walk s p q c) :
    s.heuristic p ≤ c + s.heuristic q := by
  induction h with
  | nil _ => simp
  | snoc qm rm cm d hw hd hrr hv ih =>
    have hq : ValidPos s qm := walk_valid_dst s _ qm cm hw
    have hstep := hcons.2 qm d hd hq (by rw [← hrr]; exact hv)
    rw [← hrr] at hstep
    linarith

theorem rconsistent_along_walk (s : MazeSolver) (gl : Pos)
    (hrc : RConsistent s gl) (p q : Pos) (c : ℚ) (h : Walk s p q c) :
    Reachable s q gl → s.heuristic p ≤ c + s.heuristic q := by
  induction h with
  | nil _ =>
    intro _
    simp
  | snoc qm rm cm d hw hd hrr hv ih =>
    intro hq
    have hvq : ValidPos s qm := walk_valid_dst s _ qm cm hw
    have hstep1 : Walk s qm rm (0 + _get_movement_cost d.1 d.2) :=
      Walk.snoc qm qm rm 0 d (Walk.nil qm hvq) hd hrr hv
    have hqm : Reachable s qm gl := by
      obtain ⟨c2, hw2⟩ := hq
      exact ⟨0 + _get_movement_cost d.1 d.2 + c2,
        walk_append s qm rm gl _ c2 hstep1 hw2⟩
    have hstep := hrc qm d hd hvq (by rw [← hrr]; exact hv) (by rw [← hrr]; exact hq)
    rw [← hrr] at hstep
    have hih := ih hqm
    linarith

theorem chainOK_valid (s : MazeSolver) (st0 : Pos) (n : Node)
    (h : ChainOK s st0 n) : ValidPos s n.position := by
  cases h with
  | root f h0 hv => exact hv
  | step par f g h0 p d hpar hd hp hv hg => exact hv

theorem chainOK_walk (s : MazeSolver) (st0 : Pos) (n : Node)
    (h : ChainOK s st0 n) : Walk s st0 n.position n.g_score := by
  induction h with
  | root f h0 hv => exact Walk.nil st0 hv
  | step par f g h0 p d hpar hd hp hv hg ih =>
    have := Walk.snoc st0 par.position p par.g_score d ih hd hp hv
    simp only [Node.position, Node.g_score]
    rw [hg]
    exact this

theorem chainOK_g_nonneg (s : MazeSolver) (st0 : Pos) (n : Node)
    (h : ChainOK s st0 n) : 0 ≤ n.g_score :=
  walk_cost_nonneg s st0 n.position n.g_score (chainOK_walk s st0 n h)

/-! ### Path reconstruction -/

theorem collectPath_ne_nil (n : Node) : collectPath n ≠ [] := by
  cases n with
  | mk f p g h par =>
    cases par <;> simp [collectPath]

theorem collectPath_head (n : Node) :
    (collectPath n).head? = some n.position := by
  cases n with
  | mk f p g h par =>
    cases par <;> simp [collectPath, Node.position]

theorem reconstruct_head (s : MazeSolver) (st0 : Pos) (n : Node)
    (h : ChainOK s st0 n) : (_reconstruct_path n).head? = some st0 := by
  induction h with
  | root f h0 hv => simp [_reconstruct_path, collectPath]
  | step par f g h0 p d hpar hd hp hv hg ih =>
    unfold _reconstruct_path at ih ⊢
    simp only [collectPath, List.reverse_cons]
    rw [List.head?_append_of_ne_nil]
    · exact ih
    · simpa using collectPath_ne_nil par

theorem reconstruct_last (n : Node) :
    (_reconstruct_path n).getLast? = some n.position := by
  unfold _reconstruct_path
  rw [List.getLast?_reverse]
  exact collectPath_head n

theorem reconstruct_chain (s : MazeSolver) (st0 : Pos) (n : Node)
    (h : ChainOK s st0 n) :
    List.Chain' (fun p q : Pos =>
      ∃ d ∈ s.directions, q = (p.1 + d.1, p.2 + d.2)) (_reconstruct_path n) := by
  induction h with
  | root f h0 hv => simp [_reconstruct_path, collectPath]
  | step par f g h0 p d hpar hd hp hv hg ih =>
    unfold _reconstruct_path at ih ⊢
    simp only [collectPath, List.reverse_cons]
    apply List.Chain'.append ih (by simp)
    intro x hx y hy
    rw [List.getLast?_reverse, collectPath_head par] at hx
    have hxx : x = par.position := by
      have := hx
      simp at this
      exact this.symm
    have hyy : y = p := by
      have := hy
      simp at this
      exact this.symm
    subst hxx
    subst hyy
    exact ⟨d, hd, hp⟩

theorem reconstruct_valid (s : MazeSolver) (st0 : Pos) (n : Node)
    (h : ChainOK s st0 n) : ∀ p ∈ _reconstruct_path n, ValidPos s p := by
  induction h with
  | root f h0 hv =>
    intro p hp
    simp only [_reconstruct_path, collectPath, List.reverse_cons, List.reverse_nil,
      List.nil_append, List.mem_singleton] at hp
    subst hp
    exact hv
  | step par f g h0 p d hpar hd hp hv hg ih =>
    intro x hx
    unfold _reconstruct_path at ih hx
    simp only [collectPath, List.reverse_cons, List.mem_append, List.mem_singleton] at hx
    rcases hx with hx | rfl
    · exact ih x hx
    · exact hv

/-- C6: during neighbor expansion, a direction `d` from `current` results in
a push (with best-g updated to the tentative g and a node carrying
`f = g + h` and predecessor `current`) exactly when the neighbor is
passable, not closed, and either has no recorded best-g or is strictly
improved; in every other case — including a tentative g equal to the
recorded best-g — the state is left completely unchanged. -/
theorem C6_push_characterization (s : MazeSolver) (current : Node) (st : SState)
    (d : ℤ × ℤ) :
    (expandDir s current st d = pushResult s current st d ↔ PushCond s current st d) ∧
    (expandDir s current st d = st ↔ ¬ PushCond s current st d) :=
  expandDir_cases s current st d

theorem pushResult_open (s : MazeSolver) (current : Node) (st : SState) (d : ℤ × ℤ) :
    (pushResult s current st d).open_set = st.open_set ++ [pushNode s current d] := rfl

theorem pushResult_gs (s : MazeSolver) (current : Node) (st : SState) (d : ℤ × ℤ) :
    (pushResult s current st d).g_scores =
      ((current.position.1 + d.1, current.position.2 + d.2),
        current.g_score + _get_movement_cost d.1 d.2) :: st.g_scores := rfl

theorem pushResult_rest (s : MazeSolver) (current : Node) (st : SState) (d : ℤ × ℤ) :
    (pushResult s current st d).closed_set = st.closed_set ∧
    (pushResult s current st d).visited_order = st.visited_order ∧
    (pushResult s current st d).search_steps = st.search_steps ∧
    (pushResult s current st d).nodes_explored = st.nodes_explored :=
  ⟨rfl, rfl, rfl, rfl⟩

theorem dictGet_cons (k : Pos) (v : ℚ) (gs : List (Pos × ℚ)) (p : Pos) :
    dictGet ((k, v) :: gs) p = if k = p then some v else dictGet gs p := rfl

theorem expandDir_step_spec (s : MazeSolver) (st0 : Pos) (current : Node)
    (hcur : ChainOK s st0 current) (st : SState) (d : ℤ × ℤ)
    (hd : d ∈ s.directions)
    (hopen : ∀ n ∈ st.open_set, ChainOK s st0 n ∧
      n.f_score = n.g_score + s.heuristic n.position)
    (hgso : ∀ p g0, p ∉ st.closed_set → dictGet st.g_scores p = some g0 →
      ∃ n ∈ st.open_set, n.position = p ∧ n.g_score = g0)
    (hgsle : ∀ n ∈ st.open_set, ∃ g0,
      dictGet st.g_scores n.position = some g0 ∧ g0 ≤ n.g_score) :
    (expandDir s current st d).closed_set = st.closed_set ∧
    (expandDir s current st d).visited_order = st.visited_order ∧
    (expandDir s current st d).search_steps = st.search_steps ∧
    (expandDir s current st d).nodes_explored = st.nodes_explored ∧
    (∀ p ∈ st.closed_set, dictGet (expandDir s current st d).g_scores p =
      dictGet st.g_scores p) ∧
    (∀ n ∈ st.open_set, n ∈ (expandDir s current st d).open_set) ∧
    (∀ n ∈ (expandDir s current st d).open_set, ChainOK s st0 n ∧
      n.f_score = n.g_score + s.heuristic n.position) ∧
    (∀ p g0, p ∉ (expandDir s current st d).closed_set →
      dictGet (expandDir s current st d).g_scores p = some g0 →
      ∃ n ∈ (expandDir s current st d).open_set, n.position = p ∧ n.g_score = g0) ∧
    (∀ n ∈ (expandDir s current st d).open_set, ∃ g0,
      dictGet (expandDir s current st d).g_scores n.position = some g0 ∧
        g0 ≤ n.g_score) ∧
    (ValidPos s (current.position.1 + d.1, current.position.2 + d.2) →
      ((current.position.1 + d.1, current.position.2 + d.2) : Pos) ∉ st.closed_set →
      ∃ n ∈ (expandDir s current st d).open_set,
        n.position = (current.position.1 + d.1, current.position.2 + d.2) ∧
        n.g_score ≤ current.g_score + _get_movement_cost d.1 d.2) ∧
    (expandDir s current st d).open_set.length ≤ st.open_set.length + 1 := by
  rcases expandDir_cases s current st d with ⟨hpush, hskip⟩
  by_cases hP : PushCond s current st d
  · rw [hpush.mpr hP]
    obtain ⟨hval, hnotc, hbest⟩ := hP
    refine ⟨rfl, rfl, rfl, rfl, ?_, ?_, ?_, ?_, ?_, ?_, ?_⟩
    · intro p hp
      rw [pushResult_gs, dictGet_cons]
      rw [if_neg]
      intro heq
      rw [heq] at hnotc
      exact hnotc hp
    · intro n hn
      rw [pushResult_open]
      exact List.mem_append_left _ hn
    · intro n hn
      rw [pushResult_open] at hn
      rcases List.mem_append.mp hn with hn | hn
      · exact hopen n hn
      · have hn2 : n = pushNode s current d := by simpa using hn
        subst hn2
        constructor
        · exact ChainOK.step current _ _ _ _ d hcur hd rfl hval rfl
        · rfl
    · intro p g0 hpc hpg
      rw [pushResult_gs, dictGet_cons] at hpg
      by_cases hpe : ((current.position.1 + d.1, current.position.2 + d.2) : Pos) = p
      · rw [if_pos hpe] at hpg
        refine ⟨pushNode s current d, ?_, ?_, ?_⟩
        · rw [pushResult_open]
          exact List.mem_append_right _ (List.mem_singleton_self _)
        · exact hpe
        · exact Option.some.inj hpg
      · rw [if_neg hpe] at hpg
        have hpc2 : p ∉ st.closed_set := by
          rw [(pushResult_rest s current st d).1] at hpc
          exact hpc
        obtain ⟨n, hn, hnp, hng⟩ := hgso p g0 hpc2 hpg
        refine ⟨n, ?_, hnp, hng⟩
        rw [pushResult_open]
        exact List.mem_append_left _ hn
    · intro n hn
      rw [pushResult_open] at hn
      rw [pushResult_gs]
      rcases List.mem_append.mp hn with hn | hn
      · obtain ⟨g0, hg0, hle⟩ := hgsle n hn
        rw [dictGet_cons]
        by_cases hpe : ((current.position.1 + d.1, current.position.2 + d.2) : Pos) =
            n.position
        · refine ⟨current.g_score + _get_movement_cost d.1 d.2, ?_, ?_⟩
          · rw [if_pos hpe]
          · rcases hbest with hnone | ⟨g1, hg1, hlt⟩
            · rw [← hpe] at hg0
              rw [hnone] at hg0
              exact Option.noConfusion hg0
            · rw [← hpe] at hg0
              rw [hg1] at hg0
              have : g1 = g0 := Option.some.inj hg0
              subst this
              linarith
        · rw [if_neg hpe]
          exact ⟨g0, hg0, hle⟩
      · have hn2 : n = pushNode s current d := by simpa using hn
        subst hn2
        refine ⟨current.g_score + _get_movement_cost d.1 d.2, ?_, le_refl _⟩
        rw [dictGet_cons]
        have heq : ((current.position.1 + d.1, current.position.2 + d.2) : Pos) =
            (pushNode s current d).position := rfl
        rw [if_pos heq]
    · intro hvalid hnc
      refine ⟨pushNode s current d, ?_, rfl, le_refl _⟩
      rw [pushResult_open]
      exact List.mem_append_right _ (List.mem_singleton_self _)
    · rw [pushResult_open, List.length_append]
      simp
  · rw [hskip.mpr hP]
    refine ⟨rfl, rfl, rfl, rfl, fun p _ => rfl, fun n hn => hn,
      hopen, hgso, hgsle, ?_, by omega⟩
    intro hvalid hnc
    cases hdg : dictGet st.g_scores
        ((current.position.1 + d.1, current.position.2 + d.2) : Pos) with
    | none => exact absurd ⟨hvalid, hnc, Or.inl hdg⟩ hP
    | some g0 =>
      by_cases hlt : current.g_score + _get_movement_cost d.1 d.2 < g0
      · exact absurd ⟨hvalid, hnc, Or.inr ⟨g0, hdg, hlt⟩⟩ hP
      · obtain ⟨n, hn, hnp, hng⟩ := hgso _ g0 hnc hdg
        refine ⟨n, hn, hnp, ?_⟩
        rw [hng]
        linarith

theorem expandFold_spec (s : MazeSolver) (st0 : Pos) (current : Node)
    (hcur : ChainOK s st0 current) :
    ∀ (ds : List (ℤ × ℤ)) (st : SState),
    (∀ d ∈ ds, d ∈ s.directions) →
    (∀ n ∈ st.open_set, ChainOK s st0 n ∧
      n.f_score = n.g_score + s.heuristic n.position) →
    (∀ p g0, p ∉ st.closed_set → dictGet st.g_scores p = some g0 →
      ∃ n ∈ st.open_set, n.position = p ∧ n.g_score = g0) →
    (∀ n ∈ st.open_set, ∃ g0,
      dictGet st.g_scores n.position = some g0 ∧ g0 ≤ n.g_score) →
    (ds.foldl (expandDir s current) st).closed_set = st.closed_set ∧
    (ds.foldl (expandDir s current) st).visited_order = st.visited_order ∧
    (ds.foldl (expandDir s current) st).search_steps = st.search_steps ∧
    (ds.foldl (expandDir s current) st).nodes_explored = st.nodes_explored ∧
    (∀ p ∈ st.closed_set, dictGet (ds.foldl (expandDir s current) st).g_scores p =
      dictGet st.g_scores p) ∧
    (∀ n ∈ st.open_set, n ∈ (ds.foldl (expandDir s current) st).open_set) ∧
    (∀ n ∈ (ds.foldl (expandDir s current) st).open_set, ChainOK s st0 n ∧
      n.f_score = n.g_score + s.heuristic n.position) ∧
    (∀ p g0, p ∉ (ds.foldl (expandDir s current) st).closed_set →
      dictGet (ds.foldl (expandDir s current) st).g_scores p = some g0 →
      ∃ n ∈ (ds.foldl (expandDir s current) st).open_set,
        n.position = p ∧ n.g_score = g0) ∧
    (∀ n ∈ (ds.foldl (expandDir s current) st).open_set, ∃ g0,
      dictGet (ds.foldl (expandDir s current) st).g_scores n.position = some g0 ∧
        g0 ≤ n.g_score) ∧
    (∀ d ∈ ds, ValidPos s (current.position.1 + d.1, current.position.2 + d.2) →
      ((current.position.1 + d.1, current.position.2 + d.2) : Pos) ∉ st.closed_set →
      ∃ n ∈ (ds.foldl (expandDir s current) st).open_set,
        n.position = (current.position.1 + d.1, current.position.2 + d.2) ∧
        n.g_score ≤ current.g_score + _get_movement_cost d.1 d.2) ∧
    (ds.foldl (expandDir s current) st).open_set.length ≤
      st.open_set.length + ds.length := by
  intro ds
  induction ds with
  | nil =>
    intro st _ hopen hgso hgsle
    refine ⟨rfl, rfl, rfl, rfl, fun p _ => rfl, fun n hn => hn, hopen, hgso, hgsle,
      ?_, by simp⟩
    intro d hd
    exact absurd hd (List.not_mem_nil d)
  | cons d ds ih =>
    intro st hds hopen hgso hgsle
    obtain ⟨s_cl, s_vi, s_st, s_ne, s_gsc, s_mono, s_open, s_gso, s_gsle, s_front,
      s_len⟩ :=
      expandDir_step_spec s st0 current hcur st d (hds d (List.mem_cons_self d ds))
        hopen hgso hgsle
    rw [List.foldl_cons]
    obtain ⟨i_cl, i_vi, i_st, i_ne, i_gsc, i_mono, i_open, i_gso, i_gsle, i_front,
      i_len⟩ :=
      ih (expandDir s current st d)
        (fun e he => hds e (List.mem_cons_of_mem d he)) s_open s_gso s_gsle
    refine ⟨by rw [i_cl, s_cl], by rw [i_vi, s_vi], by rw [i_st, s_st],
      by rw [i_ne, s_ne], ?_, ?_, i_open, ?_, i_gsle, ?_, ?_⟩
    · intro p hp
      rw [i_gsc p (by rw [s_cl]; exact hp), s_gsc p hp]
    · intro n hn
      exact i_mono n (s_mono n hn)
    · intro p g0 hpc hpg
      exact i_gso p g0 hpc hpg
    · intro e he hvalid hnc
      rcases List.mem_cons.mp he with rfl | he2
      · obtain ⟨n, hn, hnp, hng⟩ := s_front hvalid hnc
        exact ⟨n, i_mono n hn, hnp, hng⟩
      · have hnc2 : ((current.position.1 + e.1, current.position.2 + e.2) : Pos) ∉
            (expandDir s current st d).closed_set := by
          rw [s_cl]
          exact hnc
        exact i_front e he2 hvalid hnc2
    · calc (ds.foldl (expandDir s current) (expandDir s current st d)).open_set.length
          ≤ (expandDir s current st d).open_set.length + ds.length := i_len
        _ ≤ st.open_set.length + 1 + ds.length := by omega
        _ = st.open_set.length + (d :: ds).length := by simp [List.length_cons]; omega

theorem pop_mem_rest (l : List Node) (current : Node) (rest : List Node)
    (hpop : heappop l = some (current, rest)) (n : Node) (hn : n ∈ l)
    (hne : n ≠ current) : n ∈ rest := by
  have hmem := (heappop_perm l current rest hpop).subset hn
  rcases List.mem_cons.mp hmem with h | h
  · exact absurd h hne
  · exact h

theorem pop_g_eq (s : MazeSolver) (st0 : Pos) (st : SState) (current : Node)
    (rest : List Node) (hinv : LoopInv s st0 st)
    (hpop : heappop st.open_set = some (current, rest))
    (hfresh : current.position ∉ st.closed_set) :
    dictGet st.g_scores current.position = some current.g_score := by
  have hmem := heappop_mem _ _ _ hpop
  obtain ⟨g0, hg0, hle⟩ := hinv.gs_le current hmem
  obtain ⟨n0, hn0, hn0p, hn0g⟩ := hinv.gs_open current.position g0 hfresh hg0
  have hf0 := (hinv.open_nodes n0 hn0).2
  have hfc := (hinv.open_nodes current hmem).2
  have hmin := heappop_min _ _ _ hpop n0 hn0
  rw [hfc, hf0, hn0g, hn0p] at hmin
  have hge : current.g_score ≤ g0 := by linarith
  rw [hg0]
  congr 1
  linarith

theorem stale_preserves_inv (s : MazeSolver) (st0 : Pos) (st : SState)
    (current : Node) (rest : List Node) (hinv : LoopInv s st0 st)
    (hpop : heappop st.open_set = some (current, rest))
    (hstale : current.position ∈ st.closed_set) :
    LoopInv s st0 { st with open_set := rest } := by
  have hrest : ∀ n ∈ rest, n ∈ st.open_set := heappop_sub _ _ _ hpop
  refine ⟨?_, hinv.closed_valid, hinv.closed_nodup, hinv.closed_g, ?_, ?_, ?_,
    ?_, hinv.visited_eq, hinv.steps_pos, hinv.explored_eq⟩
  · intro n hn
    exact hinv.open_nodes n (hrest n hn)
  · intro p hp d hd hvalid hnc
    obtain ⟨n, hn, hnp⟩ := hinv.closed_exp p hp d hd hvalid hnc
    refine ⟨n, ?_, hnp⟩
    apply pop_mem_rest st.open_set current rest hpop n hn
    intro heq
    rw [heq] at hnp
    rw [hnp] at hstale
    exact hnc hstale
  · rcases hinv.start_mem with h | ⟨n, hn, hnp, hng⟩
    · exact Or.inl h
    · by_cases hne : n = current
      · subst hne
        rw [hnp] at hstale
        exact Or.inl hstale
      · exact Or.inr ⟨n, pop_mem_rest st.open_set current rest hpop n hn hne, hnp, hng⟩
  · intro p g0 hpc hpg
    obtain ⟨n, hn, hnp, hng⟩ := hinv.gs_open p g0 hpc hpg
    refine ⟨n, ?_, hnp, hng⟩
    apply pop_mem_rest st.open_set current rest hpop n hn
    intro heq
    rw [heq] at hnp
    rw [← hnp] at hpc
    exact hpc hstale
  · intro n hn
    exact hinv.gs_le n (hrest n hn)

theorem close_preserves_inv (s : MazeSolver) (st0 : Pos) (st : SState)
    (current : Node) (rest : List Node) (hinv : LoopInv s st0 st)
    (hpop : heappop st.open_set = some (current, rest))
    (hfresh : current.position ∉ st.closed_set) :
    LoopInv s st0 (expandNeighbors s current (closeState st current rest)) := by
  have hmem := heappop_mem _ _ _ hpop
  have hrest : ∀ n ∈ rest, n ∈ st.open_set := heappop_sub _ _ _ hpop
  obtain ⟨hcur, hcurf⟩ := hinv.open_nodes current hmem
  have hcv : ValidPos s current.position := chainOK_valid s st0 current hcur
  have h1open : ∀ n ∈ (closeState st current rest).open_set, ChainOK s st0 n ∧
      n.f_score = n.g_score + s.heuristic n.position :=
    fun n hn => hinv.open_nodes n (hrest n hn)
  have h1gso : ∀ p g0, p ∉ (closeState st current rest).closed_set →
      dictGet (closeState st current rest).g_scores p = some g0 →
      ∃ n ∈ (closeState st current rest).open_set, n.position = p ∧ n.g_score = g0 := by
    intro p g0 hpc hpg
    have hpc2 : p ∉ st.closed_set := by
      intro hp
      exact hpc (List.mem_append_left _ hp)
    have hpne : p ≠ current.position := by
      intro heq
      exact hpc (List.mem_append_right _ (by rw [heq]; exact List.mem_singleton_self _))
    obtain ⟨n, hn, hnp, hng⟩ := hinv.gs_open p g0 hpc2 hpg
    refine ⟨n, ?_, hnp, hng⟩
    apply pop_mem_rest st.open_set current rest hpop n hn
    intro heq
    rw [heq] at hnp
    exact hpne hnp.symm
  have h1gsle : ∀ n ∈ (closeState st current rest).open_set, ∃ g0,
      dictGet (closeState st current rest).g_scores n.position = some g0 ∧
        g0 ≤ n.g_score :=
    fun n hn => hinv.gs_le n (hrest n hn)
  obtain ⟨f_cl, f_vi, f_st, f_ne, f_gsc, f_mono, f_open, f_gso, f_gsle, f_front,
    f_len⟩ :=
    expandFold_spec s st0 current hcur s.directions (closeState st current rest)
      (fun d hd => hd) h1open h1gso h1gsle
  have hcl2 : (s.directions.foldl (expandDir s current)
      (closeState st current rest)).closed_set =
      st.closed_set ++ [current.position] := f_cl
  simp only [expandNeighbors]
  refine ⟨f_open, ?_, ?_, ?_, ?_, ?_, f_gso, f_gsle, ?_, ?_, ?_⟩
  · intro p hp
    rw [hcl2] at hp
    rcases List.mem_append.mp hp with hp | hp
    · exact hinv.closed_valid p hp
    · rw [List.mem_singleton.mp hp]
      exact hcv
  · rw [hcl2]
    apply List.Nodup.append hinv.closed_nodup (List.nodup_singleton _)
    intro a ha hb
    rw [List.mem_singleton.mp hb] at ha
    exact hfresh ha
  · intro p hp
    rw [hcl2] at hp
    have hstable := f_gsc p (by rw [hcl2] at *; exact hp)
    rcases List.mem_append.mp hp with hp2 | hp2
    · obtain ⟨gp, hgp, hwalk⟩ := hinv.closed_g p hp2
      exact ⟨gp, by rw [hstable]; exact hgp, hwalk⟩
    · rw [List.mem_singleton.mp hp2]
      refine ⟨current.g_score, ?_, ?_⟩
      · rw [List.mem_singleton.mp hp2] at hstable
        rw [hstable]
        exact pop_g_eq s st0 st current rest hinv hpop hfresh
      · exact chainOK_walk s st0 current hcur
  · intro p hp d hd hvalid hnc
    rw [hcl2] at hp hnc
    rcases List.mem_append.mp hp with hp2 | hp2
    · have hnc2 : ((p.1 + d.1, p.2 + d.2) : Pos) ∉ st.closed_set := by
        intro h
        exact hnc (List.mem_append_left _ h)
      obtain ⟨n, hn, hnp⟩ := hinv.closed_exp p hp2 d hd hvalid hnc2
      have hne : n ≠ current := by
        intro heq
        rw [heq] at hnp
        exact hnc (List.mem_append_right _ (by rw [← hnp]; exact List.mem_singleton_self _))
      refine ⟨n, f_mono n (pop_mem_rest st.open_set current rest hpop n hn hne), hnp⟩
    · rw [List.mem_singleton.mp hp2]
      have hnc3 : ((p.1 + d.1, p.2 + d.2) : Pos) ∉
          (closeState st current rest).closed_set := by
        rw [show (closeState st current rest).closed_set =
          st.closed_set ++ [current.position] from rfl]
        exact hnc
      rw [List.mem_singleton.mp hp2] at hvalid hnc3
      obtain ⟨n, hn, hnp, _⟩ := f_front d hd hvalid hnc3
      exact ⟨n, hn, hnp⟩
  · rcases hinv.start_mem with h | ⟨n, hn, hnp, hng⟩
    · rw [hcl2]
      exact Or.inl (List.mem_append_left _ h)
    · by_cases hne : n = current
      · subst hne
        rw [hcl2, hnp]
        exact Or.inl (List.mem_append_right _ (List.mem_singleton_self _))
      · exact Or.inr ⟨n,
          f_mono n (pop_mem_rest st.open_set current rest hpop n hn hne), hnp, hng⟩
  · rw [f_vi, hcl2]
    show st.visited_order ++ [current.position] = _
    rw [hinv.visited_eq]
  · rw [f_st, hcl2]
    show (st.search_steps ++ [_]).map SearchStep.position = _
    rw [List.map_append, hinv.steps_pos]
    rfl
  · rw [f_ne, hcl2]
    show st.nodes_explored + 1 = _
    rw [hinv.explored_eq, List.length_append, List.length_singleton]

theorem frontier_lemma (s : MazeSolver) (st0 gl : Pos) (st : SState)
    (hinv : LoopInv s st0 st) (hopt : OptInv s st0 gl st) :
    ∀ q w, Walk s st0 q w → Reachable s q gl → q ∉ st.closed_set →
      ∃ n ∈ st.open_set, ∃ c2, Walk s n.position q c2 ∧ n.g_score + c2 ≤ w := by
  intro q w hw
  induction hw with
  | nil hv =>
    intro _ hnc
    rcases hinv.start_mem with h | ⟨n, hn, hnp, hng⟩
    · exact absurd h hnc
    · refine ⟨n, hn, 0, ?_, ?_⟩
      · rw [hnp]
        exact Walk.nil st0 hv
      · rw [hng]
        norm_num
  | snoc v q2 c d hwv hd hq2 hv2 ih =>
    intro hreach hnc
    have hvq : ValidPos s v := walk_valid_dst s _ v c hwv
    have hstep1 : Walk s v q2 (0 + _get_movement_cost d.1 d.2) :=
      Walk.snoc v v q2 0 d (Walk.nil v hvq) hd hq2 hv2
    have hvreach : Reachable s v gl := by
      obtain ⟨c2, hw2⟩ := hreach
      exact ⟨0 + _get_movement_cost d.1 d.2 + c2,
        walk_append s v q2 gl _ c2 hstep1 hw2⟩
    by_cases hvc : v ∈ st.closed_set
    · obtain ⟨gp, hgp, _⟩ := hinv.closed_g v hvc
      have hgpmin := hopt.closed_gmin v hvc hvreach gp hgp c hwv
      have hq2v : ValidPos s (v.1 + d.1, v.2 + d.2) := by
        rw [← hq2]
        exact hv2
      have hq2nc : ((v.1 + d.1, v.2 + d.2) : Pos) ∉ st.closed_set := by
        rw [← hq2]
        exact hnc
      obtain ⟨n, hn, hnp, hbound⟩ := hopt.closed_exp_bound v hvc d hd hq2v hq2nc
      have hb := hbound gp hgp
      refine ⟨n, hn, 0, ?_, ?_⟩
      · rw [hnp, ← hq2]
        exact Walk.nil q2 (hq2 ▸ hv2)
      · have := movement_cost_pos d.1 d.2
        linarith
    · obtain ⟨n, hn, c2, hw2, hbw⟩ := ih hvreach hvc
      refine ⟨n, hn, c2 + _get_movement_cost d.1 d.2, ?_, ?_⟩
      · exact Walk.snoc n.position v q2 c2 d hw2 hd hq2 hv2
      · linarith

theorem pop_optimal (s : MazeSolver) (st0 gl : Pos) (st : SState) (current : Node)
    (rest : List Node) (hrc : RConsistent s gl) (hinv : LoopInv s st0 st)
    (hopt : OptInv s st0 gl st)
    (hpop : heappop st.open_set = some (current, rest))
    (hfresh : current.position ∉ st.closed_set)
    (hreach : Reachable s current.position gl) :
    ∀ w, Walk s st0 current.position w → current.g_score ≤ w := by
  intro w hw
  obtain ⟨n, hn, c2, hw2, hbw⟩ :=
    frontier_lemma s st0 gl st hinv hopt current.position w hw hreach hfresh
  have hcw := rconsistent_along_walk s gl hrc n.position current.position c2 hw2
    hreach
  have hmin := heappop_min _ _ _ hpop n hn
  have hfc := (hinv.open_nodes current (heappop_mem _ _ _ hpop)).2
  have hfn := (hinv.open_nodes n hn).2
  rw [hfc, hfn] at hmin
  linarith

theorem stale_preserves_opt (s : MazeSolver) (st0 gl : Pos) (st : SState)
    (current : Node) (rest : List Node) (_hinv : LoopInv s st0 st)
    (hopt : OptInv s st0 gl st)
    (hpop : heappop st.open_set = some (current, rest))
    (hstale : current.position ∈ st.closed_set) :
    OptInv s st0 gl { st with open_set := rest } := by
  refine ⟨hopt.closed_gmin, ?_⟩
  intro p hp d hd hvalid hnc
  obtain ⟨n, hn, hnp, hb⟩ := hopt.closed_exp_bound p hp d hd hvalid hnc
  refine ⟨n, ?_, hnp, hb⟩
  apply pop_mem_rest st.open_set current rest hpop n hn
  intro heq
  rw [heq] at hnp
  rw [hnp] at hstale
  exact hnc hstale

theorem close_preserves_opt (s : MazeSolver) (st0 gl : Pos) (st : SState)
    (current : Node) (rest : List Node) (hrc : RConsistent s gl)
    (hinv : LoopInv s st0 st) (hopt : OptInv s st0 gl st)
    (hpop : heappop st.open_set = some (current, rest))
    (hfresh : current.position ∉ st.closed_set) :
    OptInv s st0 gl (expandNeighbors s current (closeState st current rest)) := by
  have hmem := heappop_mem _ _ _ hpop
  have hrest : ∀ n ∈ rest, n ∈ st.open_set := heappop_sub _ _ _ hpop
  obtain ⟨hcur, hcurf⟩ := hinv.open_nodes current hmem
  have h1open : ∀ n ∈ (closeState st current rest).open_set, ChainOK s st0 n ∧
      n.f_score = n.g_score + s.heuristic n.position :=
    fun n hn => hinv.open_nodes n (hrest n hn)
  have h1gso : ∀ p g0, p ∉ (closeState st current rest).closed_set →
      dictGet (closeState st current rest).g_scores p = some g0 →
      ∃ n ∈ (closeState st current rest).open_set, n.position = p ∧ n.g_score = g0 := by
    intro p g0 hpc hpg
    have hpc2 : p ∉ st.closed_set := by
      intro hp
      exact hpc (List.mem_append_left _ hp)
    have hpne : p ≠ current.position := by
      intro heq
      exact hpc (List.mem_append_right _ (by rw [heq]; exact List.mem_singleton_self _))
    obtain ⟨n, hn, hnp, hng⟩ := hinv.gs_open p g0 hpc2 hpg
    refine ⟨n, ?_, hnp, hng⟩
    apply pop_mem_rest st.open_set current rest hpop n hn
    intro heq
    rw [heq] at hnp
    exact hpne hnp.symm
  have h1gsle : ∀ n ∈ (closeState st current rest).open_set, ∃ g0,
      dictGet (closeState st current rest).g_scores n.position = some g0 ∧
        g0 ≤ n.g_score :=
    fun n hn => hinv.gs_le n (hrest n hn)
  obtain ⟨f_cl, f_vi, f_st, f_ne, f_gsc, f_mono, f_open, f_gso, f_gsle, f_front,
    f_len⟩ :=
    expandFold_spec s st0 current hcur s.directions (closeState st current rest)
      (fun d hd => hd) h1open h1gso h1gsle
  have hgcur := pop_g_eq s st0 st current rest hinv hpop hfresh
  have hgs1 : (closeState st current rest).g_scores = st.g_scores := rfl
  simp only [expandNeighbors]
  constructor
  · intro p hp hreach gp hgp w hw
    rw [f_cl] at hp
    have hstable := f_gsc p hp
    rw [hstable, hgs1] at hgp
    rcases List.mem_append.mp hp with hp2 | hp2
    · exact hopt.closed_gmin p hp2 hreach gp hgp w hw
    · have hpc := List.mem_singleton.mp hp2
      rw [hpc] at hgp hreach
      rw [hgp] at hgcur
      have : current.g_score = gp := Option.some.inj hgcur.symm
      rw [← this]
      apply pop_optimal s st0 gl st current rest hrc hinv hopt hpop hfresh hreach
      rw [← hpc]
      exact hw
  · intro p hp d hd hvalid hnc
    rw [f_cl] at hp hnc
    have hstable := f_gsc p hp
    rcases List.mem_append.mp hp with hp2 | hp2
    · have hnc2 : ((p.1 + d.1, p.2 + d.2) : Pos) ∉ st.closed_set := by
        intro h
        exact hnc (List.mem_append_left _ h)
      obtain ⟨n, hn, hnp, hb⟩ := hopt.closed_exp_bound p hp2 d hd hvalid hnc2
      have hne : n ≠ current := by
        intro heq
        rw [heq] at hnp
        exact hnc (List.mem_append_right _
          (by rw [← hnp]; exact List.mem_singleton_self _))
      refine ⟨n, f_mono n (pop_mem_rest st.open_set current rest hpop n hn hne),
        hnp, ?_⟩
      intro gp hgp
      rw [hstable, hgs1] at hgp
      exact hb gp hgp
    · have hpc := List.mem_singleton.mp hp2
      rw [hpc]
      have hnc3 : ((current.position.1 + d.1, current.position.2 + d.2) : Pos) ∉
          (closeState st current rest).closed_set := by
        rw [show (closeState st current rest).closed_set =
          st.closed_set ++ [current.position] from rfl]
        rw [hpc] at hnc
        exact hnc
      rw [hpc] at hvalid
      obtain ⟨n, hn, hnp, hb⟩ := f_front d hd hvalid hnc3
      refine ⟨n, hn, hnp, ?_⟩
      intro gp hgp
      rw [hpc] at hstable
      rw [hstable, hgs1] at hgp
      rw [hgcur] at hgp
      have : current.g_score = gp := Option.some.inj hgp
      rw [← this]
      exact hb

theorem solveLoop_props (s : MazeSolver) (st0 gl : Pos) :
    ∀ (fuel : ℕ) (st stF : SState) (res : Option (List Pos)) (stats : Stats),
    LoopInv s st0 st →
    solveLoop s gl fuel st = some (stF, res, stats) →
    stF.visited_order.Nodup ∧
    stF.search_steps.map SearchStep.position = stF.visited_order ∧
    stF.nodes_explored = stF.visited_order.length ∧
    (∀ p ∈ stF.visited_order, ValidPos s p) ∧
    (res = none → stF.open_set = [] ∧ LoopInv s st0 stF ∧
      stats = ⟨some false, none, none, some stF.nodes_explored, some s.hname,
        some "Goal is unreachable - no valid path exists"⟩) ∧
    (∀ path, res = some path → ∃ current : Node,
      ChainOK s st0 current ∧ current.position = gl ∧
      path = _reconstruct_path current ∧
      current.position ∈ stF.visited_order ∧
      stats = ⟨some true, some path.length, some current.g_score,
        some stF.nodes_explored, some s.hname, none⟩) := by
  intro fuel
  induction fuel with
  | zero =>
    intro st stF res stats _ h
    exact Option.noConfusion h
  | succ fuel ih =>
    intro st stF res stats hinv h
    rw [solveLoop] at h
    cases hpop : heappop st.open_set with
    | none =>
      rw [hpop] at h
      have h2 := Option.some.inj h
      obtain ⟨hstF, hres, hstats⟩ : stF = st ∧ res = none ∧
          stats = ⟨some false, none, none, some st.nodes_explored, some s.hname,
            some "Goal is unreachable - no valid path exists"⟩ := by
        refine ⟨(congrArg Prod.fst h2).symm, ?_, ?_⟩
        · exact (congrArg (fun x => x.2.1) h2).symm
        · exact (congrArg (fun x => x.2.2) h2).symm
      subst hstF
      subst hres
      refine ⟨?_, ?_, ?_, ?_, ?_, ?_⟩
      · rw [hinv.visited_eq]
        exact hinv.closed_nodup
      · rw [hinv.visited_eq]
        exact hinv.steps_pos
      · rw [hinv.visited_eq]
        exact hinv.explored_eq
      · intro p hp
        rw [hinv.visited_eq] at hp
        exact hinv.closed_valid p hp
      · intro _
        exact ⟨(heappop_none_iff stF.open_set).mp hpop, hinv, hstats⟩
      · intro path hpath
        exact Option.noConfusion hpath
    | some pr =>
      obtain ⟨current, rest⟩ := pr
      simp only [hpop] at h
      by_cases hstale : current.position ∈ st.closed_set
      · rw [if_pos hstale] at h
        exact ih { st with open_set := rest } stF res stats
          (stale_preserves_inv s st0 st current rest hinv hpop hstale) h
      · rw [if_neg hstale] at h
        by_cases hgl : current.position = gl
        · rw [if_pos hgl] at h
          have h2 := Option.some.inj h
          have hstF : stF = closeState st current rest :=
            (congrArg Prod.fst h2).symm
          have hres : res = some (_reconstruct_path current) :=
            (congrArg (fun x => x.2.1) h2).symm
          have hstats : stats = ⟨some true, some (_reconstruct_path current).length,
              some current.g_score, some (closeState st current rest).nodes_explored,
              some s.hname, none⟩ :=
            (congrArg (fun x => x.2.2) h2).symm
          subst hstF
          subst hres
          have hmem := heappop_mem _ _ _ hpop
          obtain ⟨hcur, _⟩ := hinv.open_nodes current hmem
          have hcv : ValidPos s current.position := chainOK_valid s st0 current hcur
          have hvis1 : (closeState st current rest).visited_order =
              st.closed_set ++ [current.position] := by
            show st.visited_order ++ [current.position] = _
            rw [hinv.visited_eq]
          refine ⟨?_, ?_, ?_, ?_, ?_, ?_⟩
          · rw [hvis1]
            apply List.Nodup.append hinv.closed_nodup (List.nodup_singleton _)
            intro a ha hb
            rw [List.mem_singleton.mp hb] at ha
            exact hstale ha
          · show (st.search_steps ++ [_]).map SearchStep.position = _
            rw [List.map_append, hinv.steps_pos, hvis1]
            rfl
          · rw [hvis1]
            show st.nodes_explored + 1 = _
            rw [hinv.explored_eq, List.length_append, List.length_singleton]
          · intro p hp
            rw [hvis1] at hp
            rcases List.mem_append.mp hp with hp | hp
            · exact hinv.closed_valid p hp
            · rw [List.mem_singleton.mp hp]
              exact hcv
          · intro hres2
            exact Option.noConfusion hres2
          · intro path hpath
            have hpe : path = _reconstruct_path current := by
              exact (Option.some.inj hpath.symm)
            refine ⟨current, hcur, hgl, hpe, ?_, ?_⟩
            · rw [hvis1]
              exact List.mem_append_right _ (List.mem_singleton_self _)
            · rw [hstats, hpe]
        · rw [if_neg hgl] at h
          exact ih (expandNeighbors s current (closeState st current rest)) stF res
            stats (close_preserves_inv s st0 st current rest hinv hpop hstale) h

theorem solveLoop_opt (s : MazeSolver) (st0 gl : Pos) (hrc : RConsistent s gl) :
    ∀ (fuel : ℕ) (st stF : SState) (res : Option (List Pos)) (stats : Stats)
      (path : List Pos),
    LoopInv s st0 st → OptInv s st0 gl st →
    solveLoop s gl fuel st = some (stF, res, stats) → res = some path →
    ∃ c, stats.path_cost = some c ∧ Walk s st0 gl c ∧
      ∀ w, Walk s st0 gl w → c ≤ w := by
  intro fuel
  induction fuel with
  | zero =>
    intro st stF res stats path _ _ h _
    exact Option.noConfusion h
  | succ fuel ih =>
    intro st stF res stats path hinv hopt h hres
    rw [solveLoop] at h
    cases hpop : heappop st.open_set with
    | none =>
      simp only [hpop] at h
      have hres2 : res = none := (congrArg (fun x => x.2.1) (Option.some.inj h)).symm
      rw [hres2] at hres
      exact Option.noConfusion hres
    | some pr =>
      obtain ⟨current, rest⟩ := pr
      simp only [hpop] at h
      by_cases hstale : current.position ∈ st.closed_set
      · rw [if_pos hstale] at h
        exact ih { st with open_set := rest } stF res stats path
          (stale_preserves_inv s st0 st current rest hinv hpop hstale)
          (stale_preserves_opt s st0 gl st current rest hinv hopt hpop hstale) h hres
      · rw [if_neg hstale] at h
        by_cases hgl : current.position = gl
        · rw [if_pos hgl] at h
          have hstats : stats = ⟨some true, some (_reconstruct_path current).length,
              some current.g_score, some (closeState st current rest).nodes_explored,
              some s.hname, none⟩ :=
            (congrArg (fun x => x.2.2) (Option.some.inj h)).symm
          have hcv : ValidPos s current.position :=
            chainOK_valid s st0 current
              (hinv.open_nodes current (heappop_mem _ _ _ hpop)).1
          have hreach : Reachable s current.position gl := by
            rw [hgl]
            rw [hgl] at hcv
            exact ⟨0, Walk.nil gl hcv⟩
          refine ⟨current.g_score, by rw [hstats], ?_, ?_⟩
          · have := chainOK_walk s st0 current
              (hinv.open_nodes current (heappop_mem _ _ _ hpop)).1
            rw [hgl] at this
            exact this
          · intro w hw
            apply pop_optimal s st0 gl st current rest hrc hinv hopt hpop hstale
              hreach
            rw [hgl]
            exact hw
        · rw [if_neg hgl] at h
          exact ih (expandNeighbors s current (closeState st current rest)) stF res
            stats path (close_preserves_inv s st0 st current rest hinv hpop hstale)
            (close_preserves_opt s st0 gl st current rest hrc hinv hopt hpop hstale)
            h hres

theorem valid_iff (s : MazeSolver) (p : Pos) :
    ValidPos s p ↔ (0 ≤ p.1 ∧ p.1 < (s.rows : ℤ) ∧ 0 ≤ p.2 ∧ p.2 < (s.cols : ℤ) ∧
      cellAt s.maze p.1.toNat p.2.toNat ≠ CellType.WALL) := by
  unfold ValidPos MazeSolver._is_valid
  simp [Bool.and_eq_true, decide_eq_true_eq, bne_iff_ne]
  tauto

theorem posToNat_valid_inj (s : MazeSolver) (p q : Pos) (hp : ValidPos s p)
    (hq : ValidPos s q) (h : posToNat p = posToNat q) : p = q := by
  rw [valid_iff] at hp hq
  unfold posToNat at h
  have h1 : p.1.toNat = q.1.toNat := congrArg Prod.fst h
  have h2 : p.2.toNat = q.2.toNat := congrArg Prod.snd h
  have e1 : p.1 = q.1 := by omega
  have e2 : p.2 = q.2 := by omega
  exact Prod.ext e1 e2

theorem valid_mem_validList (s : MazeSolver) (p : Pos) (hp : ValidPos s p) :
    posToNat p ∈ validList s := by
  have hv := hp
  rw [valid_iff] at hv
  unfold validList
  rw [List.mem_filter]
  constructor
  · rw [mem_rowMajor]
    unfold posToNat
    constructor <;> simp <;> omega
  · have hc1 : ((posToNat p).1 : ℤ) = p.1 := by
      unfold posToNat
      simp
      omega
    have hc2 : ((posToNat p).2 : ℤ) = p.2 := by
      unfold posToNat
      simp
      omega
    rw [hc1, hc2]
    exact hp

theorem nodup_valid_length_le (s : MazeSolver) (l : List Pos) (hnd : l.Nodup)
    (hval : ∀ p ∈ l, ValidPos s p) : l.length ≤ (validList s).length := by
  have hndN : (l.map posToNat).Nodup := by
    rw [List.nodup_map_iff_inj_on hnd]
    intro p hp q hq h
    exact posToNat_valid_inj s p q (hval p hp) (hval q hq) h
  have hsub : ∀ x ∈ l.map posToNat, x ∈ validList s := by
    intro x hx
    rcases List.mem_map.mp hx with ⟨p, hp, rfl⟩
    exact valid_mem_validList s p (hval p hp)
  have h1 : (l.map posToNat).toFinset.card = (l.map posToNat).length :=
    List.toFinset_card_of_nodup hndN
  have h2 : (l.map posToNat).toFinset ⊆ (validList s).toFinset := by
    intro x hx
    rw [List.mem_toFinset] at hx ⊢
    exact hsub x hx
  have h3 := Finset.card_le_card h2
  have h4 := (validList s).toFinset_card_le
  rw [h1] at h3
  rw [List.length_map] at h3
  omega

theorem expandDir_len (s : MazeSolver) (c : Node) (st : SState) (d : ℤ × ℤ) :
    (expandDir s c st d).open_set.length ≤ st.open_set.length + 1 ∧
    (expandDir s c st d).closed_set = st.closed_set := by
  rcases expandDir_cases s c st d with ⟨hp, hs⟩
  by_cases h : PushCond s c st d
  · rw [hp.mpr h]
    constructor
    · rw [pushResult_open]
      simp
    · rfl
  · rw [hs.mpr h]
    exact ⟨by omega, rfl⟩

theorem expandFold_len (s : MazeSolver) (c : Node) :
    ∀ (ds : List (ℤ × ℤ)) (st : SState),
    (ds.foldl (expandDir s c) st).open_set.length ≤ st.open_set.length + ds.length ∧
    (ds.foldl (expandDir s c) st).closed_set = st.closed_set := by
  intro ds
  induction ds with
  | nil => intro st; exact ⟨by simp, rfl⟩
  | cons d ds ih =>
    intro st
    rw [List.foldl_cons]
    obtain ⟨h1, h2⟩ := ih (expandDir s c st d)
    obtain ⟨h3, h4⟩ := expandDir_len s c st d
    refine ⟨?_, by rw [h2, h4]⟩
    calc (ds.foldl (expandDir s c) (expandDir s c st d)).open_set.length
        ≤ (expandDir s c st d).open_set.length + ds.length := h1
      _ ≤ st.open_set.length + 1 + ds.length := by omega
      _ = st.open_set.length + (d :: ds).length := by
          rw [List.length_cons]
          omega

theorem solveLoop_total (s : MazeSolver) (st0 gl : Pos)
    (hdirs : s.directions.length ≤ 8) :
    ∀ (fuel : ℕ) (st : SState), LoopInv s st0 st →
    st.open_set.length + 9 * ((validList s).length - st.closed_set.length) < fuel →
    (solveLoop s gl fuel st).isSome = true := by
  intro fuel
  induction fuel with
  | zero =>
    intro st _ hm
    omega
  | succ fuel ih =>
    intro st hinv hm
    rw [solveLoop]
    cases hpop : heappop st.open_set with
    | none => rfl
    | some pr =>
      obtain ⟨current, rest⟩ := pr
      simp only []
      have hlen := heappop_length _ _ _ hpop
      by_cases hstale : current.position ∈ st.closed_set
      · rw [if_pos hstale]
        apply ih { st with open_set := rest }
          (stale_preserves_inv s st0 st current rest hinv hpop hstale)
        simp only []
        omega
      · rw [if_neg hstale]
        by_cases hgl : current.position = gl
        · rw [if_pos hgl]
          rfl
        · rw [if_neg hgl]
          have hinv2 := close_preserves_inv s st0 st current rest hinv hpop hstale
          apply ih (expandNeighbors s current (closeState st current rest)) hinv2
          obtain ⟨hflen, hfcl⟩ :=
            expandFold_len s current s.directions (closeState st current rest)
          have hcl2 : (expandNeighbors s current
              (closeState st current rest)).closed_set =
              st.closed_set ++ [current.position] := by
            simp only [expandNeighbors]
            rw [hfcl]
            rfl
          have hcard : (st.closed_set ++ [current.position]).length ≤
              (validList s).length := by
            apply nodup_valid_length_le s _ _ _
            · apply List.Nodup.append hinv.closed_nodup (List.nodup_singleton _)
              intro a ha hb
              rw [List.mem_singleton.mp hb] at ha
              exact hstale ha
            · intro p hp
              rcases List.mem_append.mp hp with hp | hp
              · exact hinv.closed_valid p hp
              · rw [List.mem_singleton.mp hp]
                exact chainOK_valid s st0 current
                  (hinv.open_nodes current (heappop_mem _ _ _ hpop)).1
          have hopenlen : (expandNeighbors s current
              (closeState st current rest)).open_set.length ≤
              rest.length + s.directions.length := by
            simp only [expandNeighbors]
            exact hflen
          rw [hcl2]
          rw [List.length_append, List.length_singleton] at *
          omega

theorem rowMajor_length (r c : ℕ) : (rowMajor r c).length = r * c := by
  induction r with
  | zero => simp [rowMajor]
  | succ n ih =>
    have hsplit : rowMajor (n + 1) c =
        rowMajor n c ++ (List.range c).map (fun j => (n, j)) := by
      unfold rowMajor
      rw [List.range_succ, List.flatMap_append, List.flatMap_singleton]
    rw [hsplit, List.length_append, ih, List.length_map, List.length_range]
    ring

theorem mkSolver_start_validpos (maze : List (List ℕ)) (hname : String)
    (hfun : Pos → Pos → ℚ) (ad : Bool) (s : MazeSolver) (st0 : Pos)
    (hmk : mkSolver maze hname hfun ad = some s) (hst : s.start = some st0) :
    ValidPos s st0 := by
  obtain ⟨ij, hi, hj, hp, hcell, _⟩ :=
    (marker_char maze CellType.START s.start
      (mkSolver_start_char maze hname hfun ad s hmk) st0).mp hst
  obtain ⟨hmz, hrows, hcols, _⟩ := mkSolver_fields maze hname hfun ad s hmk
  rw [valid_iff, hp, hmz, hrows, hcols]
  refine ⟨?_, ?_, ?_, ?_, ?_⟩
  · show (0 : ℤ) ≤ (ij.1 : ℤ)
    positivity
  · show (ij.1 : ℤ) < (maze.length : ℤ)
    exact_mod_cast hi
  · show (0 : ℤ) ≤ (ij.2 : ℤ)
    positivity
  · show (ij.2 : ℤ) < ((colCount maze) : ℤ)
    exact_mod_cast hj
  · show cellAt maze ((ij.1 : ℤ)).toNat ((ij.2 : ℤ)).toNat ≠ CellType.WALL
    rw [Int.toNat_natCast, Int.toNat_natCast, hcell]
    decide

theorem mkSolver_goal_validpos (maze : List (List ℕ)) (hname : String)
    (hfun : Pos → Pos → ℚ) (ad : Bool) (s : MazeSolver) (gl : Pos)
    (hmk : mkSolver maze hname hfun ad = some s) (hgl : s.goal = some gl) :
    ValidPos s gl := by
  obtain ⟨ij, hi, hj, hp, hcell, _⟩ :=
    (marker_char maze CellType.GOAL s.goal
      (mkSolver_goal_char maze hname hfun ad s hmk) gl).mp hgl
  obtain ⟨hmz, hrows, hcols, _⟩ := mkSolver_fields maze hname hfun ad s hmk
  rw [valid_iff, hp, hmz, hrows, hcols]
  refine ⟨?_, ?_, ?_, ?_, ?_⟩
  · show (0 : ℤ) ≤ (ij.1 : ℤ)
    positivity
  · show (ij.1 : ℤ) < (maze.length : ℤ)
    exact_mod_cast hi
  · show (0 : ℤ) ≤ (ij.2 : ℤ)
    positivity
  · show (ij.2 : ℤ) < ((colCount maze) : ℤ)
    exact_mod_cast hj
  · show cellAt maze ((ij.1 : ℤ)).toNat ((ij.2 : ℤ)).toNat ≠ CellType.WALL
    rw [Int.toNat_natCast, Int.toNat_natCast, hcell]
    decide

theorem init_inv (s : MazeSolver) (st0 : Pos) (hv : ValidPos s st0) :
    LoopInv s st0 ⟨[Node.mk (s.heuristic st0) st0 0 (s.heuristic st0) none], [],
      [(st0, 0)], [], [], 0⟩ := by
  refine ⟨?_, ?_, List.nodup_nil, ?_, ?_, ?_, ?_, ?_, rfl, rfl, rfl⟩
  · intro n hn
    have hn2 : n = Node.mk (s.heuristic st0) st0 0 (s.heuristic st0) none := by
      simpa using hn
    subst hn2
    refine ⟨ChainOK.root _ _ hv, ?_⟩
    show s.heuristic st0 = 0 + s.heuristic st0
    ring
  · intro p hp
    exact absurd hp (List.not_mem_nil p)
  · intro p hp
    exact absurd hp (List.not_mem_nil p)
  · intro p hp
    exact absurd hp (List.not_mem_nil p)
  · refine Or.inr ⟨Node.mk (s.heuristic st0) st0 0 (s.heuristic st0) none, ?_, rfl, rfl⟩
    exact List.mem_singleton_self _
  · intro p g0 _ hpg
    unfold dictGet at hpg
    by_cases hpe : st0 = p
    · rw [if_pos hpe] at hpg
      refine ⟨Node.mk (s.heuristic st0) st0 0 (s.heuristic st0) none,
        List.mem_singleton_self _, hpe, ?_⟩
      exact Option.some.inj hpg
    · rw [if_neg hpe] at hpg
      exact Option.noConfusion hpg
  · intro n hn
    have hn2 : n = Node.mk (s.heuristic st0) st0 0 (s.heuristic st0) none := by
      simpa using hn
    subst hn2
    refine ⟨0, ?_, le_refl 0⟩
    show dictGet [(st0, 0)] st0 = some 0
    unfold dictGet
    rw [if_pos rfl]

theorem init_opt (s : MazeSolver) (st0 gl : Pos) :
    OptInv s st0 gl ⟨[Node.mk (s.heuristic st0) st0 0 (s.heuristic st0) none], [],
      [(st0, 0)], [], [], 0⟩ := by
  constructor
  · intro p hp
    exact absurd hp (List.not_mem_nil p)
  · intro p hp
    exact absurd hp (List.not_mem_nil p)

theorem solve_characterization (s : MazeSolver) (st0 gl : Pos)
    (hst : s.start = some st0) (hgl : s.goal = some gl)
    (sv : MazeSolver) (res : Option (List Pos)) (stats : Stats)
    (hrun : s.solve = some (sv, res, stats)) :
    ∃ stF, solveLoop s gl (solveFuel s)
        ⟨[Node.mk (s.heuristic st0) st0 0 (s.heuristic st0) none], [],
          [(st0, 0)], [], [], 0⟩ = some (stF, res, stats) ∧
      sv = { s with visited_order := stF.visited_order,
                    search_steps := stF.search_steps } := by
  unfold MazeSolver.solve at hrun
  simp only [hst, hgl] at hrun
  cases hloop : solveLoop s gl (solveFuel s)
      ⟨[Node.mk (s.heuristic st0) st0 0 (s.heuristic st0) none], [],
        [(st0, 0)], [], [], 0⟩ with
  | none =>
    rw [hloop] at hrun
    exact Option.noConfusion hrun
  | some out =>
    obtain ⟨stF, res2, stats2⟩ := out
    rw [hloop] at hrun
    have h2 := Option.some.inj hrun
    have hsv := congrArg Prod.fst h2
    have hres : res2 = res := congrArg (fun x => x.2.1) h2
    have hstats : stats2 = stats := congrArg (fun x => x.2.2) h2
    subst hres
    subst hstats
    refine ⟨stF, rfl, ?_⟩
    rw [hst, hgl]
    exact hsv.symm

theorem solve_total (s : MazeSolver) (st0 gl : Pos)
    (hst : s.start = some st0) (hgl : s.goal = some gl) (hv0 : ValidPos s st0)
    (hdl : s.directions.length ≤ 8) :
    (s.solve).isSome = true := by
  unfold MazeSolver.solve
  simp only [hst, hgl]
  have htot := solveLoop_total s st0 gl hdl (solveFuel s)
    ⟨[Node.mk (s.heuristic st0) st0 0 (s.heuristic st0) none], [],
      [(st0, 0)], [], [], 0⟩ (init_inv s st0 hv0)
  have hV : (validList s).length ≤ s.rows * s.cols := by
    have h1 : (validList s).length ≤ (rowMajor s.rows s.cols).length :=
      List.length_filter_le _ _
    rw [rowMajor_length] at h1
    exact h1
  have hmeasure : (1 : ℕ) + 9 * ((validList s).length - 0) < solveFuel s := by
    unfold solveFuel
    omega
  have := htot (by simpa using hmeasure)
  cases hloop : solveLoop s gl (solveFuel s)
      ⟨[Node.mk (s.heuristic st0) st0 0 (s.heuristic st0) none], [],
        [(st0, 0)], [], [], 0⟩ with
  | none =>
    rw [hloop] at this
    exact absurd this (by simp)
  | some out =>
    obtain ⟨stF, res2, stats2⟩ := out
    rfl

theorem dirs_len_le (maze : List (List ℕ)) (hname : String) (hfun : Pos → Pos → ℚ)
    (ad : Bool) (s : MazeSolver) (hmk : mkSolver maze hname hfun ad = some s) :
    s.directions.length ≤ 8 := by
  obtain ⟨_, _, _, _, hdirs, _⟩ := mkSolver_fields maze hname hfun ad s hmk
  rw [hdirs]
  cases ad <;> simp [DIRECTIONS_4, DIRECTIONS_8]

theorem solve_run_props (maze : List (List ℕ)) (hname : String)
    (hfun : Pos → Pos → ℚ) (ad : Bool) (s sv : MazeSolver)
    (res : Option (List Pos)) (stats : Stats) (st0 gl : Pos)
    (hmk : mkSolver maze hname hfun ad = some s)
    (hst : s.start = some st0) (hgl : s.goal = some gl)
    (hrun : s.solve = some (sv, res, stats)) :
    sv.visited_order.Nodup ∧
    sv.search_steps.map SearchStep.position = sv.visited_order ∧
    (∀ p ∈ sv.visited_order, ValidPos s p) ∧
    (res = none → ∃ stF : SState, LoopInv s st0 stF ∧ stF.open_set = [] ∧
      sv.visited_order = stF.closed_set ∧
      stats = ⟨some false, none, none, some stF.closed_set.length, some s.hname,
        some "Goal is unreachable - no valid path exists"⟩) ∧
    (∀ path, res = some path → ∃ current : Node,
      ChainOK s st0 current ∧ current.position = gl ∧
      path = _reconstruct_path current ∧
      stats.path_found = some true ∧ stats.path_length = some path.length ∧
      stats.path_cost = some current.g_score) := by
  obtain ⟨stF, hloop, hsv⟩ :=
    solve_characterization s st0 gl hst hgl sv res stats hrun
  have hv0 := mkSolver_start_validpos maze hname hfun ad s st0 hmk hst
  obtain ⟨p_nodup, p_steps, p_expl, p_valid, p_fail, p_succ⟩ :=
    solveLoop_props s st0 gl (solveFuel s) _ stF res stats (init_inv s st0 hv0) hloop
  have hvis : sv.visited_order = stF.visited_order := by rw [hsv]
  have hsteps : sv.search_steps = stF.search_steps := by rw [hsv]
  refine ⟨?_, ?_, ?_, ?_, ?_⟩
  · rw [hvis]
    exact p_nodup
  · rw [hvis, hsteps]
    exact p_steps
  · intro p hp
    rw [hvis] at hp
    exact p_valid p hp
  · intro hres
    obtain ⟨hempty, hinvF, hstats⟩ := p_fail hres
    refine ⟨stF, hinvF, hempty, ?_, ?_⟩
    · rw [hvis, hinvF.visited_eq]
    · rw [hstats, hinvF.explored_eq]
  · intro path hpath
    obtain ⟨current, hcur, hpos, hpe, _, hstats⟩ := p_succ path hpath
    exact ⟨current, hcur, hpos, hpe, by rw [hstats], by rw [hstats], by rw [hstats]⟩

/-- C5: within a single `solve` run no position is ever recorded twice: the
`visited_order` trace has no duplicates, and the `search_steps` trace lists
exactly the same positions in the same order (a popped node whose position
is already closed is discarded without being counted or recorded). -/
theorem C5_monotonic_closing (maze : List (List ℕ)) (hname : String)
    (hfun : Pos → Pos → ℚ) (ad : Bool) (s sv : MazeSolver)
    (res : Option (List Pos)) (stats : Stats)
    (hmk : mkSolver maze hname hfun ad = some s)
    (hrun : s.solve = some (sv, res, stats)) :
    sv.visited_order.Nodup ∧
    sv.search_steps.map SearchStep.position = sv.visited_order := by
  obtain ⟨_, _, _, _, _, hvis0, hsteps0⟩ := mkSolver_fields maze hname hfun ad s hmk
  cases hst : s.start with
  | none =>
    unfold MazeSolver.solve at hrun
    rw [hst] at hrun
    cases hgb : s.goal <;> rw [hgb] at hrun <;>
      obtain ⟨hsv, -, -⟩ : s = sv ∧ none = res ∧ _ = stats :=
        ⟨congrArg Prod.fst (Option.some.inj hrun),
         congrArg (fun x => x.2.1) (Option.some.inj hrun),
         congrArg (fun x => x.2.2) (Option.some.inj hrun)⟩ <;>
      rw [← hsv, hvis0, hsteps0] <;> exact ⟨List.nodup_nil, rfl⟩
  | some st0 =>
    cases hgb : s.goal with
    | none =>
      unfold MazeSolver.solve at hrun
      rw [hst, hgb] at hrun
      obtain ⟨hsv, -, -⟩ : s = sv ∧ none = res ∧ _ = stats :=
        ⟨congrArg Prod.fst (Option.some.inj hrun),
         congrArg (fun x => x.2.1) (Option.some.inj hrun),
         congrArg (fun x => x.2.2) (Option.some.inj hrun)⟩
      rw [← hsv, hvis0, hsteps0]
      exact ⟨List.nodup_nil, rfl⟩
    | some gl =>
      obtain ⟨h1, h2, _⟩ := solve_run_props maze hname hfun ad s sv res stats st0 gl
        hmk hst hgb hrun
      exact ⟨h1, h2⟩

/-- C5 witness: the example run on `[[2,0,0,0,3]]`. -/
theorem C5_monotonic_closing_witness :
    ∃ s sv res stats, mkSolver [[2,0,0,0,3]] "manhattan" manhattanFn false = some s ∧
      s.solve = some (sv, res, stats) ∧ sv.visited_order.Nodup ∧
      sv.search_steps.map SearchStep.position = sv.visited_order := by
  cases hmk : mkSolver [[2,0,0,0,3]] "manhattan" manhattanFn false with
  | none =>
    have hs : (mkSolver [[2,0,0,0,3]] "manhattan" manhattanFn false).isSome = true := rfl
    rw [hmk] at hs
    exact Bool.noConfusion hs
  | some s =>
    cases hrun : s.solve with
    | none =>
      have hst : s.start = some (0, 0) := by
        have := mkSolver_start_char [[2,0,0,0,3]] "manhattan" manhattanFn false s hmk
        rw [this]
        with_unfolding_all rfl
      have hgl : s.goal = some (0, 4) := by
        have := mkSolver_goal_char [[2,0,0,0,3]] "manhattan" manhattanFn false s hmk
        rw [this]
        with_unfolding_all rfl
      have := solve_total s (0, 0) (0, 4) hst hgl
        (mkSolver_start_validpos [[2,0,0,0,3]] "manhattan" manhattanFn false s (0, 0)
          hmk hst)
        (dirs_len_le [[2,0,0,0,3]] "manhattan" manhattanFn false s hmk)
      rw [hrun] at this
      exact Bool.noConfusion this
    | some out =>
      obtain ⟨sv, res, stats⟩ := out
      refine ⟨s, sv, res, stats, rfl, hrun, ?_⟩
      exact C5_monotonic_closing [[2,0,0,0,3]] "manhattan" manhattanFn false s sv res
        stats hmk hrun

/-- C4: a returned path starts at the start cell, ends at the goal cell,
every consecutive pair differs by one configured direction step, and every
position on it is in bounds and passable. -/
theorem C4_path_validity (maze : List (List ℕ)) (hname : String)
    (hfun : Pos → Pos → ℚ) (ad : Bool) (s sv : MazeSolver) (path : List Pos)
    (stats : Stats) (hmk : mkSolver maze hname hfun ad = some s)
    (hrun : s.solve = some (sv, some path, stats)) :
    ∃ st0 gl, s.start = some st0 ∧ s.goal = some gl ∧
      path.head? = some st0 ∧ path.getLast? = some gl ∧
      List.Chain' (fun p q : Pos =>
        ∃ d ∈ s.directions, q = (p.1 + d.1, p.2 + d.2)) path ∧
      ∀ p ∈ path, ValidPos s p := by
  cases hst : s.start with
  | none =>
    unfold MazeSolver.solve at hrun
    rw [hst] at hrun
    cases hgb : s.goal <;> rw [hgb] at hrun <;>
      exact Option.noConfusion (congrArg (fun x => x.2.1) (Option.some.inj hrun))
  | some st0 =>
    cases hgb : s.goal with
    | none =>
      unfold MazeSolver.solve at hrun
      rw [hst, hgb] at hrun
      exact Option.noConfusion (congrArg (fun x => x.2.1) (Option.some.inj hrun))
    | some gl =>
      obtain ⟨_, _, _, _, hsucc⟩ := solve_run_props maze hname hfun ad s sv
        (some path) stats st0 gl hmk hst hgb hrun
      obtain ⟨current, hcur, hpos, hpe, _, _, _⟩ := hsucc path rfl
      subst hpe
      refine ⟨st0, gl, rfl, rfl, ?_, ?_, ?_, ?_⟩
      · exact reconstruct_head s st0 current hcur
      · rw [← hpos]
        exact reconstruct_last current
      · exact reconstruct_chain s st0 current hcur
      · exact reconstruct_valid s st0 current hcur

/-- C4 witness: the example run on `[[2,0,0,0,3]]` returns a path, and the
theorem applies to it. -/
theorem C4_path_validity_witness :
    ∃ s sv path stats,
      mkSolver [[2,0,0,0,3]] "manhattan" manhattanFn false = some s ∧
      s.solve = some (sv, some path, stats) ∧
      ∃ st0 gl, s.start = some st0 ∧ s.goal = some gl ∧
        path.head? = some st0 ∧ path.getLast? = some gl ∧
        List.Chain' (fun p q : Pos =>
          ∃ d ∈ s.directions, q = (p.1 + d.1, p.2 + d.2)) path ∧
        ∀ p ∈ path, ValidPos s p := by
  cases hmk : mkSolver [[2,0,0,0,3]] "manhattan" manhattanFn false with
  | none =>
    have hs : (mkSolver [[2,0,0,0,3]] "manhattan" manhattanFn false).isSome = true := rfl
    rw [hmk] at hs
    exact Bool.noConfusion hs
  | some s =>
    have hres : (s.solve).map (fun r => r.2.1) =
        some (some [(0,0),(0,1),(0,2),(0,3),(0,4)]) := by
      have hbig : ((mkSolver [[2,0,0,0,3]] "manhattan" manhattanFn false).bind
          MazeSolver.solve).map (fun r => r.2.1) =
          some (some [(0,0),(0,1),(0,2),(0,3),(0,4)]) := by
        with_unfolding_all rfl
      rw [hmk] at hbig
      exact hbig
    cases hrun : s.solve with
    | none =>
      rw [hrun] at hres
      exact Option.noConfusion hres
    | some out =>
      obtain ⟨sv, res, stats⟩ := out
      rw [hrun] at hres
      have hres2 : res = some [(0,0),(0,1),(0,2),(0,3),(0,4)] :=
        Option.some.inj hres
      subst hres2
      exact ⟨s, sv, _, stats, rfl, hrun,
        C4_path_validity [[2,0,0,0,3]] "manhattan" manhattanFn false s sv _ stats
          hmk hrun⟩

theorem closed_complete (s : MazeSolver) (st0 : Pos) (stF : SState)
    (hinv : LoopInv s st0 stF) (hempty : stF.open_set = []) :
    ∀ p c, Walk s st0 p c → p ∈ stF.closed_set := by
  intro p c hw
  induction hw with
  | nil hv =>
    rcases hinv.start_mem with h | ⟨n, hn, _⟩
    · exact h
    · rw [hempty] at hn
      exact absurd hn (List.not_mem_nil n)
  | snoc v q2 c2 d hwv hd hq2 hv2 ih =>
    by_cases hqc : q2 ∈ stF.closed_set
    · exact hqc
    · exfalso
      have hvalid : ValidPos s (v.1 + d.1, v.2 + d.2) := by
        rw [← hq2]
        exact hv2
      have hnc : ((v.1 + d.1, v.2 + d.2) : Pos) ∉ stF.closed_set := by
        rw [← hq2]
        exact hqc
      obtain ⟨n, hn, _⟩ := hinv.closed_exp v ih d hd hvalid hnc
      rw [hempty] at hn
      exact absurd hn (List.not_mem_nil n)

/-- C7: when start and goal are present but the goal is unreachable under
the configured topology, `solve` returns a failure whose `nodes_explored`
equals the number of passable cells reachable from the start (including the
start itself). -/
theorem C7_unreachable_explores_component (maze : List (List ℕ)) (hname : String)
    (hfun : Pos → Pos → ℚ) (ad : Bool) (s : MazeSolver) (st0 gl : Pos)
    (hmk : mkSolver maze hname hfun ad = some s)
    (hst : s.start = some st0) (hgl : s.goal = some gl)
    (hunreach : ¬ Reachable s st0 gl) :
    ∃ sv stats, s.solve = some (sv, none, stats) ∧
      ∃ l : List Pos, l.Nodup ∧ (∀ p, p ∈ l ↔ Reachable s st0 p) ∧
        stats.nodes_explored = some l.length := by
  have hv0 := mkSolver_start_validpos maze hname hfun ad s st0 hmk hst
  have hdl := dirs_len_le maze hname hfun ad s hmk
  have htot := solve_total s st0 gl hst hgl hv0 hdl
  cases hrun : s.solve with
  | none =>
    rw [hrun] at htot
    exact Bool.noConfusion htot
  | some out =>
    obtain ⟨sv, res, stats⟩ := out
    obtain ⟨_, _, _, hfail, hsucc⟩ := solve_run_props maze hname hfun ad s sv res
      stats st0 gl hmk hst hgl hrun
    cases res with
    | some path =>
      exfalso
      obtain ⟨current, hcur, hpos, _⟩ := hsucc path rfl
      apply hunreach
      refine ⟨current.g_score, ?_⟩
      have := chainOK_walk s st0 current hcur
      rw [hpos] at this
      exact this
    | none =>
      obtain ⟨stF, hinvF, hempty, _, hstats⟩ := hfail rfl
      refine ⟨sv, stats, rfl, stF.closed_set, hinvF.closed_nodup, ?_, by rw [hstats]⟩
      intro p
      constructor
      · intro hp
        obtain ⟨gp, _, hwalk⟩ := hinvF.closed_g p hp
        exact ⟨gp, hwalk⟩
      · rintro ⟨c, hw⟩
        exact closed_complete s st0 stF hinvF hempty p c hw

/-- C7 witness: on `[[2,1,3]]` the goal is walled off; the theorem applies
and the explored count is the size of the start's component. -/
theorem C7_unreachable_explores_component_witness :
    ∃ s : MazeSolver, mkSolver [[2,1,3]] "manhattan" manhattanFn false = some s ∧
    ∃ sv stats, s.solve = some (sv, none, stats) ∧
      ∃ l : List Pos, l.Nodup ∧ (∀ p, p ∈ l ↔ Reachable s (0, 0) p) ∧
        stats.nodes_explored = some l.length := by
  cases hmk : mkSolver [[2,1,3]] "manhattan" manhattanFn false with
  | none =>
    have hs : (mkSolver [[2,1,3]] "manhattan" manhattanFn false).isSome = true := rfl
    rw [hmk] at hs
    exact Bool.noConfusion hs
  | some s =>
    have hst : s.start = some (0, 0) := by
      have := mkSolver_start_char [[2,1,3]] "manhattan" manhattanFn false s hmk
      rw [this]
      with_unfolding_all rfl
    have hgl : s.goal = some (0, 2) := by
      have := mkSolver_goal_char [[2,1,3]] "manhattan" manhattanFn false s hmk
      rw [this]
      with_unfolding_all rfl
    obtain ⟨hmz, hrows, hcols, _, hdirs, _⟩ :=
      mkSolver_fields [[2,1,3]] "manhattan" manhattanFn false s hmk
    have hreach_only : ∀ p c, Walk s (0, 0) p c → p = ((0 : ℤ), (0 : ℤ)) := by
      intro p c hw
      induction hw with
      | nil _ => rfl
      | snoc v q2 c2 d hwv hd hq2 hv2 ih =>
        exfalso
        subst ih
        rw [hdirs] at hd
        simp only [Bool.false_eq_true, if_false, DIRECTIONS_4, List.mem_cons,
          List.not_mem_nil, or_false] at hd
        rw [valid_iff, hrows, hcols, hmz] at hv2
        subst hq2
        rcases hd with rfl | rfl | rfl | rfl <;>
          revert hv2 <;>
          simp [colCount, cellAt, CellType.WALL]
    refine ⟨s, rfl, ?_⟩
    apply C7_unreachable_explores_component [[2,1,3]] "manhattan" manhattanFn false s
      (0, 0) (0, 2) hmk hst hgl
    rintro ⟨c, hw⟩
    have := hreach_only (0, 2) c hw
    simp at this

theorem getD_set_self {α : Type} (l : List α) (n : ℕ) (a : α) (d : α)
    (h : n < l.length) : (l.set n a).getD n d = a := by
  rw [List.getD_eq_getElem?_getD, List.getElem?_set_eq_of_lt a h]
  rfl

theorem getD_set_other {α : Type} (l : List α) (n : ℕ) (a : α) (k : ℕ)
    (h : n ≠ k) (d : α) : (l.set n a).getD k d = l.getD k d := by
  rw [List.getD_eq_getElem?_getD, List.getElem?_set_ne h, ← List.getD_eq_getElem?_getD]

theorem setCell_length (res : List (List ℕ)) (p : Pos) (v : ℕ) :
    (setCell res p v).length = res.length := by
  unfold setCell
  rw [List.length_set]

theorem setCell_rowlen (res : List (List ℕ)) (p : Pos) (v : ℕ) (k : ℕ) :
    ((setCell res p v).getD k []).length = (res.getD k []).length := by
  unfold setCell
  by_cases h1 : p.1.toNat = k
  · subst h1
    by_cases h2 : p.1.toNat < res.length
    · rw [getD_set_self _ _ _ _ h2, List.length_set]
    · rw [List.set_eq_of_length_le (by omega)]
  · rw [getD_set_other _ _ _ _ h1]

theorem cellAt_setCell (res : List (List ℕ)) (p : Pos) (v : ℕ) (i j : ℕ)
    (hp1 : p.1.toNat < res.length)
    (hp2 : p.2.toNat < (res.getD p.1.toNat []).length) :
    cellAt (setCell res p v) i j =
      if p.1.toNat = i ∧ p.2.toNat = j then v else cellAt res i j := by
  unfold setCell cellAt
  by_cases h1 : p.1.toNat = i
  · subst h1
    rw [getD_set_self _ _ _ _ hp1]
    by_cases h2 : p.2.toNat = j
    · subst h2
      rw [getD_set_self _ _ _ _ hp2]
      rw [if_pos ⟨rfl, rfl⟩]
    · rw [getD_set_other _ _ _ _ h2]
      rw [if_neg (by tauto)]
  · rw [getD_set_other _ _ _ _ h1]
    rw [if_neg (by tauto)]

theorem pos_eq_iff (p : Pos) (hp1 : 0 ≤ p.1) (hp2 : 0 ≤ p.2) (i j : ℕ) :
    p = ((i : ℤ), (j : ℤ)) ↔ (p.1.toNat = i ∧ p.2.toNat = j) := by
  constructor
  · intro h
    rw [h]
    simp
  · rintro ⟨h1, h2⟩
    have e1 : p.1 = (i : ℤ) := by omega
    have e2 : p.2 = (j : ℤ) := by omega
    exact Prod.ext e1 e2

theorem visitFold_cell : ∀ (l : List Pos) (res : List (List ℕ)),
    (∀ p ∈ l, 0 ≤ p.1 ∧ 0 ≤ p.2 ∧ p.1.toNat < res.length ∧
      p.2.toNat < (res.getD p.1.toNat []).length) →
    ∀ i j : ℕ,
    cellAt (l.foldl (fun res pos =>
        if cellAt res pos.1.toNat pos.2.toNat = CellType.EMPTY then
          setCell res pos CellType.VISITED else res) res) i j =
      (if ((i : ℤ), (j : ℤ)) ∈ l ∧ cellAt res i j = CellType.EMPTY then
        CellType.VISITED else cellAt res i j) := by
  intro l
  induction l with
  | nil =>
    intro res _ i j
    simp
  | cons p l ih =>
    intro res hl i j
    obtain ⟨hp1, hp2, hp3, hp4⟩ := hl p (List.mem_cons_self p l)
    rw [List.foldl_cons]
    by_cases hmark : cellAt res p.1.toNat p.2.toNat = CellType.EMPTY
    · rw [if_pos hmark]
      have hl2 : ∀ q ∈ l, 0 ≤ q.1 ∧ 0 ≤ q.2 ∧
          q.1.toNat < (setCell res p CellType.VISITED).length ∧
          q.2.toNat < ((setCell res p CellType.VISITED).getD q.1.toNat []).length := by
        intro q hq
        obtain ⟨h1, h2, h3, h4⟩ := hl q (List.mem_cons_of_mem p hq)
        rw [setCell_length, setCell_rowlen]
        exact ⟨h1, h2, h3, h4⟩
      rw [ih (setCell res p CellType.VISITED) hl2 i j]
      rw [cellAt_setCell res p CellType.VISITED i j hp3 hp4]
      by_cases hpm : p.1.toNat = i ∧ p.2.toNat = j
      · rw [if_pos hpm]
        have hpe : p = ((i : ℤ), (j : ℤ)) := (pos_eq_iff p hp1 hp2 i j).mpr hpm
        have horig : cellAt res i j = CellType.EMPTY := by
          rw [← hpm.1, ← hpm.2]
          exact hmark
        rw [if_neg (by simp [CellType.VISITED, CellType.EMPTY])]
        rw [if_pos ⟨by rw [← hpe]; exact List.mem_cons_self p l, horig⟩]
      · rw [if_neg hpm]
        have hpe : ¬ (((i : ℤ), (j : ℤ)) : Pos) = p := by
          intro h
          exact hpm ((pos_eq_iff p hp1 hp2 i j).mp h.symm)
        by_cases hcl : (((i : ℤ), (j : ℤ)) : Pos) ∈ l ∧ cellAt res i j = CellType.EMPTY
        · rw [if_pos hcl, if_pos ⟨List.mem_cons_of_mem p hcl.1, hcl.2⟩]
        · rw [if_neg hcl, if_neg]
          rintro ⟨hmem, hcell⟩
          rcases List.mem_cons.mp hmem with h | h
          · exact hpe h
          · exact hcl ⟨h, hcell⟩
    · rw [if_neg hmark]
      rw [ih res (fun q hq => hl q (List.mem_cons_of_mem p hq)) i j]
      by_cases hcl : (((i : ℤ), (j : ℤ)) : Pos) ∈ l ∧ cellAt res i j = CellType.EMPTY
      · rw [if_pos hcl, if_pos ⟨List.mem_cons_of_mem p hcl.1, hcl.2⟩]
      · rw [if_neg hcl, if_neg]
        rintro ⟨hmem, hcell⟩
        rcases List.mem_cons.mp hmem with h | h
        · apply hmark
          rw [((pos_eq_iff p hp1 hp2 i j).mp h.symm).1,
            ((pos_eq_iff p hp1 hp2 i j).mp h.symm).2]
          exact hcell
        · exact hcl ⟨h, hcell⟩

theorem pathFold_cell : ∀ (l : List Pos) (res : List (List ℕ)),
    (∀ p ∈ l, 0 ≤ p.1 ∧ 0 ≤ p.2 ∧ p.1.toNat < res.length ∧
      p.2.toNat < (res.getD p.1.toNat []).length) →
    ∀ i j : ℕ,
    cellAt (l.foldl (fun res pos =>
        if cellAt res pos.1.toNat pos.2.toNat = CellType.START ∨
           cellAt res pos.1.toNat pos.2.toNat = CellType.GOAL then res
        else setCell res pos CellType.PATH) res) i j =
      (if ((i : ℤ), (j : ℤ)) ∈ l ∧
          ¬ (cellAt res i j = CellType.START ∨ cellAt res i j = CellType.GOAL) then
        CellType.PATH else cellAt res i j) := by
  intro l
  induction l with
  | nil =>
    intro res _ i j
    simp
  | cons p l ih =>
    intro res hl i j
    obtain ⟨hp1, hp2, hp3, hp4⟩ := hl p (List.mem_cons_self p l)
    rw [List.foldl_cons]
    by_cases hkeep : cellAt res p.1.toNat p.2.toNat = CellType.START ∨
        cellAt res p.1.toNat p.2.toNat = CellType.GOAL
    · rw [if_pos hkeep]
      rw [ih res (fun q hq => hl q (List.mem_cons_of_mem p hq)) i j]
      by_cases hcl : (((i : ℤ), (j : ℤ)) : Pos) ∈ l ∧
          ¬ (cellAt res i j = CellType.START ∨ cellAt res i j = CellType.GOAL)
      · rw [if_pos hcl, if_pos ⟨List.mem_cons_of_mem p hcl.1, hcl.2⟩]
      · rw [if_neg hcl, if_neg]
        rintro ⟨hmem, hcell⟩
        rcases List.mem_cons.mp hmem with h | h
        · apply hcell
          rw [← ((pos_eq_iff p hp1 hp2 i j).mp h.symm).1,
            ← ((pos_eq_iff p hp1 hp2 i j).mp h.symm).2]
          exact hkeep
        · exact hcl ⟨h, hcell⟩
    · rw [if_neg hkeep]
      have hl2 : ∀ q ∈ l, 0 ≤ q.1 ∧ 0 ≤ q.2 ∧
          q.1.toNat < (setCell res p CellType.PATH).length ∧
          q.2.toNat < ((setCell res p CellType.PATH).getD q.1.toNat []).length := by
        intro q hq
        obtain ⟨h1, h2, h3, h4⟩ := hl q (List.mem_cons_of_mem p hq)
        rw [setCell_length, setCell_rowlen]
        exact ⟨h1, h2, h3, h4⟩
      rw [ih (setCell res p CellType.PATH) hl2 i j]
      rw [cellAt_setCell res p CellType.PATH i j hp3 hp4]
      by_cases hpm : p.1.toNat = i ∧ p.2.toNat = j
      · rw [if_pos hpm]
        have hpe : p = ((i : ℤ), (j : ℤ)) := (pos_eq_iff p hp1 hp2 i j).mpr hpm
        have horig : ¬ (cellAt res i j = CellType.START ∨
            cellAt res i j = CellType.GOAL) := by
          rw [← hpm.1, ← hpm.2]
          exact hkeep
        rw [ite_self]
        rw [if_pos ⟨List.mem_cons.mpr (Or.inl hpe.symm), horig⟩]
      · rw [if_neg hpm]
        have hpe : ¬ (((i : ℤ), (j : ℤ)) : Pos) = p := by
          intro h
          exact hpm ((pos_eq_iff p hp1 hp2 i j).mp h.symm)
        by_cases hcl : (((i : ℤ), (j : ℤ)) : Pos) ∈ l ∧
            ¬ (cellAt res i j = CellType.START ∨ cellAt res i j = CellType.GOAL)
        · rw [if_pos hcl, if_pos ⟨List.mem_cons_of_mem p hcl.1, hcl.2⟩]
        · rw [if_neg hcl, if_neg]
          rintro ⟨hmem, hcell⟩
          rcases List.mem_cons.mp hmem with h | h
          · exact hpe h
          · exact hcl ⟨h, hcell⟩

theorem valid_inrange (maze : List (List ℕ)) (hname : String) (hfun : Pos → Pos → ℚ)
    (ad : Bool) (s : MazeSolver) (hmk : mkSolver maze hname hfun ad = some s)
    (p : Pos) (hv : ValidPos s p) :
    0 ≤ p.1 ∧ 0 ≤ p.2 ∧ p.1.toNat < maze.length ∧
    p.2.toNat < (maze.getD p.1.toNat []).length := by
  obtain ⟨hmz, hrows, hcols, _⟩ := mkSolver_fields maze hname hfun ad s hmk
  rw [valid_iff, hrows, hcols, hmz] at hv
  obtain ⟨h1, h2, h3, h4, _⟩ := hv
  have hrow : ¬ ((maze.getD p.1.toNat []).length < colCount maze) := by
    intro hshort
    have hnone : mkSolver maze hname hfun ad = none := by
      rw [mkSolver_none_iff_scan, scan_none_iff_short]
      exact ⟨p.1.toNat, by omega, hshort⟩
    rw [hmk] at hnone
    exact Option.noConfusion hnone
  exact ⟨h1, h3, by omega, by omega⟩

theorem visitFold_dims : ∀ (l : List Pos) (res : List (List ℕ)),
    ((l.foldl (fun res pos =>
        if cellAt res pos.1.toNat pos.2.toNat = CellType.EMPTY then
          setCell res pos CellType.VISITED else res) res).length = res.length ∧
     ∀ k, ((l.foldl (fun res pos =>
        if cellAt res pos.1.toNat pos.2.toNat = CellType.EMPTY then
          setCell res pos CellType.VISITED else res) res).getD k []).length =
       (res.getD k []).length) := by
  intro l
  induction l with
  | nil => intro res; exact ⟨rfl, fun k => rfl⟩
  | cons p l ih =>
    intro res
    rw [List.foldl_cons]
    obtain ⟨ihl, ihr⟩ := ih (if cellAt res p.1.toNat p.2.toNat = CellType.EMPTY then
      setCell res p CellType.VISITED else res)
    constructor
    · rw [ihl]
      by_cases h : cellAt res p.1.toNat p.2.toNat = CellType.EMPTY
      · rw [if_pos h, setCell_length]
      · rw [if_neg h]
    · intro k
      rw [ihr k]
      by_cases h : cellAt res p.1.toNat p.2.toNat = CellType.EMPTY
      · rw [if_pos h, setCell_rowlen]
      · rw [if_neg h]

/-- C9: `solve` leaves the stored grid untouched (the returned solver carries
the construction-time grid unchanged), and `get_solution_maze` builds a fresh
annotated grid — writing only to its local copy — in which path cells that
are not the start/goal marker become `PATH`, visited `EMPTY` cells not on the
path become `VISITED`, and every other cell (including start and goal)
retains its original value. -/
theorem C9_no_mutation_annotated_copy (maze : List (List ℕ)) (hname : String)
    (hfun : Pos → Pos → ℚ) (ad : Bool) (s sv : MazeSolver)
    (res : Option (List Pos)) (stats : Stats)
    (hmk : mkSolver maze hname hfun ad = some s)
    (hrun : s.solve = some (sv, res, stats)) :
    sv.maze = maze ∧ s.maze = maze ∧
    (∀ path, res = some path →
      ∀ i j : ℕ,
      cellAt (sv.get_solution_maze path) i j =
        (if ((i : ℤ), (j : ℤ)) ∈ path ∧ cellAt maze i j ≠ CellType.START ∧
            cellAt maze i j ≠ CellType.GOAL then CellType.PATH
        else if ((i : ℤ), (j : ℤ)) ∈ sv.visited_order ∧
            cellAt maze i j = CellType.EMPTY then CellType.VISITED
        else cellAt maze i j)) := by
  obtain ⟨hmz, _⟩ := mkSolver_fields maze hname hfun ad s hmk
  cases hst : s.start with
  | none =>
    unfold MazeSolver.solve at hrun
    rw [hst] at hrun
    cases hgb : s.goal <;> rw [hgb] at hrun <;>
      obtain ⟨hsv, hres⟩ : s = sv ∧ none = res :=
        ⟨congrArg Prod.fst (Option.some.inj hrun),
         congrArg (fun x => x.2.1) (Option.some.inj hrun)⟩ <;>
      exact ⟨by rw [← hsv, hmz], hmz, fun path hpath =>
        absurd (hres.trans hpath) (by simp)⟩
  | some st0 =>
    cases hgb : s.goal with
    | none =>
      unfold MazeSolver.solve at hrun
      rw [hst, hgb] at hrun
      obtain ⟨hsv, hres⟩ : s = sv ∧ none = res :=
        ⟨congrArg Prod.fst (Option.some.inj hrun),
         congrArg (fun x => x.2.1) (Option.some.inj hrun)⟩
      exact ⟨by rw [← hsv, hmz], hmz, fun path hpath =>
        absurd (hres.trans hpath) (by simp)⟩
    | some gl =>
      obtain ⟨stF, hloop, hsv⟩ :=
        solve_characterization s st0 gl hst hgb sv res stats hrun
      have hv0 := mkSolver_start_validpos maze hname hfun ad s st0 hmk hst
      obtain ⟨p_nodup, p_steps, p_expl, p_valid, p_fail, p_succ⟩ :=
        solveLoop_props s st0 gl (solveFuel s) _ stF res stats
          (init_inv s st0 hv0) hloop
      have hsvm : sv.maze = maze := by rw [hsv, hmz]
      have hsvv : sv.visited_order = stF.visited_order := by rw [hsv]
      refine ⟨hsvm, hmz, ?_⟩
      intro path hpath i j
      obtain ⟨current, hcur, hpos, hpe, _, _⟩ := p_succ path hpath
      have hpathvalid : ∀ p ∈ path, ValidPos s p := by
        rw [hpe]
        exact reconstruct_valid s st0 current hcur
      have hvisvalid : ∀ p ∈ sv.visited_order, ValidPos s p := by
        rw [hsvv]
        exact p_valid
      have hvisbounds : ∀ p ∈ sv.visited_order, 0 ≤ p.1 ∧ 0 ≤ p.2 ∧
          p.1.toNat < maze.length ∧ p.2.toNat < (maze.getD p.1.toNat []).length :=
        fun p hp => valid_inrange maze hname hfun ad s hmk p (hvisvalid p hp)
      have hpathbounds : ∀ p ∈ path, 0 ≤ p.1 ∧ 0 ≤ p.2 ∧
          p.1.toNat < maze.length ∧ p.2.toNat < (maze.getD p.1.toNat []).length :=
        fun p hp => valid_inrange maze hname hfun ad s hmk p (hpathvalid p hp)
      unfold MazeSolver.get_solution_maze
      rw [hsvm]
      have hdims := visitFold_dims sv.visited_order maze
      have hpathbounds2 : ∀ p ∈ path, 0 ≤ p.1 ∧ 0 ≤ p.2 ∧
          p.1.toNat < (sv.visited_order.foldl (fun res pos =>
            if cellAt res pos.1.toNat pos.2.toNat = CellType.EMPTY then
              setCell res pos CellType.VISITED else res) maze).length ∧
          p.2.toNat < ((sv.visited_order.foldl (fun res pos =>
            if cellAt res pos.1.toNat pos.2.toNat = CellType.EMPTY then
              setCell res pos CellType.VISITED else res) maze).getD p.1.toNat
              []).length := by
        intro p hp
        obtain ⟨h1, h2, h3, h4⟩ := hpathbounds p hp
        rw [hdims.1, hdims.2]
        exact ⟨h1, h2, h3, h4⟩
      rw [pathFold_cell path _ hpathbounds2 i j]
      rw [visitFold_cell sv.visited_order maze hvisbounds i j]
      by_cases hA : (((i : ℤ), (j : ℤ)) : Pos) ∈ path
      · by_cases hB : (((i : ℤ), (j : ℤ)) : Pos) ∈ sv.visited_order ∧
            cellAt maze i j = CellType.EMPTY
        · rw [if_pos hB]
          rw [if_pos ⟨hA, by simp [CellType.VISITED, CellType.START, CellType.GOAL]⟩]
          rw [if_pos ⟨hA, by rw [hB.2]; decide, by rw [hB.2]; decide⟩]
        · rw [if_neg hB]
          by_cases hC : cellAt maze i j = CellType.START ∨
              cellAt maze i j = CellType.GOAL
          · rw [if_neg (by tauto), if_neg (by tauto)]
          · rw [if_pos ⟨hA, hC⟩, if_pos ⟨hA, by tauto, by tauto⟩]
      · by_cases hB : (((i : ℤ), (j : ℤ)) : Pos) ∈ sv.visited_order ∧
            cellAt maze i j = CellType.EMPTY
        · rw [if_pos hB, if_neg (by tauto), if_neg (by tauto)]
        · rw [if_neg hB, if_neg (by tauto), if_neg (by tauto)]

/-- C9 witness: the example run on `[[2,0,0,0,3]]`, with the theorem applied
to it: the solver's stored grid is unchanged and the annotated copy is
characterized cell by cell. -/
theorem C9_no_mutation_annotated_copy_witness :
    ∃ s sv res stats,
      mkSolver [[2,0,0,0,3]] "manhattan" manhattanFn false = some s ∧
      MazeSolver.solve s = some (sv, res, stats) ∧
      sv.maze = [[2,0,0,0,3]] ∧ s.maze = [[2,0,0,0,3]] ∧
      (∀ path, res = some path →
        ∀ i j : ℕ,
        cellAt (sv.get_solution_maze path) i j =
          (if ((i : ℤ), (j : ℤ)) ∈ path ∧
              cellAt [[2,0,0,0,3]] i j ≠ CellType.START ∧
              cellAt [[2,0,0,0,3]] i j ≠ CellType.GOAL then CellType.PATH
          else if ((i : ℤ), (j : ℤ)) ∈ sv.visited_order ∧
              cellAt [[2,0,0,0,3]] i j = CellType.EMPTY then CellType.VISITED
          else cellAt [[2,0,0,0,3]] i j)) := by
  cases hmk : mkSolver [[2,0,0,0,3]] "manhattan" manhattanFn false with
  | none =>
    have hs : (mkSolver [[2,0,0,0,3]] "manhattan" manhattanFn false).isSome = true := rfl
    rw [hmk] at hs
    exact Bool.noConfusion hs
  | some s =>
    have hbig : ((mkSolver [[2,0,0,0,3]] "manhattan" manhattanFn false).bind
        MazeSolver.solve).isSome = true := by with_unfolding_all rfl
    rw [hmk] at hbig
    cases hrun : s.solve with
    | none =>
      have hb2 : (Option.bind (some s) MazeSolver.solve) = s.solve := rfl
      rw [hb2, hrun] at hbig
      exact Bool.noConfusion hbig
    | some out =>
      obtain ⟨sv, res, stats⟩ := out
      exact ⟨s, sv, res, stats, rfl, hrun,
        C9_no_mutation_annotated_copy [[2,0,0,0,3]] "manhattan" manhattanFn false
          s sv res stats hmk hrun⟩

theorem manhattanFn_ofs (gl p : Pos) : manhattanFn p gl = ((ofs gl p : ℕ) : ℚ) := by
  unfold manhattanFn ofs
  push_cast [Int.cast_natAbs]
  rw [abs_sub_comm, abs_sub_comm ((p.2 : ℚ))]

theorem monoW_valid (s : MazeSolver) (gl : Pos) : ∀ p, MonoW s gl p → ValidPos s p := by
  intro p h
  cases h with
  | nil hv => exact hv
  | cons p d hd ho hvp hofs hm => exact hvp

theorem monoW_walk (s : MazeSolver) (gl : Pos) :
    ∀ p, MonoW s gl p → Walk s p gl ((ofs gl p : ℕ) : ℚ) := by
  intro p h
  induction h with
  | nil hv =>
    have h0 : ofs gl gl = 0 := by
      unfold ofs
      omega
    rw [h0]
    exact_mod_cast Walk.nil gl hv
  | cons p d hd ho hvp hofs hm ih =>
    have hvq : ValidPos s (p.1 + d.1, p.2 + d.2) := monoW_valid s gl _ hm
    have hstep : Walk s p (p.1 + d.1, p.2 + d.2) (0 + _get_movement_cost d.1 d.2) :=
      Walk.snoc p p _ 0 d (Walk.nil p hvp) hd rfl hvq
    have happ := walk_append s p _ gl _ _ hstep ih
    have hno : ¬ (d.1 ≠ 0 ∧ d.2 ≠ 0) := by
      rcases ho with h | h <;> simp [h]
    have hcost : _get_movement_cost d.1 d.2 = 1 := by
      unfold _get_movement_cost
      rw [if_neg hno]
    rw [hcost] at happ
    have heq : (0 + 1 + ((ofs gl (p.1 + d.1, p.2 + d.2) : ℕ) : ℚ)) =
        ((ofs gl p : ℕ) : ℚ) := by
      rw [← hofs]
      push_cast
      ring
    rw [heq] at happ
    exact happ

theorem walk_front (s : MazeSolver) (p r : Pos) (c : ℚ) (h : Walk s p r c) :
    (p = r ∧ c = 0) ∨ ∃ d q c1, d ∈ s.directions ∧
      q = ((p.1 + d.1 : ℤ), (p.2 + d.2 : ℤ)) ∧
      ValidPos s q ∧ Walk s q r c1 ∧ c = _get_movement_cost d.1 d.2 + c1 := by
  induction h with
  | nil hv => exact Or.inl ⟨rfl, rfl⟩
  | snoc qm rm cm d hw hd hrr hv ih =>
    right
    rcases ih with ⟨hpq, hc0⟩ | ⟨d0, q0, c10, hd0, hq0, hvq0, hw0, hc0⟩
    · refine ⟨d, rm, 0, hd, ?_, hv, Walk.nil rm hv, ?_⟩
      · rw [hrr, hpq]
      · rw [hc0]
        ring
    · refine ⟨d0, q0, c10 + _get_movement_cost d.1 d.2, hd0, hq0, hvq0,
        Walk.snoc q0 qm rm c10 d hw0 hd hrr hv, ?_⟩
      rw [hc0]
      ring

theorem walk_zero (s : MazeSolver) (p r : Pos) (h : Walk s p r 0) : p = r := by
  rcases walk_front s p r 0 h with ⟨h1, _⟩ | ⟨d, q, c1, _, _, _, hw1, hc⟩
  · exact h1
  · exfalso
    have h1 := walk_cost_nonneg s q r c1 hw1
    have h2 := movement_cost_pos d.1 d.2
    linarith

theorem walk_cost_500 (s : MazeSolver) (p r : Pos) (c : ℚ) (h : Walk s p r c) :
    ∃ k : ℕ, (k : ℚ) = 500 * c := by
  induction h with
  | nil _ => exact ⟨0, by norm_num⟩
  | snoc qm rm cm d hw hd hrr hv ih =>
    obtain ⟨k, hk⟩ := ih
    unfold _get_movement_cost
    by_cases hc : d.1 ≠ 0 ∧ d.2 ≠ 0
    · refine ⟨k + 707, ?_⟩
      rw [if_pos hc]
      push_cast
      rw [hk]
      ring
    · refine ⟨k + 500, ?_⟩
      rw [if_neg hc]
      push_cast
      rw [hk]
      ring

theorem cost_orth (a b : ℤ) (h : a = 0 ∨ b = 0) : _get_movement_cost a b = 1 := by
  unfold _get_movement_cost
  rw [if_neg]
  rcases h with h | h <;> simp [h]

theorem cost_diag (a b : ℤ) (ha : a ≠ 0) (hb : b ≠ 0) :
    _get_movement_cost a b = 707/500 := by
  unfold _get_movement_cost
  rw [if_pos ⟨ha, hb⟩]

theorem walk_step (s : MazeSolver) (p : Pos) (d : ℤ × ℤ) (r : Pos)
    (hd : d ∈ s.directions) (hr : r = ((p.1 + d.1 : ℤ), (p.2 + d.2 : ℤ)))
    (hvp : ValidPos s p) (hvr : ValidPos s r) :
    Walk s p r (0 + _get_movement_cost d.1 d.2) :=
  Walk.snoc p p r 0 d (Walk.nil p hvp) hd hr hvr

theorem mono_chase_col (s : MazeSolver) (gl : Pos)
    (hdir : s.directions = DIRECTIONS_8) :
    ∀ x, MonoW s gl x → gl.2 ≠ x.2 →
    (∃ ec : ℤ, (ec = 1 ∨ ec = -1) ∧
      (gl.2 - (x.2 + ec)).natAbs + 1 = (gl.2 - x.2).natAbs ∧
      MonoW s gl ((x.1 : ℤ), (x.2 + ec : ℤ))) ∨
    (∃ c, Walk s x gl c ∧ c < ((ofs gl x : ℕ) : ℚ)) := by
  intro x hm
  induction hm with
  | nil hv =>
    intro hne
    exact absurd rfl hne
  | cons p d hd ho hvp hofs hm ih =>
    intro hne
    obtain ⟨d1, d2⟩ := d
    rw [hdir] at hd
    simp only [DIRECTIONS_8, List.mem_cons, List.not_mem_nil, or_false,
      Prod.mk.injEq] at hd
    rcases hd with ⟨h1, h2⟩ | ⟨h1, h2⟩ | ⟨h1, h2⟩ | ⟨h1, h2⟩ | ⟨h1, h2⟩ |
      ⟨h1, h2⟩ | ⟨h1, h2⟩ | ⟨h1, h2⟩ <;> subst h1 <;> subst h2
    -- (-1, 0) : row step
    · have hne2 : gl.2 ≠ ((p.1 + (-1:ℤ), p.2 + (0:ℤ)) : Pos).2 := by
        show gl.2 ≠ p.2 + 0
        rw [add_zero]
        exact hne
      rcases ih hne2 with ⟨ec, hec, hdrop, hmz⟩ | ⟨c, hw, hlt⟩
      · right
        have hvz : ValidPos s (((p.1 + (-1:ℤ)) : ℤ), ((p.2 + 0) + ec : ℤ)) :=
          monoW_valid s gl _ hmz
        have hmem : ((-1 : ℤ), ec) ∈ s.directions := by
          rw [hdir]
          rcases hec with h | h <;> subst h <;> decide
        have hstep : Walk s p (((p.1 + (-1:ℤ)) : ℤ), ((p.2 + 0) + ec : ℤ))
            (0 + _get_movement_cost (-1) ec) := by
          apply walk_step s p ((-1 : ℤ), ec) _ hmem ?_ hvp hvz
          show (((p.1 + (-1:ℤ)) : ℤ), ((p.2 + 0) + ec : ℤ)) =
            ((p.1 + (-1 : ℤ) : ℤ), (p.2 + ec : ℤ))
          rw [add_zero]
        have hmw := monoW_walk s gl _ hmz
        have happ := walk_append s p _ gl _ _ hstep hmw
        have hcd : _get_movement_cost (-1 : ℤ) ec = 707/500 := by
          apply cost_diag
          · norm_num
          · rcases hec with h | h <;> subst h <;> norm_num
        rw [hcd] at happ
        refine ⟨_, happ, ?_⟩
        have hsum : ofs gl (((p.1 + (-1:ℤ)) : ℤ), ((p.2 + 0) + ec : ℤ)) + 2 =
            ofs gl p := by
          simp only [ofs] at hofs hdrop ⊢
          omega
        have hsq : ((ofs gl (((p.1 + (-1:ℤ)) : ℤ), ((p.2 + 0) + ec : ℤ)) : ℕ) : ℚ) + 2 =
            ((ofs gl p : ℕ) : ℚ) := by
          exact_mod_cast hsum
        linarith
      · right
        have hvq : ValidPos s ((p.1 + (-1:ℤ), p.2 + (0:ℤ)) : Pos) :=
          walk_valid_src s _ gl c hw
        have hstep : Walk s p ((p.1 + (-1:ℤ), p.2 + (0:ℤ)) : Pos)
            (0 + _get_movement_cost (-1) 0) :=
          walk_step s p ((-1 : ℤ), 0) _ (by rw [hdir]; decide) rfl hvp hvq
        have happ := walk_append s p _ gl _ _ hstep hw
        rw [cost_orth (-1) 0 (Or.inr rfl)] at happ
        refine ⟨_, happ, ?_⟩
        have hsq : ((ofs gl ((p.1 + (-1:ℤ), p.2 + (0:ℤ)) : Pos) : ℕ) : ℚ) + 1 =
            ((ofs gl p : ℕ) : ℚ) := by
          exact_mod_cast hofs
        linarith
    -- (1, 0) : row step
    · have hne2 : gl.2 ≠ ((p.1 + (1:ℤ), p.2 + (0:ℤ)) : Pos).2 := by
        show gl.2 ≠ p.2 + 0
        rw [add_zero]
        exact hne
      rcases ih hne2 with ⟨ec, hec, hdrop, hmz⟩ | ⟨c, hw, hlt⟩
      · right
        have hvz : ValidPos s (((p.1 + (1:ℤ)) : ℤ), ((p.2 + 0) + ec : ℤ)) :=
          monoW_valid s gl _ hmz
        have hmem : ((1 : ℤ), ec) ∈ s.directions := by
          rw [hdir]
          rcases hec with h | h <;> subst h <;> decide
        have hstep : Walk s p (((p.1 + (1:ℤ)) : ℤ), ((p.2 + 0) + ec : ℤ))
            (0 + _get_movement_cost 1 ec) := by
          apply walk_step s p ((1 : ℤ), ec) _ hmem ?_ hvp hvz
          show (((p.1 + (1:ℤ)) : ℤ), ((p.2 + 0) + ec : ℤ)) =
            ((p.1 + (1 : ℤ) : ℤ), (p.2 + ec : ℤ))
          rw [add_zero]
        have hmw := monoW_walk s gl _ hmz
        have happ := walk_append s p _ gl _ _ hstep hmw
        have hcd : _get_movement_cost (1 : ℤ) ec = 707/500 := by
          apply cost_diag
          · norm_num
          · rcases hec with h | h <;> subst h <;> norm_num
        rw [hcd] at happ
        refine ⟨_, happ, ?_⟩
        have hsum : ofs gl (((p.1 + (1:ℤ)) : ℤ), ((p.2 + 0) + ec : ℤ)) + 2 =
            ofs gl p := by
          simp only [ofs] at hofs hdrop ⊢
          omega
        have hsq : ((ofs gl (((p.1 + (1:ℤ)) : ℤ), ((p.2 + 0) + ec : ℤ)) : ℕ) : ℚ) + 2 =
            ((ofs gl p : ℕ) : ℚ) := by
          exact_mod_cast hsum
        linarith
      · right
        have hvq : ValidPos s ((p.1 + (1:ℤ), p.2 + (0:ℤ)) : Pos) :=
          walk_valid_src s _ gl c hw
        have hstep : Walk s p ((p.1 + (1:ℤ), p.2 + (0:ℤ)) : Pos)
            (0 + _get_movement_cost 1 0) :=
          walk_step s p ((1 : ℤ), 0) _ (by rw [hdir]; decide) rfl hvp hvq
        have happ := walk_append s p _ gl _ _ hstep hw
        rw [cost_orth 1 0 (Or.inr rfl)] at happ
        refine ⟨_, happ, ?_⟩
        have hsq : ((ofs gl ((p.1 + (1:ℤ), p.2 + (0:ℤ)) : Pos) : ℕ) : ℚ) + 1 =
            ((ofs gl p : ℕ) : ℚ) := by
          exact_mod_cast hofs
        linarith
    -- (0, -1) : column step
    · left
      refine ⟨-1, Or.inr rfl, ?_, ?_⟩
      · clear ih hm
        simp only [ofs] at hofs
        omega
      · have : ((p.1 + (0:ℤ) : ℤ), (p.2 + (-1:ℤ) : ℤ)) =
            ((p.1 : ℤ), (p.2 + (-1:ℤ) : ℤ)) := by
          rw [add_zero]
        exact this ▸ hm
    -- (0, 1) : column step
    · left
      refine ⟨1, Or.inl rfl, ?_, ?_⟩
      · clear ih hm
        simp only [ofs] at hofs
        omega
      · have : ((p.1 + (0:ℤ) : ℤ), (p.2 + (1:ℤ) : ℤ)) =
            ((p.1 : ℤ), (p.2 + (1:ℤ) : ℤ)) := by
          rw [add_zero]
        exact this ▸ hm
    -- diagonals: excluded by the orthogonality of mono steps
    · rcases ho with h0 | h0 <;> exact absurd h0 (by norm_num)
    · rcases ho with h0 | h0 <;> exact absurd h0 (by norm_num)
    · rcases ho with h0 | h0 <;> exact absurd h0 (by norm_num)
    · rcases ho with h0 | h0 <;> exact absurd h0 (by norm_num)

theorem mono_chase_row (s : MazeSolver) (gl : Pos)
    (hdir : s.directions = DIRECTIONS_8) :
    ∀ x, MonoW s gl x → gl.1 ≠ x.1 →
    (∃ er : ℤ, (er = 1 ∨ er = -1) ∧
      (gl.1 - (x.1 + er)).natAbs + 1 = (gl.1 - x.1).natAbs ∧
      MonoW s gl ((x.1 + er : ℤ), (x.2 : ℤ))) ∨
    (∃ c, Walk s x gl c ∧ c < ((ofs gl x : ℕ) : ℚ)) := by
  intro x hm
  induction hm with
  | nil hv =>
    intro hne
    exact absurd rfl hne
  | cons p d hd ho hvp hofs hm ih =>
    intro hne
    obtain ⟨d1, d2⟩ := d
    rw [hdir] at hd
    simp only [DIRECTIONS_8, List.mem_cons, List.not_mem_nil, or_false,
      Prod.mk.injEq] at hd
    rcases hd with ⟨h1, h2⟩ | ⟨h1, h2⟩ | ⟨h1, h2⟩ | ⟨h1, h2⟩ | ⟨h1, h2⟩ |
      ⟨h1, h2⟩ | ⟨h1, h2⟩ | ⟨h1, h2⟩ <;> subst h1 <;> subst h2
    -- (-1, 0) : row step, return it
    · left
      refine ⟨-1, Or.inr rfl, ?_, ?_⟩
      · clear ih hm
        simp only [ofs] at hofs
        omega
      · have heq : ((p.1 + (-1:ℤ) : ℤ), (p.2 + (0:ℤ) : ℤ)) =
            ((p.1 + (-1:ℤ) : ℤ), (p.2 : ℤ)) := by
          rw [add_zero]
        exact heq ▸ hm
    -- (1, 0) : row step, return it
    · left
      refine ⟨1, Or.inl rfl, ?_, ?_⟩
      · clear ih hm
        simp only [ofs] at hofs
        omega
      · have heq : ((p.1 + (1:ℤ) : ℤ), (p.2 + (0:ℤ) : ℤ)) =
            ((p.1 + (1:ℤ) : ℤ), (p.2 : ℤ)) := by
          rw [add_zero]
        exact heq ▸ hm
    -- (0, -1) : column step, chase through
    · have hne2 : gl.1 ≠ ((p.1 + (0:ℤ), p.2 + (-1:ℤ)) : Pos).1 := by
        show gl.1 ≠ p.1 + 0
        rw [add_zero]
        exact hne
      rcases ih hne2 with ⟨er, her, hdrop, hmz⟩ | ⟨c, hw, hlt⟩
      · right
        have hvz : ValidPos s (((p.1 + 0) + er : ℤ), ((p.2 + (-1:ℤ)) : ℤ)) :=
          monoW_valid s gl _ hmz
        have hmem : (er, (-1 : ℤ)) ∈ s.directions := by
          rw [hdir]
          rcases her with h | h <;> subst h <;> decide
        have hstep : Walk s p (((p.1 + 0) + er : ℤ), ((p.2 + (-1:ℤ)) : ℤ))
            (0 + _get_movement_cost er (-1)) := by
          apply walk_step s p (er, (-1 : ℤ)) _ hmem ?_ hvp hvz
          show (((p.1 + 0) + er : ℤ), ((p.2 + (-1:ℤ)) : ℤ)) =
            ((p.1 + er : ℤ), (p.2 + (-1 : ℤ) : ℤ))
          rw [add_zero]
        have hmw := monoW_walk s gl _ hmz
        have happ := walk_append s p _ gl _ _ hstep hmw
        have hcd : _get_movement_cost er (-1 : ℤ) = 707/500 := by
          apply cost_diag
          · rcases her with h | h <;> subst h <;> norm_num
          · norm_num
        rw [hcd] at happ
        refine ⟨_, happ, ?_⟩
        have hsum : ofs gl (((p.1 + 0) + er : ℤ), ((p.2 + (-1:ℤ)) : ℤ)) + 2 =
            ofs gl p := by
          simp only [ofs] at hofs hdrop ⊢
          omega
        have hsq : ((ofs gl (((p.1 + 0) + er : ℤ), ((p.2 + (-1:ℤ)) : ℤ)) : ℕ) : ℚ) +
            2 = ((ofs gl p : ℕ) : ℚ) := by
          exact_mod_cast hsum
        linarith
      · right
        have hvq : ValidPos s ((p.1 + (0:ℤ), p.2 + (-1:ℤ)) : Pos) :=
          walk_valid_src s _ gl c hw
        have hstep : Walk s p ((p.1 + (0:ℤ), p.2 + (-1:ℤ)) : Pos)
            (0 + _get_movement_cost 0 (-1)) :=
          walk_step s p ((0 : ℤ), -1) _ (by rw [hdir]; decide) rfl hvp hvq
        have happ := walk_append s p _ gl _ _ hstep hw
        rw [cost_orth 0 (-1) (Or.inl rfl)] at happ
        refine ⟨_, happ, ?_⟩
        have hsq : ((ofs gl ((p.1 + (0:ℤ), p.2 + (-1:ℤ)) : Pos) : ℕ) : ℚ) + 1 =
            ((ofs gl p : ℕ) : ℚ) := by
          exact_mod_cast hofs
        linarith
    -- (0, 1) : column step, chase through
    · have hne2 : gl.1 ≠ ((p.1 + (0:ℤ), p.2 + (1:ℤ)) : Pos).1 := by
        show gl.1 ≠ p.1 + 0
        rw [add_zero]
        exact hne
      rcases ih hne2 with ⟨er, her, hdrop, hmz⟩ | ⟨c, hw, hlt⟩
      · right
        have hvz : ValidPos s (((p.1 + 0) + er : ℤ), ((p.2 + (1:ℤ)) : ℤ)) :=
          monoW_valid s gl _ hmz
        have hmem : (er, (1 : ℤ)) ∈ s.directions := by
          rw [hdir]
          rcases her with h | h <;> subst h <;> decide
        have hstep : Walk s p (((p.1 + 0) + er : ℤ), ((p.2 + (1:ℤ)) : ℤ))
            (0 + _get_movement_cost er 1) := by
          apply walk_step s p (er, (1 : ℤ)) _ hmem ?_ hvp hvz
          show (((p.1 + 0) + er : ℤ), ((p.2 + (1:ℤ)) : ℤ)) =
            ((p.1 + er : ℤ), (p.2 + (1 : ℤ) : ℤ))
          rw [add_zero]
        have hmw := monoW_walk s gl _ hmz
        have happ := walk_append s p _ gl _ _ hstep hmw
        have hcd : _get_movement_cost er (1 : ℤ) = 707/500 := by
          apply cost_diag
          · rcases her with h | h <;> subst h <;> norm_num
          · norm_num
        rw [hcd] at happ
        refine ⟨_, happ, ?_⟩
        have hsum : ofs gl (((p.1 + 0) + er : ℤ), ((p.2 + (1:ℤ)) : ℤ)) + 2 =
            ofs gl p := by
          simp only [ofs] at hofs hdrop ⊢
          omega
        have hsq : ((ofs gl (((p.1 + 0) + er : ℤ), ((p.2 + (1:ℤ)) : ℤ)) : ℕ) : ℚ) +
            2 = ((ofs gl p : ℕ) : ℚ) := by
          exact_mod_cast hsum
        linarith
      · right
        have hvq : ValidPos s ((p.1 + (0:ℤ), p.2 + (1:ℤ)) : Pos) :=
          walk_valid_src s _ gl c hw
        have hstep : Walk s p ((p.1 + (0:ℤ), p.2 + (1:ℤ)) : Pos)
            (0 + _get_movement_cost 0 1) :=
          walk_step s p ((0 : ℤ), 1) _ (by rw [hdir]; decide) rfl hvp hvq
        have happ := walk_append s p _ gl _ _ hstep hw
        rw [cost_orth 0 1 (Or.inl rfl)] at happ
        refine ⟨_, happ, ?_⟩
        have hsq : ((ofs gl ((p.1 + (0:ℤ), p.2 + (1:ℤ)) : Pos) : ℕ) : ℚ) + 1 =
            ((ofs gl p : ℕ) : ℚ) := by
          exact_mod_cast hofs
        linarith
    -- diagonals: excluded
    · rcases ho with h0 | h0 <;> exact absurd h0 (by norm_num)
    · rcases ho with h0 | h0 <;> exact absurd h0 (by norm_num)
    · rcases ho with h0 | h0 <;> exact absurd h0 (by norm_num)
    · rcases ho with h0 | h0 <;> exact absurd h0 (by norm_num)

theorem manhattan_rigidity (s : MazeSolver) (gl : Pos)
    (hdir : s.directions = DIRECTIONS_8)
    (hman : ∀ p : Pos, s.heuristic p = ((ofs gl p : ℕ) : ℚ))
    (hadm : ∀ p c, Walk s p gl c → s.heuristic p ≤ c) :
    ∀ n : ℕ, ∀ (p : Pos) (c : ℚ) (k : ℕ), Walk s p gl c → (k : ℚ) = 500 * c →
      k ≤ n → MonoW s gl p := by
  intro n
  induction n with
  | zero =>
    intro p c k hw hk hkn
    have hk0 : k = 0 := Nat.le_zero.mp hkn
    have hc0 : c = 0 := by
      rw [hk0] at hk
      push_cast at hk
      linarith
    rw [hc0] at hw
    have hpg := walk_zero s p gl hw
    have hv : ValidPos s gl := walk_valid_dst s p gl 0 hw
    rw [hpg]
    exact MonoW.nil hv
  | succ n ih =>
    intro p c k hw hk hkn
    rcases walk_front s p gl c hw with ⟨hpg, hc0⟩ | ⟨d, q, c1, hd, hq, hvq, hw1, hc⟩
    · have hv : ValidPos s gl := by
        rw [← hpg]
        exact walk_valid_src s p gl c hw
      rw [hpg]
      exact MonoW.nil hv
    · have hvp : ValidPos s p := walk_valid_src s p gl c hw
      obtain ⟨k1, hk1⟩ := walk_cost_500 s q gl c1 hw1
      have hcost1 : (1:ℚ) ≤ _get_movement_cost d.1 d.2 := by
        unfold _get_movement_cost
        split <;> norm_num
      have hk1k : k1 + 500 ≤ k := by
        have h5 : (k1:ℚ) + 500 ≤ (k:ℚ) := by
          rw [hk, hk1, hc]
          nlinarith
        exact_mod_cast h5
      have hmq : MonoW s gl q := ih q c1 k1 hw1 hk1 (by omega)
      have hadmq : ((ofs gl q : ℕ) : ℚ) ≤ c1 := by
        have h1 := hadm q c1 hw1
        rw [hman q] at h1
        exact h1
      obtain ⟨d1, d2⟩ := d
      rw [hdir] at hd
      simp only [DIRECTIONS_8, List.mem_cons, List.not_mem_nil, or_false,
        Prod.mk.injEq] at hd
      rcases hd with ⟨h1, h2⟩ | ⟨h1, h2⟩ | ⟨h1, h2⟩ | ⟨h1, h2⟩ | ⟨h1, h2⟩ |
        ⟨h1, h2⟩ | ⟨h1, h2⟩ | ⟨h1, h2⟩ <;> subst h1 <;> subst h2
      -- d = (-1, 0)
      · have hq1 : q.1 = p.1 + (-1:ℤ) := by rw [hq]
        have hq2 : q.2 = p.2 + (0:ℤ) := by rw [hq]
        rcases (by omega : (gl.1 - q.1).natAbs + 1 = (gl.1 - p.1).natAbs ∨
            (gl.1 - p.1).natAbs + 1 = (gl.1 - q.1).natAbs) with htow | haway
        · exact MonoW.cons p ((-1 : ℤ), (0 : ℤ)) (by rw [hdir]; decide)
            (Or.inr rfl) hvp (by simp only [ofs]; omega) (by rw [← hq]; exact hmq)
        · have hne : gl.1 ≠ q.1 := by omega
          rcases mono_chase_row s gl hdir q hmq hne with ⟨er, her, hdrop, hmz⟩ |
            ⟨cc, hwc, hlt⟩
          · have her1 : er = 1 := by
              rcases her with h | h
              · exact h
              · exfalso
                subst h
                omega
            subst her1
            have e1 : q.1 + (1:ℤ) = p.1 := by omega
            have hzp : ((q.1 + (1:ℤ) : ℤ), (q.2 : ℤ)) = p := by
              rw [e1, hq2, add_zero]
            exact hzp ▸ hmz
          · exfalso
            have h1 := hadm q cc hwc
            rw [hman q] at h1
            linarith
      -- d = (1, 0)
      · have hq1 : q.1 = p.1 + (1:ℤ) := by rw [hq]
        have hq2 : q.2 = p.2 + (0:ℤ) := by rw [hq]
        rcases (by omega : (gl.1 - q.1).natAbs + 1 = (gl.1 - p.1).natAbs ∨
            (gl.1 - p.1).natAbs + 1 = (gl.1 - q.1).natAbs) with htow | haway
        · exact MonoW.cons p ((1 : ℤ), (0 : ℤ)) (by rw [hdir]; decide)
            (Or.inr rfl) hvp (by simp only [ofs]; omega) (by rw [← hq]; exact hmq)
        · have hne : gl.1 ≠ q.1 := by omega
          rcases mono_chase_row s gl hdir q hmq hne with ⟨er, her, hdrop, hmz⟩ |
            ⟨cc, hwc, hlt⟩
          · have her1 : er = -1 := by
              rcases her with h | h
              · exfalso
                subst h
                omega
              · exact h
            subst her1
            have e1 : q.1 + (-1:ℤ) = p.1 := by omega
            have hzp : ((q.1 + (-1:ℤ) : ℤ), (q.2 : ℤ)) = p := by
              rw [e1, hq2, add_zero]
            exact hzp ▸ hmz
          · exfalso
            have h1 := hadm q cc hwc
            rw [hman q] at h1
            linarith
      -- d = (0, -1)
      · have hq1 : q.1 = p.1 + (0:ℤ) := by rw [hq]
        have hq2 : q.2 = p.2 + (-1:ℤ) := by rw [hq]
        rcases (by omega : (gl.2 - q.2).natAbs + 1 = (gl.2 - p.2).natAbs ∨
            (gl.2 - p.2).natAbs + 1 = (gl.2 - q.2).natAbs) with htow | haway
        · exact MonoW.cons p ((0 : ℤ), (-1 : ℤ)) (by rw [hdir]; decide)
            (Or.inl rfl) hvp (by simp only [ofs]; omega) (by rw [← hq]; exact hmq)
        · have hne : gl.2 ≠ q.2 := by omega
          rcases mono_chase_col s gl hdir q hmq hne with ⟨ec, hec, hdrop, hmz⟩ |
            ⟨cc, hwc, hlt⟩
          · have hec1 : ec = 1 := by
              rcases hec with h | h
              · exact h
              · exfalso
                subst h
                omega
            subst hec1
            have e2 : q.2 + (1:ℤ) = p.2 := by omega
            have hzp : ((q.1 : ℤ), (q.2 + (1:ℤ) : ℤ)) = p := by
              rw [e2, hq1, add_zero]
            exact hzp ▸ hmz
          · exfalso
            have h1 := hadm q cc hwc
            rw [hman q] at h1
            linarith
      -- d = (0, 1)
      · have hq1 : q.1 = p.1 + (0:ℤ) := by rw [hq]
        have hq2 : q.2 = p.2 + (1:ℤ) := by rw [hq]
        rcases (by omega : (gl.2 - q.2).natAbs + 1 = (gl.2 - p.2).natAbs ∨
            (gl.2 - p.2).natAbs + 1 = (gl.2 - q.2).natAbs) with htow | haway
        · exact MonoW.cons p ((0 : ℤ), (1 : ℤ)) (by rw [hdir]; decide)
            (Or.inl rfl) hvp (by simp only [ofs]; omega) (by rw [← hq]; exact hmq)
        · have hne : gl.2 ≠ q.2 := by omega
          rcases mono_chase_col s gl hdir q hmq hne with ⟨ec, hec, hdrop, hmz⟩ |
            ⟨cc, hwc, hlt⟩
          · have hec1 : ec = -1 := by
              rcases hec with h | h
              · exfalso
                subst h
                omega
              · exact h
            subst hec1
            have e2 : q.2 + (-1:ℤ) = p.2 := by omega
            have hzp : ((q.1 : ℤ), (q.2 + (-1:ℤ) : ℤ)) = p := by
              rw [e2, hq1, add_zero]
            exact hzp ▸ hmz
          · exfalso
            have h1 := hadm q cc hwc
            rw [hman q] at h1
            linarith
      -- d = (-1, -1)
      · have hq1 : q.1 = p.1 + (-1:ℤ) := by rw [hq]
        have hq2 : q.2 = p.2 + (-1:ℤ) := by rw [hq]
        rcases (by omega : (gl.1 - q.1).natAbs + 1 = (gl.1 - p.1).natAbs ∨
            (gl.1 - p.1).natAbs + 1 = (gl.1 - q.1).natAbs) with hrow | hrow <;>
          rcases (by omega : (gl.2 - q.2).natAbs + 1 = (gl.2 - p.2).natAbs ∨
            (gl.2 - p.2).natAbs + 1 = (gl.2 - q.2).natAbs) with hcol | hcol
        · exfalso
          have hmw := monoW_walk s gl q hmq
          have hstep : Walk s p q (0 + _get_movement_cost (-1:ℤ) (-1:ℤ)) :=
            walk_step s p ((-1:ℤ), (-1:ℤ)) q (by rw [hdir]; decide) hq hvp hvq
          have happ := walk_append s p q gl _ _ hstep hmw
          rw [cost_diag (-1:ℤ) (-1:ℤ) (by norm_num) (by norm_num)] at happ
          have h1 := hadm p _ happ
          rw [hman p] at h1
          have hofq : ofs gl q + 2 = ofs gl p := by
            simp only [ofs]
            omega
          have hofqq : ((ofs gl q : ℕ) : ℚ) + 2 = ((ofs gl p : ℕ) : ℚ) := by
            exact_mod_cast hofq
          linarith
        · have hne : gl.2 ≠ q.2 := by omega
          rcases mono_chase_col s gl hdir q hmq hne with ⟨ec, hec, hdrop, hmz⟩ |
            ⟨cc, hwc, hlt⟩
          · have hec1 : ec = (1:ℤ) := by
              rcases hec with h | h
              · exact h
              · exfalso
                subst h
                omega
            subst hec1
            have hzp : ((q.1 : ℤ), (q.2 + (1:ℤ) : ℤ)) =
                ((p.1 + (-1:ℤ) : ℤ), (p.2 + (0:ℤ) : ℤ)) := by
              rw [Prod.ext_iff]
              constructor
              · show q.1 = p.1 + (-1:ℤ)
                exact hq1
              · show q.2 + (1:ℤ) = p.2 + (0:ℤ)
                omega
            exact MonoW.cons p ((-1:ℤ), (0:ℤ)) (by rw [hdir]; decide)
              (Or.inr rfl) hvp (by simp only [ofs]; omega) (hzp ▸ hmz)
          · exfalso
            have h1 := hadm q cc hwc
            rw [hman q] at h1
            linarith
        · have hne : gl.1 ≠ q.1 := by omega
          rcases mono_chase_row s gl hdir q hmq hne with ⟨er, her, hdrop, hmz⟩ |
            ⟨cc, hwc, hlt⟩
          · have her1 : er = (1:ℤ) := by
              rcases her with h | h
              · exact h
              · exfalso
                subst h
                omega
            subst her1
            have hzp : ((q.1 + (1:ℤ) : ℤ), (q.2 : ℤ)) =
                ((p.1 + (0:ℤ) : ℤ), (p.2 + (-1:ℤ) : ℤ)) := by
              rw [Prod.ext_iff]
              constructor
              · show q.1 + (1:ℤ) = p.1 + (0:ℤ)
                omega
              · show q.2 = p.2 + (-1:ℤ)
                exact hq2
            exact MonoW.cons p ((0:ℤ), (-1:ℤ)) (by rw [hdir]; decide)
              (Or.inl rfl) hvp (by simp only [ofs]; omega) (hzp ▸ hmz)
          · exfalso
            have h1 := hadm q cc hwc
            rw [hman q] at h1
            linarith
        · have hofq2 : ofs gl q = ofs gl p + 2 := by
            simp only [ofs]
            omega
          cases hmq with
          | nil hv =>
            exfalso
            omega
          | cons _ e he heo hvq2 hofse hm2 =>
            obtain ⟨e1, e2⟩ := e
            rw [hdir] at he
            simp only [DIRECTIONS_8, List.mem_cons, List.not_mem_nil, or_false,
              Prod.mk.injEq] at he
            rcases he with ⟨he1, he2⟩ | ⟨he1, he2⟩ | ⟨he1, he2⟩ | ⟨he1, he2⟩ |
              ⟨he1, he2⟩ | ⟨he1, he2⟩ | ⟨he1, he2⟩ | ⟨he1, he2⟩ <;>
              subst he1 <;> subst he2
            · exfalso
              simp only [ofs] at hofse
              omega
            · have hzp : ((q.1 + (1:ℤ) : ℤ), (q.2 + (0:ℤ) : ℤ)) =
                  ((p.1 + (0:ℤ) : ℤ), (p.2 + (-1:ℤ) : ℤ)) := by
                rw [Prod.ext_iff]
                constructor
                · show q.1 + (1:ℤ) = p.1 + (0:ℤ)
                  omega
                · show q.2 + (0:ℤ) = p.2 + (-1:ℤ)
                  omega
              have hm2b : MonoW s gl ((p.1 + (0:ℤ) : ℤ), (p.2 + (-1:ℤ) : ℤ)) :=
                hzp ▸ hm2
              have hvx : ValidPos s ((p.1 + (0:ℤ) : ℤ), (p.2 + (-1:ℤ) : ℤ)) :=
                monoW_valid s gl _ hm2b
              have hstep2 : Walk s p ((p.1 + (0:ℤ) : ℤ), (p.2 + (-1:ℤ) : ℤ))
                  (0 + _get_movement_cost (0:ℤ) (-1:ℤ)) :=
                walk_step s p ((0:ℤ), (-1:ℤ)) _ (by rw [hdir]; decide) rfl hvp hvx
              have hmw2 := monoW_walk s gl _ hm2b
              have happ := walk_append s p _ gl _ _ hstep2 hmw2
              rw [cost_orth (0:ℤ) (-1:ℤ) (Or.inl rfl)] at happ
              have hofx : ofs gl ((p.1 + (0:ℤ) : ℤ), (p.2 + (-1:ℤ) : ℤ)) =
                  ofs gl p + 1 := by
                simp only [ofs]
                omega
              refine ih p _ (500 + 500 * ofs gl ((p.1 + (0:ℤ) : ℤ),
                (p.2 + (-1:ℤ) : ℤ))) happ ?_ ?_
              · push_cast
                ring
              · have hkb : (k : ℚ) = 707 + 500 * c1 := by
                  rw [hk, hc, cost_diag (-1:ℤ) (-1:ℤ) (by norm_num) (by norm_num)]
                  ring
                have hq2c : ((ofs gl q : ℕ) : ℚ) = ((ofs gl p : ℕ) : ℚ) + 2 := by
                  exact_mod_cast hofq2
                have hx2c : ((ofs gl ((p.1 + (0:ℤ) : ℤ), (p.2 + (-1:ℤ) : ℤ)) : ℕ) : ℚ) =
                    ((ofs gl p : ℕ) : ℚ) + 1 := by
                  exact_mod_cast hofx
                have hlt2 : ((500 + 500 * ofs gl ((p.1 + (0:ℤ) : ℤ),
                    (p.2 + (-1:ℤ) : ℤ)) : ℕ) : ℚ) < (k : ℚ) := by
                  push_cast
                  rw [hkb]
                  push_cast at hx2c
                  linarith
                have hlt3 : 500 + 500 * ofs gl ((p.1 + (0:ℤ) : ℤ),
                    (p.2 + (-1:ℤ) : ℤ)) < k := by
                  exact_mod_cast hlt2
                omega
            · exfalso
              simp only [ofs] at hofse
              omega
            · have hzp : ((q.1 + (0:ℤ) : ℤ), (q.2 + (1:ℤ) : ℤ)) =
                  ((p.1 + (-1:ℤ) : ℤ), (p.2 + (0:ℤ) : ℤ)) := by
                rw [Prod.ext_iff]
                constructor
                · show q.1 + (0:ℤ) = p.1 + (-1:ℤ)
                  omega
                · show q.2 + (1:ℤ) = p.2 + (0:ℤ)
                  omega
              have hm2b : MonoW s gl ((p.1 + (-1:ℤ) : ℤ), (p.2 + (0:ℤ) : ℤ)) :=
                hzp ▸ hm2
              have hvx : ValidPos s ((p.1 + (-1:ℤ) : ℤ), (p.2 + (0:ℤ) : ℤ)) :=
                monoW_valid s gl _ hm2b
              have hstep2 : Walk s p ((p.1 + (-1:ℤ) : ℤ), (p.2 + (0:ℤ) : ℤ))
                  (0 + _get_movement_cost (-1:ℤ) (0:ℤ)) :=
                walk_step s p ((-1:ℤ), (0:ℤ)) _ (by rw [hdir]; decide) rfl hvp hvx
              have hmw2 := monoW_walk s gl _ hm2b
              have happ := walk_append s p _ gl _ _ hstep2 hmw2
              rw [cost_orth (-1:ℤ) (0:ℤ) (Or.inr rfl)] at happ
              have hofx : ofs gl ((p.1 + (-1:ℤ) : ℤ), (p.2 + (0:ℤ) : ℤ)) =
                  ofs gl p + 1 := by
                simp only [ofs]
                omega
              refine ih p _ (500 + 500 * ofs gl ((p.1 + (-1:ℤ) : ℤ),
                (p.2 + (0:ℤ) : ℤ))) happ ?_ ?_
              · push_cast
                ring
              · have hkb : (k : ℚ) = 707 + 500 * c1 := by
                  rw [hk, hc, cost_diag (-1:ℤ) (-1:ℤ) (by norm_num) (by norm_num)]
                  ring
                have hq2c : ((ofs gl q : ℕ) : ℚ) = ((ofs gl p : ℕ) : ℚ) + 2 := by
                  exact_mod_cast hofq2
                have hx2c : ((ofs gl ((p.1 + (-1:ℤ) : ℤ), (p.2 + (0:ℤ) : ℤ)) : ℕ) : ℚ) =
                    ((ofs gl p : ℕ) : ℚ) + 1 := by
                  exact_mod_cast hofx
                have hlt2 : ((500 + 500 * ofs gl ((p.1 + (-1:ℤ) : ℤ),
                    (p.2 + (0:ℤ) : ℤ)) : ℕ) : ℚ) < (k : ℚ) := by
                  push_cast
                  rw [hkb]
                  push_cast at hx2c
                  linarith
                have hlt3 : 500 + 500 * ofs gl ((p.1 + (-1:ℤ) : ℤ),
                    (p.2 + (0:ℤ) : ℤ)) < k := by
                  exact_mod_cast hlt2
                omega
            · rcases heo with h0 | h0 <;> exact absurd h0 (by norm_num)
            · rcases heo with h0 | h0 <;> exact absurd h0 (by norm_num)
            · rcases heo with h0 | h0 <;> exact absurd h0 (by norm_num)
            · rcases heo with h0 | h0 <;> exact absurd h0 (by norm_num)

      -- d = (-1, 1)
      · have hq1 : q.1 = p.1 + (-1:ℤ) := by rw [hq]
        have hq2 : q.2 = p.2 + (1:ℤ) := by rw [hq]
        rcases (by omega : (gl.1 - q.1).natAbs + 1 = (gl.1 - p.1).natAbs ∨
            (gl.1 - p.1).natAbs + 1 = (gl.1 - q.1).natAbs) with hrow | hrow <;>
          rcases (by omega : (gl.2 - q.2).natAbs + 1 = (gl.2 - p.2).natAbs ∨
            (gl.2 - p.2).natAbs + 1 = (gl.2 - q.2).natAbs) with hcol | hcol
        · exfalso
          have hmw := monoW_walk s gl q hmq
          have hstep : Walk s p q (0 + _get_movement_cost (-1:ℤ) (1:ℤ)) :=
            walk_step s p ((-1:ℤ), (1:ℤ)) q (by rw [hdir]; decide) hq hvp hvq
          have happ := walk_append s p q gl _ _ hstep hmw
          rw [cost_diag (-1:ℤ) (1:ℤ) (by norm_num) (by norm_num)] at happ
          have h1 := hadm p _ happ
          rw [hman p] at h1
          have hofq : ofs gl q + 2 = ofs gl p := by
            simp only [ofs]
            omega
          have hofqq : ((ofs gl q : ℕ) : ℚ) + 2 = ((ofs gl p : ℕ) : ℚ) := by
            exact_mod_cast hofq
          linarith
        · have hne : gl.2 ≠ q.2 := by omega
          rcases mono_chase_col s gl hdir q hmq hne with ⟨ec, hec, hdrop, hmz⟩ |
            ⟨cc, hwc, hlt⟩
          · have hec1 : ec = (-1:ℤ) := by
              rcases hec with h | h
              · exfalso
                subst h
                omega
              · exact h
            subst hec1
            have hzp : ((q.1 : ℤ), (q.2 + (-1:ℤ) : ℤ)) =
                ((p.1 + (-1:ℤ) : ℤ), (p.2 + (0:ℤ) : ℤ)) := by
              rw [Prod.ext_iff]
              constructor
              · show q.1 = p.1 + (-1:ℤ)
                exact hq1
              · show q.2 + (-1:ℤ) = p.2 + (0:ℤ)
                omega
            exact MonoW.cons p ((-1:ℤ), (0:ℤ)) (by rw [hdir]; decide)
              (Or.inr rfl) hvp (by simp only [ofs]; omega) (hzp ▸ hmz)
          · exfalso
            have h1 := hadm q cc hwc
            rw [hman q] at h1
            linarith
        · have hne : gl.1 ≠ q.1 := by omega
          rcases mono_chase_row s gl hdir q hmq hne with ⟨er, her, hdrop, hmz⟩ |
            ⟨cc, hwc, hlt⟩
          · have her1 : er = (1:ℤ) := by
              rcases her with h | h
              · exact h
              · exfalso
                subst h
                omega
            subst her1
            have hzp : ((q.1 + (1:ℤ) : ℤ), (q.2 : ℤ)) =
                ((p.1 + (0:ℤ) : ℤ), (p.2 + (1:ℤ) : ℤ)) := by
              rw [Prod.ext_iff]
              constructor
              · show q.1 + (1:ℤ) = p.1 + (0:ℤ)
                omega
              · show q.2 = p.2 + (1:ℤ)
                exact hq2
            exact MonoW.cons p ((0:ℤ), (1:ℤ)) (by rw [hdir]; decide)
              (Or.inl rfl) hvp (by simp only [ofs]; omega) (hzp ▸ hmz)
          · exfalso
            have h1 := hadm q cc hwc
            rw [hman q] at h1
            linarith
        · have hofq2 : ofs gl q = ofs gl p + 2 := by
            simp only [ofs]
            omega
          cases hmq with
          | nil hv =>
            exfalso
            omega
          | cons _ e he heo hvq2 hofse hm2 =>
            obtain ⟨e1, e2⟩ := e
            rw [hdir] at he
            simp only [DIRECTIONS_8, List.mem_cons, List.not_mem_nil, or_false,
              Prod.mk.injEq] at he
            rcases he with ⟨he1, he2⟩ | ⟨he1, he2⟩ | ⟨he1, he2⟩ | ⟨he1, he2⟩ |
              ⟨he1, he2⟩ | ⟨he1, he2⟩ | ⟨he1, he2⟩ | ⟨he1, he2⟩ <;>
              subst he1 <;> subst he2
            · exfalso
              simp only [ofs] at hofse
              omega
            · have hzp : ((q.1 + (1:ℤ) : ℤ), (q.2 + (0:ℤ) : ℤ)) =
                  ((p.1 + (0:ℤ) : ℤ), (p.2 + (1:ℤ) : ℤ)) := by
                rw [Prod.ext_iff]
                constructor
                · show q.1 + (1:ℤ) = p.1 + (0:ℤ)
                  omega
                · show q.2 + (0:ℤ) = p.2 + (1:ℤ)
                  omega
              have hm2b : MonoW s gl ((p.1 + (0:ℤ) : ℤ), (p.2 + (1:ℤ) : ℤ)) :=
                hzp ▸ hm2
              have hvx : ValidPos s ((p.1 + (0:ℤ) : ℤ), (p.2 + (1:ℤ) : ℤ)) :=
                monoW_valid s gl _ hm2b
              have hstep2 : Walk s p ((p.1 + (0:ℤ) : ℤ), (p.2 + (1:ℤ) : ℤ))
                  (0 + _get_movement_cost (0:ℤ) (1:ℤ)) :=
                walk_step s p ((0:ℤ), (1:ℤ)) _ (by rw [hdir]; decide) rfl hvp hvx
              have hmw2 := monoW_walk s gl _ hm2b
              have happ := walk_append s p _ gl _ _ hstep2 hmw2
              rw [cost_orth (0:ℤ) (1:ℤ) (Or.inl rfl)] at happ
              have hofx : ofs gl ((p.1 + (0:ℤ) : ℤ), (p.2 + (1:ℤ) : ℤ)) =
                  ofs gl p + 1 := by
                simp only [ofs]
                omega
              refine ih p _ (500 + 500 * ofs gl ((p.1 + (0:ℤ) : ℤ),
                (p.2 + (1:ℤ) : ℤ))) happ ?_ ?_
              · push_cast
                ring
              · have hkb : (k : ℚ) = 707 + 500 * c1 := by
                  rw [hk, hc, cost_diag (-1:ℤ) (1:ℤ) (by norm_num) (by norm_num)]
                  ring
                have hq2c : ((ofs gl q : ℕ) : ℚ) = ((ofs gl p : ℕ) : ℚ) + 2 := by
                  exact_mod_cast hofq2
                have hx2c : ((ofs gl ((p.1 + (0:ℤ) : ℤ), (p.2 + (1:ℤ) : ℤ)) : ℕ) : ℚ) =
                    ((ofs gl p : ℕ) : ℚ) + 1 := by
                  exact_mod_cast hofx
                have hlt2 : ((500 + 500 * ofs gl ((p.1 + (0:ℤ) : ℤ),
                    (p.2 + (1:ℤ) : ℤ)) : ℕ) : ℚ) < (k : ℚ) := by
                  push_cast
                  rw [hkb]
                  push_cast at hx2c
                  linarith
                have hlt3 : 500 + 500 * ofs gl ((p.1 + (0:ℤ) : ℤ),
                    (p.2 + (1:ℤ) : ℤ)) < k := by
                  exact_mod_cast hlt2
                omega
            · have hzp : ((q.1 + (0:ℤ) : ℤ), (q.2 + (-1:ℤ) : ℤ)) =
                  ((p.1 + (-1:ℤ) : ℤ), (p.2 + (0:ℤ) : ℤ)) := by
                rw [Prod.ext_iff]
                constructor
                · show q.1 + (0:ℤ) = p.1 + (-1:ℤ)
                  omega
                · show q.2 + (-1:ℤ) = p.2 + (0:ℤ)
                  omega
              have hm2b : MonoW s gl ((p.1 + (-1:ℤ) : ℤ), (p.2 + (0:ℤ) : ℤ)) :=
                hzp ▸ hm2
              have hvx : ValidPos s ((p.1 + (-1:ℤ) : ℤ), (p.2 + (0:ℤ) : ℤ)) :=
                monoW_valid s gl _ hm2b
              have hstep2 : Walk s p ((p.1 + (-1:ℤ) : ℤ), (p.2 + (0:ℤ) : ℤ))
                  (0 + _get_movement_cost (-1:ℤ) (0:ℤ)) :=
                walk_step s p ((-1:ℤ), (0:ℤ)) _ (by rw [hdir]; decide) rfl hvp hvx
              have hmw2 := monoW_walk s gl _ hm2b
              have happ := walk_append s p _ gl _ _ hstep2 hmw2
              rw [cost_orth (-1:ℤ) (0:ℤ) (Or.inr rfl)] at happ
              have hofx : ofs gl ((p.1 + (-1:ℤ) : ℤ), (p.2 + (0:ℤ) : ℤ)) =
                  ofs gl p + 1 := by
                simp only [ofs]
                omega
              refine ih p _ (500 + 500 * ofs gl ((p.1 + (-1:ℤ) : ℤ),
                (p.2 + (0:ℤ) : ℤ))) happ ?_ ?_
              · push_cast
                ring
              · have hkb : (k : ℚ) = 707 + 500 * c1 := by
                  rw [hk, hc, cost_diag (-1:ℤ) (1:ℤ) (by norm_num) (by norm_num)]
                  ring
                have hq2c : ((ofs gl q : ℕ) : ℚ) = ((ofs gl p : ℕ) : ℚ) + 2 := by
                  exact_mod_cast hofq2
                have hx2c : ((ofs gl ((p.1 + (-1:ℤ) : ℤ), (p.2 + (0:ℤ) : ℤ)) : ℕ) : ℚ) =
                    ((ofs gl p : ℕ) : ℚ) + 1 := by
                  exact_mod_cast hofx
                have hlt2 : ((500 + 500 * ofs gl ((p.1 + (-1:ℤ) : ℤ),
                    (p.2 + (0:ℤ) : ℤ)) : ℕ) : ℚ) < (k : ℚ) := by
                  push_cast
                  rw [hkb]
                  push_cast at hx2c
                  linarith
                have hlt3 : 500 + 500 * ofs gl ((p.1 + (-1:ℤ) : ℤ),
                    (p.2 + (0:ℤ) : ℤ)) < k := by
                  exact_mod_cast hlt2
                omega
            · exfalso
              simp only [ofs] at hofse
              omega
            · rcases heo with h0 | h0 <;> exact absurd h0 (by norm_num)
            · rcases heo with h0 | h0 <;> exact absurd h0 (by norm_num)
            · rcases heo with h0 | h0 <;> exact absurd h0 (by norm_num)
            · rcases heo with h0 | h0 <;> exact absurd h0 (by norm_num)

      -- d = (1, -1)
      · have hq1 : q.1 = p.1 + (1:ℤ) := by rw [hq]
        have hq2 : q.2 = p.2 + (-1:ℤ) := by rw [hq]
        rcases (by omega : (gl.1 - q.1).natAbs + 1 = (gl.1 - p.1).natAbs ∨
            (gl.1 - p.1).natAbs + 1 = (gl.1 - q.1).natAbs) with hrow | hrow <;>
          rcases (by omega : (gl.2 - q.2).natAbs + 1 = (gl.2 - p.2).natAbs ∨
            (gl.2 - p.2).natAbs + 1 = (gl.2 - q.2).natAbs) with hcol | hcol
        · exfalso
          have hmw := monoW_walk s gl q hmq
          have hstep : Walk s p q (0 + _get_movement_cost (1:ℤ) (-1:ℤ)) :=
            walk_step s p ((1:ℤ), (-1:ℤ)) q (by rw [hdir]; decide) hq hvp hvq
          have happ := walk_append s p q gl _ _ hstep hmw
          rw [cost_diag (1:ℤ) (-1:ℤ) (by norm_num) (by norm_num)] at happ
          have h1 := hadm p _ happ
          rw [hman p] at h1
          have hofq : ofs gl q + 2 = ofs gl p := by
            simp only [ofs]
            omega
          have hofqq : ((ofs gl q : ℕ) : ℚ) + 2 = ((ofs gl p : ℕ) : ℚ) := by
            exact_mod_cast hofq
          linarith
        · have hne : gl.2 ≠ q.2 := by omega
          rcases mono_chase_col s gl hdir q hmq hne with ⟨ec, hec, hdrop, hmz⟩ |
            ⟨cc, hwc, hlt⟩
          · have hec1 : ec = (1:ℤ) := by
              rcases hec with h | h
              · exact h
              · exfalso
                subst h
                omega
            subst hec1
            have hzp : ((q.1 : ℤ), (q.2 + (1:ℤ) : ℤ)) =
                ((p.1 + (1:ℤ) : ℤ), (p.2 + (0:ℤ) : ℤ)) := by
              rw [Prod.ext_iff]
              constructor
              · show q.1 = p.1 + (1:ℤ)
                exact hq1
              · show q.2 + (1:ℤ) = p.2 + (0:ℤ)
                omega
            exact MonoW.cons p ((1:ℤ), (0:ℤ)) (by rw [hdir]; decide)
              (Or.inr rfl) hvp (by simp only [ofs]; omega) (hzp ▸ hmz)
          · exfalso
            have h1 := hadm q cc hwc
            rw [hman q] at h1
            linarith
        · have hne : gl.1 ≠ q.1 := by omega
          rcases mono_chase_row s gl hdir q hmq hne with ⟨er, her, hdrop, hmz⟩ |
            ⟨cc, hwc, hlt⟩
          · have her1 : er = (-1:ℤ) := by
              rcases her with h | h
              · exfalso
                subst h
                omega
              · exact h
            subst her1
            have hzp : ((q.1 + (-1:ℤ) : ℤ), (q.2 : ℤ)) =
                ((p.1 + (0:ℤ) : ℤ), (p.2 + (-1:ℤ) : ℤ)) := by
              rw [Prod.ext_iff]
              constructor
              · show q.1 + (-1:ℤ) = p.1 + (0:ℤ)
                omega
              · show q.2 = p.2 + (-1:ℤ)
                exact hq2
            exact MonoW.cons p ((0:ℤ), (-1:ℤ)) (by rw [hdir]; decide)
              (Or.inl rfl) hvp (by simp only [ofs]; omega) (hzp ▸ hmz)
          · exfalso
            have h1 := hadm q cc hwc
            rw [hman q] at h1
            linarith
        · have hofq2 : ofs gl q = ofs gl p + 2 := by
            simp only [ofs]
            omega
          cases hmq with
          | nil hv =>
            exfalso
            omega
          | cons _ e he heo hvq2 hofse hm2 =>
            obtain ⟨e1, e2⟩ := e
            rw [hdir] at he
            simp only [DIRECTIONS_8, List.mem_cons, List.not_mem_nil, or_false,
              Prod.mk.injEq] at he
            rcases he with ⟨he1, he2⟩ | ⟨he1, he2⟩ | ⟨he1, he2⟩ | ⟨he1, he2⟩ |
              ⟨he1, he2⟩ | ⟨he1, he2⟩ | ⟨he1, he2⟩ | ⟨he1, he2⟩ <;>
              subst he1 <;> subst he2
            · have hzp : ((q.1 + (-1:ℤ) : ℤ), (q.2 + (0:ℤ) : ℤ)) =
                  ((p.1 + (0:ℤ) : ℤ), (p.2 + (-1:ℤ) : ℤ)) := by
                rw [Prod.ext_iff]
                constructor
                · show q.1 + (-1:ℤ) = p.1 + (0:ℤ)
                  omega
                · show q.2 + (0:ℤ) = p.2 + (-1:ℤ)
                  omega
              have hm2b : MonoW s gl ((p.1 + (0:ℤ) : ℤ), (p.2 + (-1:ℤ) : ℤ)) :=
                hzp ▸ hm2
              have hvx : ValidPos s ((p.1 + (0:ℤ) : ℤ), (p.2 + (-1:ℤ) : ℤ)) :=
                monoW_valid s gl _ hm2b
              have hstep2 : Walk s p ((p.1 + (0:ℤ) : ℤ), (p.2 + (-1:ℤ) : ℤ))
                  (0 + _get_movement_cost (0:ℤ) (-1:ℤ)) :=
                walk_step s p ((0:ℤ), (-1:ℤ)) _ (by rw [hdir]; decide) rfl hvp hvx
              have hmw2 := monoW_walk s gl _ hm2b
              have happ := walk_append s p _ gl _ _ hstep2 hmw2
              rw [cost_orth (0:ℤ) (-1:ℤ) (Or.inl rfl)] at happ
              have hofx : ofs gl ((p.1 + (0:ℤ) : ℤ), (p.2 + (-1:ℤ) : ℤ)) =
                  ofs gl p + 1 := by
                simp only [ofs]
                omega
              refine ih p _ (500 + 500 * ofs gl ((p.1 + (0:ℤ) : ℤ),
                (p.2 + (-1:ℤ) : ℤ))) happ ?_ ?_
              · push_cast
                ring
              · have hkb : (k : ℚ) = 707 + 500 * c1 := by
                  rw [hk, hc, cost_diag (1:ℤ) (-1:ℤ) (by norm_num) (by norm_num)]
                  ring
                have hq2c : ((ofs gl q : ℕ) : ℚ) = ((ofs gl p : ℕ) : ℚ) + 2 := by
                  exact_mod_cast hofq2
                have hx2c : ((ofs gl ((p.1 + (0:ℤ) : ℤ), (p.2 + (-1:ℤ) : ℤ)) : ℕ) : ℚ) =
                    ((ofs gl p : ℕ) : ℚ) + 1 := by
                  exact_mod_cast hofx
                have hlt2 : ((500 + 500 * ofs gl ((p.1 + (0:ℤ) : ℤ),
                    (p.2 + (-1:ℤ) : ℤ)) : ℕ) : ℚ) < (k : ℚ) := by
                  push_cast
                  rw [hkb]
                  push_cast at hx2c
                  linarith
                have hlt3 : 500 + 500 * ofs gl ((p.1 + (0:ℤ) : ℤ),
                    (p.2 + (-1:ℤ) : ℤ)) < k := by
                  exact_mod_cast hlt2
                omega
            · exfalso
              simp only [ofs] at hofse
              omega
            · exfalso
              simp only [ofs] at hofse
              omega
            · have hzp : ((q.1 + (0:ℤ) : ℤ), (q.2 + (1:ℤ) : ℤ)) =
                  ((p.1 + (1:ℤ) : ℤ), (p.2 + (0:ℤ) : ℤ)) := by
                rw [Prod.ext_iff]
                constructor
                · show q.1 + (0:ℤ) = p.1 + (1:ℤ)
                  omega
                · show q.2 + (1:ℤ) = p.2 + (0:ℤ)
                  omega
              have hm2b : MonoW s gl ((p.1 + (1:ℤ) : ℤ), (p.2 + (0:ℤ) : ℤ)) :=
                hzp ▸ hm2
              have hvx : ValidPos s ((p.1 + (1:ℤ) : ℤ), (p.2 + (0:ℤ) : ℤ)) :=
                monoW_valid s gl _ hm2b
              have hstep2 : Walk s p ((p.1 + (1:ℤ) : ℤ), (p.2 + (0:ℤ) : ℤ))
                  (0 + _get_movement_cost (1:ℤ) (0:ℤ)) :=
                walk_step s p ((1:ℤ), (0:ℤ)) _ (by rw [hdir]; decide) rfl hvp hvx
              have hmw2 := monoW_walk s gl _ hm2b
              have happ := walk_append s p _ gl _ _ hstep2 hmw2
              rw [cost_orth (1:ℤ) (0:ℤ) (Or.inr rfl)] at happ
              have hofx : ofs gl ((p.1 + (1:ℤ) : ℤ), (p.2 + (0:ℤ) : ℤ)) =
                  ofs gl p + 1 := by
                simp only [ofs]
                omega
              refine ih p _ (500 + 500 * ofs gl ((p.1 + (1:ℤ) : ℤ),
                (p.2 + (0:ℤ) : ℤ))) happ ?_ ?_
              · push_cast
                ring
              · have hkb : (k : ℚ) = 707 + 500 * c1 := by
                  rw [hk, hc, cost_diag (1:ℤ) (-1:ℤ) (by norm_num) (by norm_num)]
                  ring
                have hq2c : ((ofs gl q : ℕ) : ℚ) = ((ofs gl p : ℕ) : ℚ) + 2 := by
                  exact_mod_cast hofq2
                have hx2c : ((ofs gl ((p.1 + (1:ℤ) : ℤ), (p.2 + (0:ℤ) : ℤ)) : ℕ) : ℚ) =
                    ((ofs gl p : ℕ) : ℚ) + 1 := by
                  exact_mod_cast hofx
                have hlt2 : ((500 + 500 * ofs gl ((p.1 + (1:ℤ) : ℤ),
                    (p.2 + (0:ℤ) : ℤ)) : ℕ) : ℚ) < (k : ℚ) := by
                  push_cast
                  rw [hkb]
                  push_cast at hx2c
                  linarith
                have hlt3 : 500 + 500 * ofs gl ((p.1 + (1:ℤ) : ℤ),
                    (p.2 + (0:ℤ) : ℤ)) < k := by
                  exact_mod_cast hlt2
                omega
            · rcases heo with h0 | h0 <;> exact absurd h0 (by norm_num)
            · rcases heo with h0 | h0 <;> exact absurd h0 (by norm_num)
            · rcases heo with h0 | h0 <;> exact absurd h0 (by norm_num)
            · rcases heo with h0 | h0 <;> exact absurd h0 (by norm_num)

      -- d = (1, 1)
      · have hq1 : q.1 = p.1 + (1:ℤ) := by rw [hq]
        have hq2 : q.2 = p.2 + (1:ℤ) := by rw [hq]
        rcases (by omega : (gl.1 - q.1).natAbs + 1 = (gl.1 - p.1).natAbs ∨
            (gl.1 - p.1).natAbs + 1 = (gl.1 - q.1).natAbs) with hrow | hrow <;>
          rcases (by omega : (gl.2 - q.2).natAbs + 1 = (gl.2 - p.2).natAbs ∨
            (gl.2 - p.2).natAbs + 1 = (gl.2 - q.2).natAbs) with hcol | hcol
        · exfalso
          have hmw := monoW_walk s gl q hmq
          have hstep : Walk s p q (0 + _get_movement_cost (1:ℤ) (1:ℤ)) :=
            walk_step s p ((1:ℤ), (1:ℤ)) q (by rw [hdir]; decide) hq hvp hvq
          have happ := walk_append s p q gl _ _ hstep hmw
          rw [cost_diag (1:ℤ) (1:ℤ) (by norm_num) (by norm_num)] at happ
          have h1 := hadm p _ happ
          rw [hman p] at h1
          have hofq : ofs gl q + 2 = ofs gl p := by
            simp only [ofs]
            omega
          have hofqq : ((ofs gl q : ℕ) : ℚ) + 2 = ((ofs gl p : ℕ) : ℚ) := by
            exact_mod_cast hofq
          linarith
        · have hne : gl.2 ≠ q.2 := by omega
          rcases mono_chase_col s gl hdir q hmq hne with ⟨ec, hec, hdrop, hmz⟩ |
            ⟨cc, hwc, hlt⟩
          · have hec1 : ec = (-1:ℤ) := by
              rcases hec with h | h
              · exfalso
                subst h
                omega
              · exact h
            subst hec1
            have hzp : ((q.1 : ℤ), (q.2 + (-1:ℤ) : ℤ)) =
                ((p.1 + (1:ℤ) : ℤ), (p.2 + (0:ℤ) : ℤ)) := by
              rw [Prod.ext_iff]
              constructor
              · show q.1 = p.1 + (1:ℤ)
                exact hq1
              · show q.2 + (-1:ℤ) = p.2 + (0:ℤ)
                omega
            exact MonoW.cons p ((1:ℤ), (0:ℤ)) (by rw [hdir]; decide)
              (Or.inr rfl) hvp (by simp only [ofs]; omega) (hzp ▸ hmz)
          · exfalso
            have h1 := hadm q cc hwc
            rw [hman q] at h1
            linarith
        · have hne : gl.1 ≠ q.1 := by omega
          rcases mono_chase_row s gl hdir q hmq hne with ⟨er, her, hdrop, hmz⟩ |
            ⟨cc, hwc, hlt⟩
          · have her1 : er = (-1:ℤ) := by
              rcases her with h | h
              · exfalso
                subst h
                omega
              · exact h
            subst her1
            have hzp : ((q.1 + (-1:ℤ) : ℤ), (q.2 : ℤ)) =
                ((p.1 + (0:ℤ) : ℤ), (p.2 + (1:ℤ) : ℤ)) := by
              rw [Prod.ext_iff]
              constructor
              · show q.1 + (-1:ℤ) = p.1 + (0:ℤ)
                omega
              · show q.2 = p.2 + (1:ℤ)
                exact hq2
            exact MonoW.cons p ((0:ℤ), (1:ℤ)) (by rw [hdir]; decide)
              (Or.inl rfl) hvp (by simp only [ofs]; omega) (hzp ▸ hmz)
          · exfalso
            have h1 := hadm q cc hwc
            rw [hman q] at h1
            linarith
        · have hofq2 : ofs gl q = ofs gl p + 2 := by
            simp only [ofs]
            omega
          cases hmq with
          | nil hv =>
            exfalso
            omega
          | cons _ e he heo hvq2 hofse hm2 =>
            obtain ⟨e1, e2⟩ := e
            rw [hdir] at he
            simp only [DIRECTIONS_8, List.mem_cons, List.not_mem_nil, or_false,
              Prod.mk.injEq] at he
            rcases he with ⟨he1, he2⟩ | ⟨he1, he2⟩ | ⟨he1, he2⟩ | ⟨he1, he2⟩ |
              ⟨he1, he2⟩ | ⟨he1, he2⟩ | ⟨he1, he2⟩ | ⟨he1, he2⟩ <;>
              subst he1 <;> subst he2
            · have hzp : ((q.1 + (-1:ℤ) : ℤ), (q.2 + (0:ℤ) : ℤ)) =
                  ((p.1 + (0:ℤ) : ℤ), (p.2 + (1:ℤ) : ℤ)) := by
                rw [Prod.ext_iff]
                constructor
                · show q.1 + (-1:ℤ) = p.1 + (0:ℤ)
                  omega
                · show q.2 + (0:ℤ) = p.2 + (1:ℤ)
                  omega
              have hm2b : MonoW s gl ((p.1 + (0:ℤ) : ℤ), (p.2 + (1:ℤ) : ℤ)) :=
                hzp ▸ hm2
              have hvx : ValidPos s ((p.1 + (0:ℤ) : ℤ), (p.2 + (1:ℤ) : ℤ)) :=
                monoW_valid s gl _ hm2b
              have hstep2 : Walk s p ((p.1 + (0:ℤ) : ℤ), (p.2 + (1:ℤ) : ℤ))
                  (0 + _get_movement_cost (0:ℤ) (1:ℤ)) :=
                walk_step s p ((0:ℤ), (1:ℤ)) _ (by rw [hdir]; decide) rfl hvp hvx
              have hmw2 := monoW_walk s gl _ hm2b
              have happ := walk_append s p _ gl _ _ hstep2 hmw2
              rw [cost_orth (0:ℤ) (1:ℤ) (Or.inl rfl)] at happ
              have hofx : ofs gl ((p.1 + (0:ℤ) : ℤ), (p.2 + (1:ℤ) : ℤ)) =
                  ofs gl p + 1 := by
                simp only [ofs]
                omega
              refine ih p _ (500 + 500 * ofs gl ((p.1 + (0:ℤ) : ℤ),
                (p.2 + (1:ℤ) : ℤ))) happ ?_ ?_
              · push_cast
                ring
              · have hkb : (k : ℚ) = 707 + 500 * c1 := by
                  rw [hk, hc, cost_diag (1:ℤ) (1:ℤ) (by norm_num) (by norm_num)]
                  ring
                have hq2c : ((ofs gl q : ℕ) : ℚ) = ((ofs gl p : ℕ) : ℚ) + 2 := by
                  exact_mod_cast hofq2
                have hx2c : ((ofs gl ((p.1 + (0:ℤ) : ℤ), (p.2 + (1:ℤ) : ℤ)) : ℕ) : ℚ) =
                    ((ofs gl p : ℕ) : ℚ) + 1 := by
                  exact_mod_cast hofx
                have hlt2 : ((500 + 500 * ofs gl ((p.1 + (0:ℤ) : ℤ),
                    (p.2 + (1:ℤ) : ℤ)) : ℕ) : ℚ) < (k : ℚ) := by
                  push_cast
                  rw [hkb]
                  push_cast at hx2c
                  linarith
                have hlt3 : 500 + 500 * ofs gl ((p.1 + (0:ℤ) : ℤ),
                    (p.2 + (1:ℤ) : ℤ)) < k := by
                  exact_mod_cast hlt2
                omega
            · exfalso
              simp only [ofs] at hofse
              omega
            · have hzp : ((q.1 + (0:ℤ) : ℤ), (q.2 + (-1:ℤ) : ℤ)) =
                  ((p.1 + (1:ℤ) : ℤ), (p.2 + (0:ℤ) : ℤ)) := by
                rw [Prod.ext_iff]
                constructor
                · show q.1 + (0:ℤ) = p.1 + (1:ℤ)
                  omega
                · show q.2 + (-1:ℤ) = p.2 + (0:ℤ)
                  omega
              have hm2b : MonoW s gl ((p.1 + (1:ℤ) : ℤ), (p.2 + (0:ℤ) : ℤ)) :=
                hzp ▸ hm2
              have hvx : ValidPos s ((p.1 + (1:ℤ) : ℤ), (p.2 + (0:ℤ) : ℤ)) :=
                monoW_valid s gl _ hm2b
              have hstep2 : Walk s p ((p.1 + (1:ℤ) : ℤ), (p.2 + (0:ℤ) : ℤ))
                  (0 + _get_movement_cost (1:ℤ) (0:ℤ)) :=
                walk_step s p ((1:ℤ), (0:ℤ)) _ (by rw [hdir]; decide) rfl hvp hvx
              have hmw2 := monoW_walk s gl _ hm2b
              have happ := walk_append s p _ gl _ _ hstep2 hmw2
              rw [cost_orth (1:ℤ) (0:ℤ) (Or.inr rfl)] at happ
              have hofx : ofs gl ((p.1 + (1:ℤ) : ℤ), (p.2 + (0:ℤ) : ℤ)) =
                  ofs gl p + 1 := by
                simp only [ofs]
                omega
              refine ih p _ (500 + 500 * ofs gl ((p.1 + (1:ℤ) : ℤ),
                (p.2 + (0:ℤ) : ℤ))) happ ?_ ?_
              · push_cast
                ring
              · have hkb : (k : ℚ) = 707 + 500 * c1 := by
                  rw [hk, hc, cost_diag (1:ℤ) (1:ℤ) (by norm_num) (by norm_num)]
                  ring
                have hq2c : ((ofs gl q : ℕ) : ℚ) = ((ofs gl p : ℕ) : ℚ) + 2 := by
                  exact_mod_cast hofq2
                have hx2c : ((ofs gl ((p.1 + (1:ℤ) : ℤ), (p.2 + (0:ℤ) : ℤ)) : ℕ) : ℚ) =
                    ((ofs gl p : ℕ) : ℚ) + 1 := by
                  exact_mod_cast hofx
                have hlt2 : ((500 + 500 * ofs gl ((p.1 + (1:ℤ) : ℤ),
                    (p.2 + (0:ℤ) : ℤ)) : ℕ) : ℚ) < (k : ℚ) := by
                  push_cast
                  rw [hkb]
                  push_cast at hx2c
                  linarith
                have hlt3 : 500 + 500 * ofs gl ((p.1 + (1:ℤ) : ℤ),
                    (p.2 + (0:ℤ) : ℤ)) < k := by
                  exact_mod_cast hlt2
                omega
            · exfalso
              simp only [ofs] at hofse
              omega
            · rcases heo with h0 | h0 <;> exact absurd h0 (by norm_num)
            · rcases heo with h0 | h0 <;> exact absurd h0 (by norm_num)
            · rcases heo with h0 | h0 <;> exact absurd h0 (by norm_num)
            · rcases heo with h0 | h0 <;> exact absurd h0 (by norm_num)

theorem mkSolver_hfun (maze : List (List ℕ)) (hname : String) (hfun : Pos → Pos → ℚ)
    (ad : Bool) (s : MazeSolver) (hmk : mkSolver maze hname hfun ad = some s) :
    s.hfun = hfun := by
  simp only [mkSolver] at hmk
  cases hscan : _find_start_goal maze maze.length (colCount maze) with
  | none =>
    rw [show (if maze.isEmpty then 0 else (maze.headD []).length) = colCount maze from rfl,
      hscan] at hmk
    exact Option.noConfusion hmk
  | some p =>
    obtain ⟨a, b⟩ := p
    rw [show (if maze.isEmpty then 0 else (maze.headD []).length) = colCount maze from rfl,
      hscan] at hmk
    have hrec := Option.some.inj hmk
    rw [← hrec]

theorem cost_ge_one (a b : ℤ) : (1 : ℚ) ≤ _get_movement_cost a b := by
  unfold _get_movement_cost
  split <;> norm_num

theorem manhattan_d4_rconsistent (s : MazeSolver) (gl : Pos)
    (hgl : s.goal = some gl) (hfe : s.hfun = manhattanFn)
    (hdir : s.directions = DIRECTIONS_4) : RConsistent s gl := by
  intro p d hd hvp hvq _
  simp only [MazeSolver.heuristic, hgl]
  rw [hfe]
  rw [hdir] at hd
  obtain ⟨d1, d2⟩ := d
  simp only [DIRECTIONS_4, List.mem_cons, List.not_mem_nil, or_false,
    Prod.mk.injEq] at hd
  rw [manhattanFn_ofs, manhattanFn_ofs]
  have horth : d1 = 0 ∨ d2 = 0 := by
    rcases hd with ⟨h1, h2⟩ | ⟨h1, h2⟩ | ⟨h1, h2⟩ | ⟨h1, h2⟩ <;> subst h1 <;>
      subst h2
    · exact Or.inr rfl
    · exact Or.inr rfl
    · exact Or.inl rfl
    · exact Or.inl rfl
  rw [cost_orth d1 d2 horth]
  have hofs : ofs gl p ≤ 1 + ofs gl ((p.1 + d1 : ℤ), (p.2 + d2 : ℤ)) := by
    simp only [ofs]
    rcases hd with ⟨h1, h2⟩ | ⟨h1, h2⟩ | ⟨h1, h2⟩ | ⟨h1, h2⟩ <;> subst h1 <;>
      subst h2 <;> omega
  have hq : ((ofs gl p : ℕ) : ℚ) ≤ 1 +
      ((ofs gl ((p.1 + d1 : ℤ), (p.2 + d2 : ℤ)) : ℕ) : ℚ) := by
    exact_mod_cast hofs
  exact hq

theorem chebyshev_rconsistent (s : MazeSolver) (gl : Pos)
    (hgl : s.goal = some gl) (hfe : s.hfun = chebyshevFn)
    (hdir : s.directions = DIRECTIONS_4 ∨ s.directions = DIRECTIONS_8) :
    RConsistent s gl := by
  intro p d hd hvp hvq _
  simp only [MazeSolver.heuristic, hgl]
  rw [hfe]
  have hd8 : d ∈ DIRECTIONS_8 := by
    rcases hdir with h | h <;> rw [h] at hd
    · simp only [DIRECTIONS_4, List.mem_cons, List.not_mem_nil, or_false] at hd
      rcases hd with h | h | h | h <;> subst h <;> decide
    · exact hd
  obtain ⟨d1, d2⟩ := d
  simp only [DIRECTIONS_8, List.mem_cons, List.not_mem_nil, or_false,
    Prod.mk.injEq] at hd8
  have hcomp : (d1 = -1 ∨ d1 = 0 ∨ d1 = 1) ∧ (d2 = -1 ∨ d2 = 0 ∨ d2 = 1) := by
    rcases hd8 with ⟨h1, h2⟩ | ⟨h1, h2⟩ | ⟨h1, h2⟩ | ⟨h1, h2⟩ | ⟨h1, h2⟩ |
      ⟨h1, h2⟩ | ⟨h1, h2⟩ | ⟨h1, h2⟩ <;> subst h1 <;> subst h2 <;>
      exact ⟨by norm_num, by norm_num⟩
  unfold chebyshevFn
  have hb1 : |p.1 - gl.1| ≤ 1 + |p.1 + d1 - gl.1| := by
    rw [Int.abs_eq_natAbs, Int.abs_eq_natAbs]
    rcases hcomp.1 with h | h | h <;> subst h <;> omega
  have hb2 : |p.2 - gl.2| ≤ 1 + |p.2 + d2 - gl.2| := by
    rw [Int.abs_eq_natAbs, Int.abs_eq_natAbs]
    rcases hcomp.2 with h | h | h <;> subst h <;> omega
  have hmax : (max |p.1 - gl.1| |p.2 - gl.2| : ℤ) ≤
      1 + max |p.1 + d1 - gl.1| |p.2 + d2 - gl.2| := by
    apply max_le
    · exact le_trans hb1 (by
        have := le_max_left |p.1 + d1 - gl.1| |p.2 + d2 - gl.2|
        omega)
    · exact le_trans hb2 (by
        have := le_max_right |p.1 + d1 - gl.1| |p.2 + d2 - gl.2|
        omega)
  have hmaxq : ((max |p.1 - gl.1| |p.2 - gl.2| : ℤ) : ℚ) ≤
      1 + ((max |p.1 + d1 - gl.1| |p.2 + d2 - gl.2| : ℤ) : ℚ) := by
    exact_mod_cast hmax
  have hc1 := cost_ge_one d1 d2
  linarith

theorem manhattan_d8_rconsistent (s : MazeSolver) (gl : Pos)
    (hgl : s.goal = some gl) (hfe : s.hfun = manhattanFn)
    (hdir : s.directions = DIRECTIONS_8) (hadm : Admissible s) :
    RConsistent s gl := by
  have hman : ∀ p : Pos, s.heuristic p = ((ofs gl p : ℕ) : ℚ) := by
    intro p
    simp only [MazeSolver.heuristic, hgl]
    rw [hfe]
    exact manhattanFn_ofs gl p
  have hadm2 : ∀ p c, Walk s p gl c → s.heuristic p ≤ c :=
    fun p c hw => hadm gl hgl p c hw
  intro p d hd hvp hvq hreach
  obtain ⟨c, hwq⟩ := hreach
  obtain ⟨k, hk⟩ := walk_cost_500 s _ gl c hwq
  have hmq := manhattan_rigidity s gl hdir hman hadm2 k _ c k hwq hk le_rfl
  have hwt := monoW_walk s gl _ hmq
  have hstep : Walk s p ((p.1 + d.1 : ℤ), (p.2 + d.2 : ℤ))
      (0 + _get_movement_cost d.1 d.2) :=
    walk_step s p d _ hd rfl hvp hvq
  have happ := walk_append s p _ gl _ _ hstep hwt
  have h1 := hadm2 p _ happ
  rw [hman p] at h1 ⊢
  rw [hman ((p.1 + d.1 : ℤ), (p.2 + d.2 : ℤ))]
  linarith

theorem admissible_of_rconsistent (s : MazeSolver)
    (h : ∀ gl, s.goal = some gl → RConsistent s gl ∧ s.heuristic gl = 0) :
    Admissible s := by
  intro gl hgl p c hw
  obtain ⟨hrc, h0⟩ := h gl hgl
  have hb := rconsistent_along_walk s gl hrc p gl c hw
    ⟨0, Walk.nil gl (walk_valid_dst s p gl c hw)⟩
  rw [h0] at hb
  linarith

/-- C1: on every grid where `solve` returns a path, if the configured
heuristic (Manhattan or Chebyshev — the two whose float values are exact
decimals, so they are representable here) is admissible on that grid and
movement topology, then the reported `path_cost` is the minimum cost of any
legal move sequence from start to goal.  The interesting case — Manhattan
with diagonal movement, where the heuristic is not consistent in general —
holds because admissibility of Manhattan on an 8-connected grid forces the
true distance to equal the Manhattan distance at every cell from which the
goal is reachable, and the no-reopening A* loop is optimal under that
restricted consistency. -/
theorem C1_admissible_optimal (maze : List (List ℕ)) (hname : String)
    (hfun : Pos → Pos → ℚ) (ad : Bool) (s sv : MazeSolver)
    (res : Option (List Pos)) (stats : Stats) (path : List Pos)
    (hmk : mkSolver maze hname hfun ad = some s)
    (hfuns : hfun = manhattanFn ∨ hfun = chebyshevFn)
    (hadm : Admissible s)
    (hrun : s.solve = some (sv, res, stats)) (hres : res = some path) :
    ∃ st0 gl c, s.start = some st0 ∧ s.goal = some gl ∧
      stats.path_cost = some c ∧ Walk s st0 gl c ∧
      ∀ w, Walk s st0 gl w → c ≤ w := by
  cases hst : s.start with
  | none =>
    unfold MazeSolver.solve at hrun
    rw [hst] at hrun
    cases hgb : s.goal <;> rw [hgb] at hrun <;>
      exact absurd ((congrArg (fun x => x.2.1) (Option.some.inj hrun)).trans
        hres) (by simp)
  | some st0 =>
    cases hgb : s.goal with
    | none =>
      unfold MazeSolver.solve at hrun
      rw [hst, hgb] at hrun
      exact absurd ((congrArg (fun x => x.2.1) (Option.some.inj hrun)).trans
        hres) (by simp)
    | some gl =>
      have hfe := mkSolver_hfun maze hname hfun ad s hmk
      obtain ⟨_, _, _, _, hdirs, _, _⟩ := mkSolver_fields maze hname hfun ad s hmk
      have hrc : RConsistent s gl := by
        rcases hfuns with hf | hf
        · cases ad with
          | false =>
            exact manhattan_d4_rconsistent s gl hgb (by rw [hfe, hf])
              (by rw [hdirs]; rfl)
          | true =>
            exact manhattan_d8_rconsistent s gl hgb (by rw [hfe, hf])
              (by rw [hdirs]; rfl) hadm
        · apply chebyshev_rconsistent s gl hgb (by rw [hfe, hf])
          cases ad with
          | false =>
            exact Or.inl (by rw [hdirs]; rfl)
          | true =>
            exact Or.inr (by rw [hdirs]; rfl)
      obtain ⟨stF, hloop, hsv⟩ :=
        solve_characterization s st0 gl hst hgb sv res stats hrun
      have hv0 := mkSolver_start_validpos maze hname hfun ad s st0 hmk hst
      obtain ⟨c, hcost, hwalk, hmin⟩ := solveLoop_opt s st0 gl hrc (solveFuel s) _
        stF res stats path (init_inv s st0 hv0) (init_opt s st0 gl) hloop hres
      exact ⟨st0, gl, c, rfl, rfl, hcost, hwalk, hmin⟩

/-- C1 witness: the example run on `[[2,0,0,0,3]]` with the Manhattan
heuristic and 4-directional movement, where the heuristic is admissible;
the theorem applies and certifies the reported cost as minimal. -/
theorem C1_admissible_optimal_witness :
    ∃ s sv path stats,
      mkSolver [[2,0,0,0,3]] "manhattan" manhattanFn false = some s ∧
      Admissible s ∧
      MazeSolver.solve s = some (sv, some path, stats) ∧
      ∃ st0 gl c, s.start = some st0 ∧ s.goal = some gl ∧
        stats.path_cost = some c ∧ Walk s st0 gl c ∧
        ∀ w, Walk s st0 gl w → c ≤ w := by
  cases hmk : mkSolver [[2,0,0,0,3]] "manhattan" manhattanFn false with
  | none =>
    have hs : (mkSolver [[2,0,0,0,3]] "manhattan" manhattanFn false).isSome =
        true := rfl
    rw [hmk] at hs
    exact Bool.noConfusion hs
  | some s =>
    have hglc : s.goal = some ((0 : ℤ), (4 : ℤ)) := by
      have hbig : (mkSolver [[2,0,0,0,3]] "manhattan" manhattanFn false).map
          MazeSolver.goal = some (some ((0 : ℤ), (4 : ℤ))) := by
        with_unfolding_all rfl
      rw [hmk] at hbig
      exact Option.some.inj hbig
    have hfe := mkSolver_hfun [[2,0,0,0,3]] "manhattan" manhattanFn false s hmk
    obtain ⟨_, _, _, _, hdirs, _, _⟩ :=
      mkSolver_fields [[2,0,0,0,3]] "manhattan" manhattanFn false s hmk
    have hadm : Admissible s := by
      apply admissible_of_rconsistent
      intro gl hgl
      have hgleq : gl = ((0 : ℤ), (4 : ℤ)) := by
        rw [hglc] at hgl
        exact (Option.some.inj hgl).symm
      subst hgleq
      constructor
      · exact manhattan_d4_rconsistent s _ hglc hfe (by rw [hdirs]; rfl)
      · simp only [MazeSolver.heuristic, hglc]
        rw [hfe]
        unfold manhattanFn
        norm_num
    have hres : (s.solve).map (fun r => r.2.1) =
        some (some [(0,0),(0,1),(0,2),(0,3),(0,4)]) := by
      have hbig : ((mkSolver [[2,0,0,0,3]] "manhattan" manhattanFn false).bind
          MazeSolver.solve).map (fun r => r.2.1) =
          some (some [(0,0),(0,1),(0,2),(0,3),(0,4)]) := by
        with_unfolding_all rfl
      rw [hmk] at hbig
      exact hbig
    cases hrun : s.solve with
    | none =>
      rw [hrun] at hres
      exact Option.noConfusion hres
    | some out =>
      obtain ⟨sv, res, stats⟩ := out
      rw [hrun] at hres
      have hres2 : res = some [(0,0),(0,1),(0,2),(0,3),(0,4)] :=
        Option.some.inj hres
      subst hres2
      exact ⟨s, sv, _, stats, rfl, hadm, hrun,
        C1_admissible_optimal [[2,0,0,0,3]] "manhattan" manhattanFn false s sv _
          stats _ hmk (Or.inl rfl) hadm hrun rfl⟩
